import Mathlib

/-!
# Producer/consumer prime-factoring pipeline (`p4.c`)

A shallow embedding of the C program `src/p4.c` and a verification development
of its factoring routine, its circular buffers and its three-thread pipeline.

Modelling conventions.

* A C `int` is a Lean `Int`; loop counters, array indices and square-root
  thresholds, which the program only ever holds at non-negative values, are
  `Nat`.  Every intermediate value the factoring code computes for an input
  `0 ≤ num < 2^31` is bounded by `num` (or by `2 * floor(sqrt(num))`), so no
  arithmetic leaves the `int` range and no wrap-around is modelled.
* `floor(sqrt(num))` is the integer square root.  For `num < 0` the C
  conversion of the resulting NaN to `int` is undefined; the model takes `0`,
  with which (as with the `INT_MIN` x86 produces) none of the loops runs.
* `num % d` is C's truncated remainder `Int.tmod`, `num / d` is `Int.tdiv`.
* A loop is a function that recurses on a fuel argument and carries the loop
  variables; the fuel handed over by the caller bounds the iteration count, and
  running out of it takes the same exit as the loop condition turning false.
  Termination is stated with the `_within` variants of the loops, which return
  `none` when a step budget runs out before the loop leaves by itself.
* The flag table is the list of the bytes `calloc` returned.  The program also
  reads the byte at `flags[primeThreshold]`, one past the last allocated byte;
  the model takes the content of that byte as the parameter `slack`, and a
  statement that does not fix `slack` holds whatever that byte contains.
* The `primes` array of an item is the list of its `MAX_FACTORS` slots.  A
  store `primes[count] = v` with `count` past the last slot lands outside the
  item; the model records it in `FactorMem.spill` and leaves the slots alone.
-/

namespace P4

/-! ## Constants and data -/

/-- `#define BUFFER_SIZE 10` -/
def BUFFER_SIZE : Nat := 10

/-- `#define MAX_FACTORS 10` -/
def MAX_FACTORS : Nat := 10

/-- `#define SENTINEL (-1)` -/
def SENTINEL : Int := -1

/-- `struct data`: a number and the slots for its prime factors. -/
structure Data where
  num : Int
  primes : List Int
  deriving DecidableEq, Repr

/-- The `memset(temp.primes, 0, sizeof(temp.primes))` of `main`. -/
def zeroPrimes : List Int := List.replicate MAX_FACTORS 0

/-- The item `main` builds for one command-line number. -/
def mkData (num : Int) : Data := { num := num, primes := zeroPrimes }

/-! ## Integer square root -/

/-- Upward search for the largest `r` with `r * r ≤ n`, starting from `r`. -/
def sqrt_search (n : Nat) : Nat → Nat → Nat
  | 0, r => r
  | fuel + 1, r => if (r + 1) * (r + 1) ≤ n then sqrt_search n fuel (r + 1) else r

/-- `floor(sqrt(num))` converted to `int`. -/
def floor_sqrt (num : Int) : Nat := sqrt_search num.toNat num.toNat 0

/-! ## `prime_tester` -/

/-- The `for (i = 1; i < primeThreshold; i++)` loop of `prime_tester`. -/
def prime_tester_loop (num : Int) (primeThreshold : Nat) : Nat → Nat → Int
  | 0, _ => 1
  | fuel + 1, i =>
    if i < primeThreshold then
      let temp : Int := 2 * (i : Int) + 1
      if num.tmod temp = 0 then 0
      else prime_tester_loop num primeThreshold fuel (i + 1)
    else 1

/-- `int prime_tester(int num)` -/
def prime_tester (num : Int) : Int :=
  if num.tmod 2 = 0 then
    if num = 2 then 1 else 0
  else
    let primeThreshold := floor_sqrt num
    prime_tester_loop num primeThreshold primeThreshold 1

/-! ## `prime_builder` -/

/-- A read `flags[i]`: the allocated byte, or the byte past the allocation. -/
def readFlag (slack : Nat) (flags : List Nat) (i : Nat) : Nat := flags.getD i slack

/-- The `for (j = 2 * i; j < primeThreshold; j += i)` loop of `prime_builder`. -/
def prime_builder_inner (primeThreshold i : Nat) : Nat → Nat → List Nat → List Nat
  | 0, _, flags => flags
  | fuel + 1, j, flags =>
    if j < primeThreshold then
      prime_builder_inner primeThreshold i fuel (j + i) (flags.set j 1)
    else flags

/-- The `for (i = 2; i <= primeThreshold; i++)` loop of `prime_builder`. -/
def prime_builder_outer (slack primeThreshold : Nat) : Nat → Nat → List Nat → List Nat
  | 0, _, flags => flags
  | fuel + 1, i, flags =>
    if i ≤ primeThreshold then
      if readFlag slack flags i = 0 then
        prime_builder_outer slack primeThreshold fuel (i + 1)
          (prime_builder_inner primeThreshold i primeThreshold (2 * i) flags)
      else
        prime_builder_outer slack primeThreshold fuel (i + 1) flags
    else flags

/-- `void prime_builder(char* flags, int primeThreshold)` -/
def prime_builder (slack : Nat) (flags : List Nat) (primeThreshold : Nat) : List Nat :=
  prime_builder_outer slack primeThreshold primeThreshold 2 flags

/-! ## `trial_divider` -/

/-- The memory `trial_divider` stores into through `primes`: the slots of the
item, and the stores that went past the last slot, in program order. -/
structure FactorMem where
  slots : List Int
  spill : List (Nat × Int)
  deriving DecidableEq, Repr

/-- The store `primes[count] = v`. -/
def store (m : FactorMem) (count : Nat) (v : Int) : FactorMem :=
  if count < m.slots.length then { m with slots := m.slots.set count v }
  else { m with spill := m.spill ++ [(count, v)] }

/-- The scan of `trial_divider`, from loop index `i` on.  The recursive call
`trial_divider(component, flags, primes, count)` is the last thing its
iteration does before `break`, so it is the same scan restarted at `i = 2` on
`component`; one unit of fuel is one loop iteration at any recursion depth. -/
def trial_divider_from (slack : Nat) (flags : List Nat) :
    Nat → Int → Nat → FactorMem → Nat → FactorMem
  | 0, _, _, primes, _ => primes
  | fuel + 1, num, i, primes, count =>
    if i ≤ floor_sqrt num then
      if readFlag slack flags i ≠ 0 then
        trial_divider_from slack flags fuel num (i + 1) primes count
      else
        let prime : Int := i
        if prime ^ 2 = num then
          store (store primes count prime) (count + 1) prime
        else if num.tmod prime = 0 then
          let primes := store primes count prime
          let count := count + 1
          let component := num.tdiv prime
          if prime_tester component ≠ 0 then
            store primes count component
          else
            trial_divider_from slack flags fuel component 2 primes count
        else
          trial_divider_from slack flags fuel num (i + 1) primes count
    else primes

/-- `void trial_divider(int num, char* flags, int primes[], int count)` -/
def trial_divider (slack : Nat) (fuel : Nat) (num : Int) (flags : List Nat)
    (primes : FactorMem) (count : Nat) : FactorMem :=
  trial_divider_from slack flags fuel num 2 primes count

/-! ## `factor` -/

/-- The body of `factor`: the memory reached through `data->primes` when it
returns. -/
def factor_mem (slack : Nat) (data : Data) : FactorMem :=
  let num := data.num
  let count := 0
  let primes : FactorMem := { slots := data.primes, spill := [] }
  if prime_tester num ≠ 0 then
    store primes count num
  else
    let primeThreshold := floor_sqrt num
    let flags := List.replicate primeThreshold 0
    let flags := prime_builder slack flags primeThreshold
    trial_divider slack num.toNat num flags primes count

/-- `void* factor(void* container)`: the item it returns. -/
def factor (slack : Nat) (data : Data) : Data :=
  { num := data.num, primes := (factor_mem slack data).slots }

/-- The factors `consumer` prints for an item: the slots `j < MAX_FACTORS`
with `primes[j] > 0`, in index order. -/
def printed_factors (data : Data) : List Int :=
  (data.primes.take MAX_FACTORS).filter (fun v => decide (0 < v))

/-- The factor list of `num` as the pipeline delivers it. -/
def factor_list (slack : Nat) (num : Int) : List Int :=
  printed_factors (factor slack (mkData num))

/-! ## The circular buffer -/

/-- `struct buffer`: the slots and the two indices.  The mutex and the two
condition variables only serialise and park the callers; a call that would
park is modelled by `none`. -/
structure Buffer where
  buff : List Data
  in_ : Nat
  out : Nat
  deriving DecidableEq, Repr

/-- An item of zero-initialised static storage. -/
def zeroData : Data := { num := 0, primes := zeroPrimes }

/-- A global `Buffer` at program start, for a capacity constant `size`. -/
def buffer_init (size : Nat) : Buffer :=
  { buff := List.replicate size zeroData, in_ := 0, out := 0 }

/-- The critical section of `buffer_add`, for a capacity constant `size`:
`none` while the full test `(in + 1) % size == out` holds. -/
def buffer_add_sized (size : Nat) (buffer : Buffer) (data : Data) : Option Buffer :=
  if (buffer.in_ + 1) % size = buffer.out then none
  else
    some { buffer with
      buff := buffer.buff.set buffer.in_ data
      in_ := (buffer.in_ + 1) % size }

/-- The critical section of `buffer_remove`, for a capacity constant `size`:
`none` while the empty test `in == out` holds. -/
def buffer_remove_sized (size : Nat) (buffer : Buffer) : Option (Data × Buffer) :=
  if buffer.in_ = buffer.out then none
  else
    let temp := buffer.buff.getD buffer.out zeroData
    some (temp, { buffer with out := (buffer.out + 1) % size })

/-- `void buffer_add(Buffer* buffer, Data* data)` -/
def buffer_add (buffer : Buffer) (data : Data) : Option Buffer :=
  buffer_add_sized BUFFER_SIZE buffer data

/-- `Data buffer_remove(Buffer* buffer)` -/
def buffer_remove (buffer : Buffer) : Option (Data × Buffer) :=
  buffer_remove_sized BUFFER_SIZE buffer

/-- One operation on a buffer. -/
inductive Op where
  | add (data : Data)
  | remove
  deriving DecidableEq, Repr

/-- The items passed to `buffer_add` by a sequence of operations, in order. -/
def added : List Op → List Data
  | [] => []
  | Op.add d :: ops => d :: added ops
  | Op.remove :: ops => added ops

/-- Runs a sequence of operations, each of which must proceed; yields the final
buffer and the items `buffer_remove` returned, in order. -/
def run_ops : Buffer → List Op → Option (Buffer × List Data)
  | b, [] => some (b, [])
  | b, Op.add d :: ops =>
    match buffer_add b d with
    | none => none
    | some b' => run_ops b' ops
  | b, Op.remove :: ops =>
    match buffer_remove b with
    | none => none
    | some (d, b') =>
      match run_ops b' ops with
      | none => none
      | some (bf, outs) => some (bf, d :: outs)

/-- Reachable buffer states, with the items added and not yet removed (oldest
first). -/
inductive Reach : Buffer → List Data → Prop where
  | init : Reach (buffer_init BUFFER_SIZE) []
  | add {b b' : Buffer} {q : List Data} (d : Data) :
      Reach b q → buffer_add b d = some b' → Reach b' (q ++ [d])
  | remove {b b' : Buffer} {q : List Data} (d : Data) :
      Reach b q → buffer_remove b = some (d, b') → Reach b' q.tail

/-- The number of held items, `(in - out) mod BUFFER_SIZE`. -/
def occupancy (b : Buffer) : Int := ((b.in_ : Int) - (b.out : Int)) % (BUFFER_SIZE : Int)

/-- The layout of a buffer holding the items `q`: both indices in range, `q`
stored in the slots `out, out + 1, ...` up to `in`, circularly. -/
def BufInv (b : Buffer) (q : List Data) : Prop :=
  b.buff.length = BUFFER_SIZE ∧ b.in_ < BUFFER_SIZE ∧ b.out < BUFFER_SIZE ∧
    q.length < BUFFER_SIZE ∧ (b.out + q.length) % BUFFER_SIZE = b.in_ ∧
    ∀ k, k < q.length → b.buff[(b.out + k) % BUFFER_SIZE]? = q[k]?

/-! ## The three threads -/

/-- The sentinel item `main` builds after the last number. -/
def sentinelData : Data := { num := SENTINEL, primes := zeroPrimes }

/-- Where the `while (1)` loop of `producer` stands between two buffer calls. -/
inductive ProdState where
  /-- about to call `buffer_remove(&mp_buffer)` -/
  | removing
  /-- holds the factored `temp`, about to call `buffer_add(&cp_buffer, &temp)` -/
  | adding (temp : Data)
  /-- holds the sentinel, about to call `buffer_add(&cp_buffer, &temp)` and return -/
  | finishing (temp : Data)
  /-- has returned -/
  | done
  deriving DecidableEq, Repr

/-- The state of the program between critical sections: the two global
buffers, the numbers `main` has yet to add, whether `main` has added the
sentinel, the producer loop, whether `consumer` has returned, and the lines
`consumer` has printed (number, printed factors). -/
structure Pipeline where
  mp_buffer : Buffer
  cp_buffer : Buffer
  args : List Int
  main_done : Bool
  prod : ProdState
  cons_done : Bool
  printed : List (Int × List Int)
  deriving DecidableEq, Repr

/-- The three threads. -/
inductive Thread where
  | main
  | producer
  | consumer
  deriving DecidableEq, Repr

/-- The state at program start, for a capacity constant `size` and the numbers
given on the command line. -/
def pipeline_init_sized (size : Nat) (args : List Int) : Pipeline :=
  { mp_buffer := buffer_init size, cp_buffer := buffer_init size, args := args,
    main_done := false, prod := ProdState.removing, cons_done := false, printed := [] }

/-- The next buffer call of `main`: `buffer_add(&mp_buffer, &temp)` for the next
number, then `buffer_add(&mp_buffer, &sentinel)`; `none` if the call waits or
`main` is past both. -/
def main_step (size : Nat) (s : Pipeline) : Option Pipeline :=
  match s.args with
  | num :: rest =>
    match buffer_add_sized size s.mp_buffer (mkData num) with
    | none => none
    | some b => some { s with mp_buffer := b, args := rest }
  | [] =>
    if s.main_done then none
    else
      match buffer_add_sized size s.mp_buffer sentinelData with
      | none => none
      | some b => some { s with mp_buffer := b, main_done := true }

/-- The next buffer call of `producer`, with the thread-local work that
follows it up to the next buffer call. -/
def producer_step (size slack : Nat) (s : Pipeline) : Option Pipeline :=
  match s.prod with
  | ProdState.removing =>
    match buffer_remove_sized size s.mp_buffer with
    | none => none
    | some (temp, b) =>
      if temp.num = SENTINEL then
        some { s with mp_buffer := b, prod := ProdState.finishing temp }
      else
        some { s with mp_buffer := b, prod := ProdState.adding (factor slack temp) }
  | ProdState.adding temp =>
    match buffer_add_sized size s.cp_buffer temp with
    | none => none
    | some b => some { s with cp_buffer := b, prod := ProdState.removing }
  | ProdState.finishing temp =>
    match buffer_add_sized size s.cp_buffer temp with
    | none => none
    | some b => some { s with cp_buffer := b, prod := ProdState.done }
  | ProdState.done => none

/-- The next buffer call of `consumer`, `buffer_remove(&cp_buffer)`, with the
printing that follows it. -/
def consumer_step (size : Nat) (s : Pipeline) : Option Pipeline :=
  if s.cons_done then none
  else
    match buffer_remove_sized size s.cp_buffer with
    | none => none
    | some (temp, b) =>
      if temp.num = SENTINEL then
        some { s with cp_buffer := b, cons_done := true }
      else
        some { s with cp_buffer := b, printed := s.printed ++ [(temp.num, printed_factors temp)] }

/-- One scheduled thread performs its next buffer call; `none` if it waits or
has returned. -/
def step_sized (size slack : Nat) (s : Pipeline) : Thread → Option Pipeline
  | Thread.main => main_step size s
  | Thread.producer => producer_step size slack s
  | Thread.consumer => consumer_step size s

/-- Runs a schedule: the threads named get the processor in turn; a thread
that waits or has returned leaves the state as it is. -/
def run_sized (size slack : Nat) : Pipeline → List Thread → Pipeline
  | s, [] => s
  | s, t :: ts => run_sized size slack ((step_sized size slack s t).getD s) ts

/-- The program as compiled, with `BUFFER_SIZE` slots per buffer. -/
def pipeline_init (args : List Int) : Pipeline := pipeline_init_sized BUFFER_SIZE args

/-- A run of the program as compiled. -/
def run (slack : Nat) (s : Pipeline) (sched : List Thread) : Pipeline :=
  run_sized BUFFER_SIZE slack s sched

/-- The line the pipeline owes for the input number `num`. -/
def output_line (slack : Nat) (num : Int) : Int × List Int := (num, factor_list slack num)

/-- What `producer` makes of an item it removed. -/
def produced (slack : Nat) (d : Data) : Data :=
  if d.num = SENTINEL then d else factor slack d

/-- The items `main` has yet to add. -/
def main_rest (s : Pipeline) : List Data :=
  s.args.map mkData ++ (if s.main_done then [] else [sentinelData])

/-- The item `producer` holds between its two buffer calls. -/
def prod_hold : ProdState → List Data
  | ProdState.removing => []
  | ProdState.adding temp => [temp]
  | ProdState.finishing temp => [temp]
  | ProdState.done => []

/-- The items `producer` has yet to remove, given the content of `mp_buffer`. -/
def upstream (s : Pipeline) (qm : List Data) : List Data := qm ++ main_rest s

/-- The buffer calls still to come, weighted by stage. -/
def work (s : Pipeline) (qm qc : List Data) : Nat :=
  4 * (main_rest s).length + 3 * qm.length + 2 * (prod_hold s.prod).length + qc.length

/-! ## Any capacity constant, and the items put into the buffers -/

/-- The layout of a buffer of `size` slots holding the items `q`. -/
def BufInvS (size : Nat) (b : Buffer) (q : List Data) : Prop :=
  b.buff.length = size ∧ b.in_ < size ∧ b.out < size ∧
    q.length < size ∧ (b.out + q.length) % size = b.in_ ∧
    ∀ k, k < q.length → b.buff[(b.out + k) % size]? = q[k]?

/-- The input numbers before the first one equal to `SENTINEL`: those the
producer gets to factor. -/
def effective (args : List Int) : List Int :=
  args.takeWhile (fun n => decide (n ≠ SENTINEL))

/-- The items `main` adds after the first item whose number is `SENTINEL`. -/
def junk (args : List Int) : List Data :=
  match args.dropWhile (fun n => decide (n ≠ SENTINEL)) with
  | [] => []
  | _ :: rest => rest.map mkData ++ [sentinelData]

/-- The item the next `buffer_add(&mp_buffer, ...)` of `main` passes. -/
def main_item (s : Pipeline) : Option Data :=
  match s.args with
  | num :: _ => some (mkData num)
  | [] => if s.main_done then none else some sentinelData

/-- The item the next `buffer_add(&cp_buffer, &temp)` of `producer` passes, if
that is its next buffer call. -/
def producer_item (s : Pipeline) : Option Data :=
  match s.prod with
  | ProdState.adding temp => some temp
  | ProdState.finishing temp => some temp
  | _ => none

/-- The items a step of thread `t` that proceeds puts into `mp_buffer` and into
`cp_buffer`. -/
def step_puts (s : Pipeline) : Thread → List Data × List Data
  | Thread.main => ((main_item s).toList, [])
  | Thread.producer => ([], (producer_item s).toList)
  | Thread.consumer => ([], [])

/-- The items put into `mp_buffer` and into `cp_buffer` along a schedule, in
order. -/
def run_puts_sized (size slack : Nat) : Pipeline → List Thread → List Data × List Data
  | _, [] => ([], [])
  | s, t :: ts =>
    match step_sized size slack s t with
    | none => run_puts_sized size slack s ts
    | some s' =>
      ((step_puts s t).1 ++ (run_puts_sized size slack s' ts).1,
        (step_puts s t).2 ++ (run_puts_sized size slack s' ts).2)

/-- The items put into the two buffers by the program as compiled. -/
def run_puts (slack : Nat) (s : Pipeline) (sched : List Thread) : List Data × List Data :=
  run_puts_sized BUFFER_SIZE slack s sched

/-- The invariant of the pipeline for a capacity constant `size`: `eff` are
the numbers to be factored, `J` the items behind the first sentinel item, `qm`
and `qc` the buffer contents and `U` the items up to the first sentinel item
that `producer` has yet to remove. -/
def GInv (size slack : Nat) (eff : List Int) (J : List Data) (s : Pipeline)
    (qm qc U : List Data) : Prop :=
  BufInvS size s.mp_buffer qm ∧ BufInvS size s.cp_buffer qc ∧
    upstream s qm = U ++ J ∧
    (∀ d, s.prod = ProdState.finishing d → d.num = SENTINEL) ∧
    ((s.prod = ProdState.done ∨ ∃ d, s.prod = ProdState.finishing d) → U = []) ∧
    ((s.prod = ProdState.removing ∨ ∃ d, s.prod = ProdState.adding d) → U ≠ []) ∧
    (s.cons_done = true →
      qc ++ prod_hold s.prod ++ U.map (produced slack) = [] ∧
      s.printed = eff.map (output_line slack)) ∧
    (s.cons_done = false → ∃ rest : List Int, SENTINEL ∉ rest ∧
      qc ++ prod_hold s.prod ++ U.map (produced slack) =
        rest.map (fun n => factor slack (mkData n)) ++ [sentinelData] ∧
      eff.map (output_line slack) = s.printed ++ rest.map (output_line slack))

/-! ## Flag-table accesses and recursive invocations -/

/-- The indices the inner loop of `prime_builder` writes (`flags[j] = 1`), in
order. -/
def prime_builder_inner_writes (primeThreshold i : Nat) : Nat → Nat → List Nat
  | 0, _ => []
  | fuel + 1, j =>
    if j < primeThreshold then
      j :: prime_builder_inner_writes primeThreshold i fuel (j + i)
    else []

/-- The indices at which the loops of `prime_builder` read (`flags[i]`) and
write (`flags[j]`) the table, in program order. -/
def prime_builder_outer_accesses (slack primeThreshold : Nat) : Nat → Nat → List Nat → List Nat
  | 0, _, _ => []
  | fuel + 1, i, flags =>
    if i ≤ primeThreshold then
      if readFlag slack flags i = 0 then
        i :: (prime_builder_inner_writes primeThreshold i primeThreshold (2 * i) ++
          prime_builder_outer_accesses slack primeThreshold fuel (i + 1)
            (prime_builder_inner primeThreshold i primeThreshold (2 * i) flags))
      else
        i :: prime_builder_outer_accesses slack primeThreshold fuel (i + 1) flags
    else []

/-- The table indices `prime_builder(flags, primeThreshold)` accesses. -/
def prime_builder_accesses (slack : Nat) (flags : List Nat) (primeThreshold : Nat) : List Nat :=
  prime_builder_outer_accesses slack primeThreshold primeThreshold 2 flags

/-- The indices at which the scan of `trial_divider` reads `flags[i]`, in
order, through all recursive invocations. -/
def trial_divider_reads (slack : Nat) (flags : List Nat) : Nat → Int → Nat → List Nat
  | 0, _, _ => []
  | fuel + 1, num, i =>
    if i ≤ floor_sqrt num then
      if readFlag slack flags i ≠ 0 then
        i :: trial_divider_reads slack flags fuel num (i + 1)
      else
        let prime : Int := i
        if prime ^ 2 = num then [i]
        else if num.tmod prime = 0 then
          let component := num.tdiv prime
          if prime_tester component ≠ 0 then [i]
          else i :: trial_divider_reads slack flags fuel component 2
        else
          i :: trial_divider_reads slack flags fuel num (i + 1)
    else []

/-- The arguments `component` of the recursive invocations
`trial_divider(component, flags, primes, count)`, in order. -/
def trial_divider_calls (slack : Nat) (flags : List Nat) : Nat → Int → Nat → List Int
  | 0, _, _ => []
  | fuel + 1, num, i =>
    if i ≤ floor_sqrt num then
      if readFlag slack flags i ≠ 0 then
        trial_divider_calls slack flags fuel num (i + 1)
      else
        let prime : Int := i
        if prime ^ 2 = num then []
        else if num.tmod prime = 0 then
          let component := num.tdiv prime
          if prime_tester component ≠ 0 then []
          else component :: trial_divider_calls slack flags fuel component 2
        else
          trial_divider_calls slack flags fuel num (i + 1)
    else []

/-- The number of bytes `factor` allocates for the flag table:
`calloc(primeThreshold, 1)`. -/
def factor_flag_size (data : Data) : Nat := floor_sqrt data.num

/-- The table indices `factor` has `prime_builder` access. -/
def factor_builder_accesses (slack : Nat) (data : Data) : List Nat :=
  if prime_tester data.num ≠ 0 then []
  else
    let primeThreshold := floor_sqrt data.num
    prime_builder_accesses slack (List.replicate primeThreshold 0) primeThreshold

/-- The table indices `factor` has `trial_divider` read. -/
def factor_divider_reads (slack : Nat) (data : Data) : List Nat :=
  if prime_tester data.num ≠ 0 then []
  else
    let primeThreshold := floor_sqrt data.num
    let flags := prime_builder slack (List.replicate primeThreshold 0) primeThreshold
    trial_divider_reads slack flags data.num.toNat data.num 2

/-- The recursive invocations of `trial_divider` that `factor` causes. -/
def factor_calls (slack : Nat) (data : Data) : List Int :=
  if prime_tester data.num ≠ 0 then []
  else
    let primeThreshold := floor_sqrt data.num
    let flags := prime_builder slack (List.replicate primeThreshold 0) primeThreshold
    trial_divider_calls slack flags data.num.toNat data.num 2

/-! ## Loops with a step budget

The same loops and calls, with a budget of steps that is not part of the
program: the result is `none` when the budget runs out before the loop leaves
through its own exit test, and `some` of the result otherwise. -/

/-- The loop of `prime_tester` under a step budget. -/
def prime_tester_loop_within (num : Int) (primeThreshold : Nat) : Nat → Nat → Option Int
  | 0, _ => none
  | budget + 1, i =>
    if i < primeThreshold then
      let temp : Int := 2 * (i : Int) + 1
      if num.tmod temp = 0 then some 0
      else prime_tester_loop_within num primeThreshold budget (i + 1)
    else some 1

/-- The function `prime_tester` with its loop under a step budget. -/
def prime_tester_within (budget : Nat) (num : Int) : Option Int :=
  if num.tmod 2 = 0 then
    (if num = 2 then some 1 else some 0)
  else
    let primeThreshold := floor_sqrt num
    prime_tester_loop_within num primeThreshold budget 1

/-- The inner loop of `prime_builder` under a step budget. -/
def prime_builder_inner_within (primeThreshold i : Nat) : Nat → Nat → List Nat → Option (List Nat)
  | 0, _, _ => none
  | budget + 1, j, flags =>
    if j < primeThreshold then
      prime_builder_inner_within primeThreshold i budget (j + i) (flags.set j 1)
    else some flags

/-- The outer loop of `prime_builder` under a step budget; every run of the
inner loop gets the budget `inner`. -/
def prime_builder_outer_within (slack primeThreshold inner : Nat) :
    Nat → Nat → List Nat → Option (List Nat)
  | 0, _, _ => none
  | budget + 1, i, flags =>
    if i ≤ primeThreshold then
      if readFlag slack flags i = 0 then
        match prime_builder_inner_within primeThreshold i inner (2 * i) flags with
        | none => none
        | some flags => prime_builder_outer_within slack primeThreshold inner budget (i + 1) flags
      else
        prime_builder_outer_within slack primeThreshold inner budget (i + 1) flags
    else some flags

/-- The scan of `trial_divider` with its recursive invocations under a step
budget; every call of `prime_tester` gets the budget `inner`. -/
def trial_divider_from_within (slack : Nat) (flags : List Nat) (inner : Nat) :
    Nat → Int → Nat → FactorMem → Nat → Option FactorMem
  | 0, _, _, _, _ => none
  | budget + 1, num, i, primes, count =>
    if i ≤ floor_sqrt num then
      if readFlag slack flags i ≠ 0 then
        trial_divider_from_within slack flags inner budget num (i + 1) primes count
      else
        let prime : Int := i
        if prime ^ 2 = num then
          some (store (store primes count prime) (count + 1) prime)
        else if num.tmod prime = 0 then
          let primes := store primes count prime
          let count := count + 1
          let component := num.tdiv prime
          match prime_tester_within inner component with
          | none => none
          | some r =>
            if r ≠ 0 then some (store primes count component)
            else trial_divider_from_within slack flags inner budget component 2 primes count
        else
          trial_divider_from_within slack flags inner budget num (i + 1) primes count
    else some primes

/-- The function `factor` with every loop and the recursion of `trial_divider`
under the step budget `budget`. -/
def factor_mem_within (budget slack : Nat) (data : Data) : Option FactorMem :=
  let num := data.num
  let count := 0
  let primes : FactorMem := { slots := data.primes, spill := [] }
  match prime_tester_within budget num with
  | none => none
  | some r =>
    if r ≠ 0 then some (store primes count num)
    else
      let primeThreshold := floor_sqrt num
      let flags := List.replicate primeThreshold 0
      match prime_builder_outer_within slack primeThreshold budget budget 2 flags with
      | none => none
      | some flags => trial_divider_from_within slack flags budget budget num 2 primes count

/-- Every prime index inside a table of `size` bytes reads as unflagged. -/
def TableClear (slack : Nat) (flags : List Nat) (size : Nat) : Prop :=
  ∀ q : ℕ, q.Prime → q < size → readFlag slack flags q = 0

/-! ## Specification-side notions -/

/-- The primality definition of the specification: 2, or odd with no odd
divisor in `[3, floor(sqrt n)]`. -/
def spec_prime (n : ℕ) : Prop :=
  n = 2 ∨ (n % 2 = 1 ∧ ∀ d, d ≤ Nat.sqrt n → 3 ≤ d → d % 2 = 1 → ¬ (d ∣ n))

instance spec_prime_decidable : DecidablePred spec_prime :=
  fun n => by unfold spec_prime; infer_instance

/-- No allocated flag of a prime index is set. -/
def FlagsSound (flags : List Nat) : Prop :=
  ∀ i, flags.getD i 0 ≠ 0 → ¬ i.Prime

/-- Consecutive stores `primes[count] = v`, `primes[count + 1] = v'`, ... -/
def store_all (m : FactorMem) (count : Nat) : List Int → FactorMem
  | [] => m
  | v :: vs => store_all (store m count v) (count + 1) vs

/-- The values of `Nat.primeFactorsList`, as C `int`s. -/
def int_factors (n : ℕ) : List Int := List.map (fun (p : ℕ) => (p : ℤ)) (Nat.primeFactorsList n)

/-- The primes at which a scan of `n` or of one of its components can stop all
read as unflagged. -/
def ScanClear (slack : Nat) (flags : List Nat) (n : ℕ) : Prop :=
  ∀ q : ℕ, q.Prime → q ∣ n → q * q ≤ n → readFlag slack flags q = 0

/-- The stores that fall past the last slot, numbered from `count`. -/
def spill_of (count : Nat) : List Int → List (Nat × Int)
  | [] => []
  | v :: vs => (count, v) :: spill_of (count + 1) vs

/-! ## The integer square root is `Nat.sqrt` -/

theorem sqrt_search_eq (n : ℕ) :
    ∀ fuel r, r * r ≤ n → Nat.sqrt n ≤ r + fuel → sqrt_search n fuel r = Nat.sqrt n := by
  intro fuel
  induction fuel with
  | zero =>
    intro r hr hf
    have h1 : r ≤ Nat.sqrt n := Nat.le_sqrt.mpr hr
    simp only [sqrt_search]
    omega
  | succ fuel ih =>
    intro r hr hf
    simp only [sqrt_search]
    split
    · next h => exact ih (r + 1) h (by omega)
    · next h =>
      have h1 : r ≤ Nat.sqrt n := Nat.le_sqrt.mpr hr
      have h2 : ¬ (r + 1 ≤ Nat.sqrt n) := fun hc => h (Nat.le_sqrt.mp hc)
      omega

theorem floor_sqrt_natCast (n : ℕ) : floor_sqrt (n : ℤ) = Nat.sqrt n := by
  unfold floor_sqrt
  rw [Int.toNat_natCast]
  exact sqrt_search_eq n n 0 (Nat.zero_le _) (by have := Nat.sqrt_le_self n; omega)

theorem floor_sqrt_of_nonpos (num : ℤ) (h : num ≤ 0) : floor_sqrt num = 0 := by
  unfold floor_sqrt
  rw [Int.toNat_of_nonpos h]
  rfl

/-! ## `prime_tester` decides primality -/

theorem tmod_natCast_eq_zero (n d : ℕ) : (n : ℤ).tmod (d : ℤ) = 0 ↔ d ∣ n := by
  rw [← Int.ofNat_tmod, Nat.dvd_iff_mod_eq_zero]
  exact Int.natCast_eq_zero

theorem prime_tester_loop_bit (num : ℤ) (T : ℕ) :
    ∀ fuel i, prime_tester_loop num T fuel i = 0 ∨ prime_tester_loop num T fuel i = 1 := by
  intro fuel
  induction fuel with
  | zero => intro i; right; rfl
  | succ fuel ih =>
    intro i
    simp only [prime_tester_loop]
    split
    · split
      · left; rfl
      · exact ih (i + 1)
    · right; rfl

theorem prime_tester_loop_eq_one (n T : ℕ) :
    ∀ fuel i, T ≤ i + fuel →
      (prime_tester_loop (n : ℤ) T fuel i = 1 ↔ ∀ j, i ≤ j → j < T → ¬ (2 * j + 1 ∣ n)) := by
  intro fuel
  induction fuel with
  | zero =>
    intro i hf
    simp only [prime_tester_loop, true_iff]
    intro j h1 h2
    omega
  | succ fuel ih =>
    intro i hf
    simp only [prime_tester_loop]
    have hc : (2 * (i : ℤ) + 1) = ((2 * i + 1 : ℕ) : ℤ) := by push_cast; ring
    by_cases hi : i < T
    · rw [if_pos hi]
      by_cases hd : 2 * i + 1 ∣ n
      · have ht : (n : ℤ).tmod (2 * (i : ℤ) + 1) = 0 := by
          rw [hc]; exact (tmod_natCast_eq_zero _ _).mpr hd
        rw [if_pos ht]
        constructor
        · intro h; exact absurd h (by decide)
        · intro h; exact absurd hd (h i (le_refl _) hi)
      · have ht : ¬ (n : ℤ).tmod (2 * (i : ℤ) + 1) = 0 := by
          rw [hc]; exact fun h => hd ((tmod_natCast_eq_zero _ _).mp h)
        rw [if_neg ht, ih (i + 1) (by omega)]
        constructor
        · intro h j h1 h2
          rcases Nat.eq_or_lt_of_le h1 with rfl | h3
          · exact hd
          · exact h j h3 h2
        · intro h j h1 h2
          exact h j (by omega) h2
    · rw [if_neg hi]
      simp only [true_iff]
      intro j h1 h2
      omega

theorem prime_tester_bit (num : ℤ) : prime_tester num = 0 ∨ prime_tester num = 1 := by
  unfold prime_tester
  split
  · split
    · right; rfl
    · left; rfl
  · exact prime_tester_loop_bit _ _ _ _

/-- On a natural number, `prime_tester` answers 1 exactly for 2 and for the odd
numbers none of `3, 5, ..., 2 * floor(sqrt n) - 1` divides. -/
theorem prime_tester_natCast (n : ℕ) :
    prime_tester (n : ℤ) = 1 ↔
      n = 2 ∨ (n % 2 = 1 ∧ ∀ j, 1 ≤ j → j < Nat.sqrt n → ¬ (2 * j + 1 ∣ n)) := by
  unfold prime_tester
  have h2 : ((2 : ℤ)) = ((2 : ℕ) : ℤ) := rfl
  by_cases hd : 2 ∣ n
  · have ht : (n : ℤ).tmod 2 = 0 := by
      rw [h2]; exact (tmod_natCast_eq_zero _ _).mpr hd
    have hm : n % 2 = 0 := Nat.mod_eq_zero_of_dvd hd
    rw [if_pos ht]
    by_cases he : (n : ℤ) = 2
    · have : n = 2 := by exact_mod_cast he
      simp [this]
    · have hne : n ≠ 2 := fun h => he (by exact_mod_cast congrArg Nat.cast h)
      rw [if_neg he]
      constructor
      · intro h; exact absurd h (by decide)
      · rintro (h | ⟨h, _⟩)
        · exact absurd h hne
        · omega
  · have ht : ¬ (n : ℤ).tmod 2 = 0 := by
      rw [h2]; exact fun h => hd ((tmod_natCast_eq_zero _ _).mp h)
    have hm : n % 2 = 1 := by
      rcases Nat.mod_two_eq_zero_or_one n with h | h
      · exact absurd (Nat.dvd_of_mod_eq_zero h) hd
      · exact h
    rw [if_neg ht]
    simp only [floor_sqrt_natCast]
    rw [prime_tester_loop_eq_one n (Nat.sqrt n) (Nat.sqrt n) 1 (by omega)]
    constructor
    · intro h; exact Or.inr ⟨hm, h⟩
    · rintro (h | ⟨_, h⟩)
      · omega
      · exact h

/-- The divisors `prime_tester` tries beyond `floor(sqrt n)` change nothing: an
odd `n` has an odd divisor among `3, 5, ..., 2 * floor(sqrt n) - 1` exactly when
it has one in `[3, floor(sqrt n)]`. -/
theorem odd_scan_iff (n : ℕ) (hodd : n % 2 = 1) :
    (∀ j, 1 ≤ j → j < Nat.sqrt n → ¬ (2 * j + 1 ∣ n)) ↔
      (∀ d, d ≤ Nat.sqrt n → 3 ≤ d → d % 2 = 1 → ¬ (d ∣ n)) := by
  constructor
  · intro h d hd h3 hdo
    have := h (d / 2) (by omega) (by omega)
    have he : 2 * (d / 2) + 1 = d := by omega
    rwa [he] at this
  · intro h j h1 hj hdvd
    obtain ⟨e, he⟩ := hdvd
    have hT := Nat.sqrt_le n
    have hT2 := Nat.lt_succ_sqrt n
    by_cases hle : 2 * j + 1 ≤ Nat.sqrt n
    · exact h (2 * j + 1) hle (by omega) (by omega) ⟨e, he⟩
    · have heo : e % 2 = 1 := by
        rcases Nat.mod_two_eq_zero_or_one e with h0 | h0
        · exfalso
          have : n % 2 = 0 := by
            rw [he, Nat.mul_mod, h0]; simp
          omega
        · exact h0
      have hele : e ≤ Nat.sqrt n := by
        by_contra hgt
        have h3 : (Nat.sqrt n + 1) * (Nat.sqrt n + 1) ≤ (2 * j + 1) * e :=
          Nat.mul_le_mul (by omega) (by omega)
        have h4 : (Nat.sqrt n).succ * (Nat.sqrt n).succ = (Nat.sqrt n + 1) * (Nat.sqrt n + 1) := rfl
        omega
      have hene : e ≠ 1 := by
        intro h1e
        rw [h1e, Nat.mul_one] at he
        have h5 : (j + 1) * (j + 1) ≤ Nat.sqrt n * Nat.sqrt n :=
          Nat.mul_le_mul (by omega) (by omega)
        nlinarith
      exact h e hele (by omega) heo ⟨2 * j + 1, by rw [he, Nat.mul_comm]⟩

theorem spec_prime_iff_prime (n : ℕ) (hn : 2 ≤ n) : spec_prime n ↔ n.Prime := by
  unfold spec_prime
  constructor
  · rintro (rfl | ⟨hodd, h⟩)
    · exact Nat.prime_two
    · rw [Nat.prime_def_le_sqrt]
      refine ⟨hn, fun m hm hle hdvd => ?_⟩
      have hmo : m % 2 = 1 := by
        rcases Nat.mod_two_eq_zero_or_one m with h0 | h0
        · exfalso
          have h2 : 2 ∣ n := Nat.dvd_trans (Nat.dvd_of_mod_eq_zero h0) hdvd
          have := Nat.mod_eq_zero_of_dvd h2
          omega
        · exact h0
      exact h m hle (by omega) hmo hdvd
  · intro hp
    rcases hp.eq_two_or_odd with h2 | hodd
    · exact Or.inl h2
    · refine Or.inr ⟨hodd, fun d hle h3 _ hdvd => ?_⟩
      rcases (Nat.dvd_prime hp).mp hdvd with h1 | h1
      · omega
      · have := Nat.sqrt_lt_self (show 1 < n by omega)
        omega

theorem prime_tester_iff_spec (n : ℕ) : prime_tester (n : ℤ) = 1 ↔ spec_prime n := by
  rw [prime_tester_natCast]
  unfold spec_prime
  constructor
  · rintro (h | ⟨h1, h2⟩)
    · exact Or.inl h
    · exact Or.inr ⟨h1, (odd_scan_iff n h1).mp h2⟩
  · rintro (h | ⟨h1, h2⟩)
    · exact Or.inl h
    · exact Or.inr ⟨h1, (odd_scan_iff n h1).mpr h2⟩

theorem prime_tester_eq_one_iff_prime (n : ℕ) (hn : 2 ≤ n) :
    prime_tester (n : ℤ) = 1 ↔ n.Prime := by
  rw [prime_tester_iff_spec, spec_prime_iff_prime n hn]

theorem prime_tester_ne_zero_iff_prime (n : ℕ) (hn : 2 ≤ n) :
    prime_tester (n : ℤ) ≠ 0 ↔ n.Prime := by
  rw [← prime_tester_eq_one_iff_prime n hn]
  rcases prime_tester_bit (n : ℤ) with h | h <;> simp [h]

/-! ## The sieve flags only composite indices -/

theorem getD_set_ne_zero (flags : List Nat) (j k : ℕ)
    (h : (flags.set j 1).getD k 0 ≠ 0) : k = j ∨ flags.getD k 0 ≠ 0 := by
  by_cases hk : k = j
  · exact Or.inl hk
  · right
    have hjk : j ≠ k := fun e => hk e.symm
    simpa [List.getD_eq_getElem?_getD, List.getElem?_set_ne hjk] using h

theorem flagsSound_replicate (n : ℕ) : FlagsSound (List.replicate n 0) := by
  intro i h
  exfalso
  apply h
  simp only [List.getD_eq_getElem?_getD, List.getElem?_replicate]
  split <;> rfl

theorem prime_builder_inner_sound (T i : ℕ) (hi : 2 ≤ i) :
    ∀ fuel j flags, (∃ m, 2 ≤ m ∧ j = i * m) → FlagsSound flags →
      FlagsSound (prime_builder_inner T i fuel j flags) := by
  intro fuel
  induction fuel with
  | zero => intro j flags _ hs; exact hs
  | succ fuel ih =>
    intro j flags hj hs
    simp only [prime_builder_inner]
    split
    · obtain ⟨m, hm, rfl⟩ := hj
      apply ih
      · exact ⟨m + 1, by omega, by ring⟩
      · intro k hk
        rcases getD_set_ne_zero flags _ k hk with rfl | h
        · exact Nat.not_prime_mul (by omega) (by omega)
        · exact hs k h
    · exact hs

theorem prime_builder_outer_sound (slack T : ℕ) :
    ∀ fuel i flags, 2 ≤ i → FlagsSound flags →
      FlagsSound (prime_builder_outer slack T fuel i flags) := by
  intro fuel
  induction fuel with
  | zero => intro i flags _ hs; exact hs
  | succ fuel ih =>
    intro i flags hi hs
    simp only [prime_builder_outer]
    split
    · split
      · exact ih (i + 1) _ (by omega)
          (prime_builder_inner_sound T i hi T (2 * i) flags ⟨2, le_refl _, by ring⟩ hs)
      · exact ih (i + 1) _ (by omega) hs
    · exact hs

theorem prime_builder_sound (slack T : ℕ) :
    FlagsSound (prime_builder slack (List.replicate T 0) T) :=
  prime_builder_outer_sound slack T T 2 _ (le_refl _) (flagsSound_replicate T)

theorem prime_builder_inner_length (T i : ℕ) :
    ∀ fuel j flags, (prime_builder_inner T i fuel j flags).length = flags.length := by
  intro fuel
  induction fuel with
  | zero => intro j flags; rfl
  | succ fuel ih =>
    intro j flags
    simp only [prime_builder_inner]
    split
    · rw [ih, List.length_set]
    · rfl

theorem prime_builder_outer_length (slack T : ℕ) :
    ∀ fuel i flags, (prime_builder_outer slack T fuel i flags).length = flags.length := by
  intro fuel
  induction fuel with
  | zero => intro i flags; rfl
  | succ fuel ih =>
    intro i flags
    simp only [prime_builder_outer]
    split
    · split
      · rw [ih, prime_builder_inner_length]
      · rw [ih]
    · rfl

theorem prime_builder_length (slack T : ℕ) :
    (prime_builder slack (List.replicate T 0) T).length = T := by
  unfold prime_builder
  rw [prime_builder_outer_length, List.length_replicate]

/-- The fuel `prime_builder` hands to its inner loop is never used up: from
`T - j` units on, more fuel changes nothing. -/
theorem prime_builder_inner_fuel (T i : ℕ) (hi : 0 < i) :
    ∀ fuel j flags, T ≤ j + fuel →
      prime_builder_inner T i (fuel + 1) j flags = prime_builder_inner T i fuel j flags := by
  intro fuel
  induction fuel with
  | zero =>
    intro j flags h
    simp only [prime_builder_inner]
    rw [if_neg (by omega)]
  | succ fuel ih =>
    intro j flags h
    rw [prime_builder_inner, prime_builder_inner.eq_def T i (fuel + 1) j flags]
    simp only []
    split
    · exact ih (j + i) _ (by omega)
    · rfl

/-- The fuel `prime_builder` hands to its outer loop is never used up. -/
theorem prime_builder_outer_fuel (slack T : ℕ) :
    ∀ fuel i flags, T + 1 ≤ i + fuel →
      prime_builder_outer slack T (fuel + 1) i flags =
        prime_builder_outer slack T fuel i flags := by
  intro fuel
  induction fuel with
  | zero =>
    intro i flags h
    simp only [prime_builder_outer]
    rw [if_neg (by omega)]
  | succ fuel ih =>
    intro i flags h
    rw [prime_builder_outer, prime_builder_outer.eq_def slack T (fuel + 1) i flags]
    simp only []
    split
    · split
      · exact ih (i + 1) _ (by omega)
      · exact ih (i + 1) _ (by omega)
    · rfl

/-- The table `factor` builds never hides a prime from the scan: a prime index
inside the allocation reads 0, and so does any prime index when the byte past
the allocation is 0. -/
theorem readFlag_prime_builder (slack T q : ℕ) (hq : q.Prime) (h : q < T ∨ slack = 0) :
    readFlag slack (prime_builder slack (List.replicate T 0) T) q = 0 := by
  have hs := prime_builder_sound slack T q
  have hl := prime_builder_length slack T
  unfold readFlag
  by_cases hlt : q < T
  · have e : ∀ d, (prime_builder slack (List.replicate T 0) T).getD q d =
        (prime_builder slack (List.replicate T 0) T).getD q 0 := by
      intro d
      simp [List.getD_eq_getElem?_getD, List.getElem?_eq_getElem, hl, hlt]
    rw [e]
    by_contra hne
    exact hs hne hq
  · rcases h with h | h
    · exact absurd h hlt
    · subst h
      by_contra hne
      exact hs hne hq

/-! ## `trial_divider` stores the prime factorisation -/

theorem primeFactorsList_step (n : ℕ) (hn : 2 ≤ n) :
    Nat.primeFactorsList n = n.minFac :: Nat.primeFactorsList (n / n.minFac) := by
  obtain ⟨k, rfl⟩ : ∃ k, n = k + 2 := ⟨n - 2, by omega⟩
  exact Nat.primeFactorsList_add_two k

theorem scanClear_div (slack : Nat) (flags : List Nat) (n p : ℕ)
    (h : ScanClear slack flags n) (hp : p ∣ n) : ScanClear slack flags (n / p) := by
  intro q hq hd hle
  have hdn : q ∣ n := Nat.dvd_trans hd (Nat.div_dvd_of_dvd hp)
  have : n / p ≤ n := Nat.div_le_self n p
  exact h q hq hdn (by omega)

theorem trial_divider_from_eq (slack : Nat) (flags : List Nat) :
    ∀ fuel (n i : ℕ) (m : FactorMem) (count : ℕ),
      2 ≤ n → ¬ n.Prime → 2 ≤ i → i ≤ n.minFac → n - i ≤ fuel → ScanClear slack flags n →
      trial_divider_from slack flags fuel (n : ℤ) i m count = store_all m count (int_factors n) := by
  intro fuel
  induction fuel with
  | zero =>
    intro n i m count hn hnp hi hip hf _
    have := (Nat.not_prime_iff_minFac_lt hn).mp hnp
    omega
  | succ fuel ih =>
    intro n i m count hn hnp hi hip hf hclear
    have hpp : n.minFac.Prime := Nat.minFac_prime (by omega)
    have hpd : n.minFac ∣ n := Nat.minFac_dvd n
    have hplt : n.minFac < n := (Nat.not_prime_iff_minFac_lt hn).mp hnp
    have hsq : n.minFac ^ 2 ≤ n := Nat.minFac_sq_le_self (by omega) hnp
    have hsq' : n.minFac * n.minFac ≤ n := by rw [← sq]; exact hsq
    have hps : n.minFac ≤ Nat.sqrt n := Nat.le_sqrt.mpr hsq'
    have hle : i ≤ floor_sqrt (n : ℤ) := by rw [floor_sqrt_natCast]; omega
    simp only [trial_divider_from]
    rw [if_pos hle]
    rcases Nat.eq_or_lt_of_le hip with heq | hlt
    · -- the scan has reached the smallest prime factor
      subst heq
      have hflag : ¬ readFlag slack flags n.minFac ≠ 0 := by
        rw [hclear n.minFac hpp hpd hsq']; simp
      rw [if_neg hflag]
      by_cases hsqe : ((n.minFac : ℕ) : ℤ) ^ 2 = (n : ℤ)
      · rw [if_pos hsqe]
        have hn2 : n = n.minFac ^ 2 := by exact_mod_cast hsqe.symm
        have hl : int_factors n = [(n.minFac : ℤ), (n.minFac : ℤ)] := by
          unfold int_factors
          conv_lhs => rw [hn2]
          rw [hpp.primeFactorsList_pow 2]
          rfl
        rw [hl]
        rfl
      · rw [if_neg hsqe]
        have htm : (n : ℤ).tmod ((n.minFac : ℕ) : ℤ) = 0 := (tmod_natCast_eq_zero _ _).mpr hpd
        rw [if_pos htm]
        have hdiv : (n : ℤ).tdiv ((n.minFac : ℕ) : ℤ) = ((n / n.minFac : ℕ) : ℤ) := rfl
        rw [hdiv]
        have hne : n ≠ n.minFac ^ 2 := fun h => hsqe (by exact_mod_cast h.symm)
        have hc2 : 2 ≤ n / n.minFac := by
          have h1 : n.minFac ≤ n / n.minFac := Nat.minFac_le_div (by omega) hnp
          have h2 := hpp.two_le
          omega
        have hmul : n.minFac * (n / n.minFac) = n := Nat.mul_div_cancel' hpd
        rw [show int_factors n = (n.minFac : ℤ) :: int_factors (n / n.minFac) by
          unfold int_factors; rw [primeFactorsList_step n hn]; rfl]
        by_cases hcp : (n / n.minFac).Prime
        · rw [if_pos ((prime_tester_ne_zero_iff_prime _ hc2).mpr hcp)]
          unfold int_factors
          rw [Nat.primeFactorsList_prime hcp]
          rfl
        · rw [if_neg (fun h => hcp ((prime_tester_ne_zero_iff_prime _ hc2).mp h))]
          have h2c : 2 ≤ (n / n.minFac).minFac := (Nat.minFac_prime (by omega)).two_le
          have hfuel : n / n.minFac - 2 ≤ fuel := by
            have h2 := hpp.two_le
            have : n.minFac + n / n.minFac ≤ n + 1 := by nlinarith
            omega
          rw [ih (n / n.minFac) 2 _ (count + 1) hc2 hcp (le_refl _) h2c hfuel
            (scanClear_div slack flags n _ hclear hpd)]
          rfl
    · -- below the smallest prime factor nothing divides
      have hnd : ¬ i ∣ n := fun hd => by
        have := Nat.minFac_le_of_dvd hi hd
        omega
      have hsqe : ¬ ((i : ℕ) : ℤ) ^ 2 = (n : ℤ) := by
        intro h
        have h2 : i ^ 2 = n := by exact_mod_cast h
        exact hnd ⟨i, by rw [← h2, sq]⟩
      have htm : ¬ (n : ℤ).tmod ((i : ℕ) : ℤ) = 0 := fun h => hnd ((tmod_natCast_eq_zero _ _).mp h)
      have hrec := ih n (i + 1) m count hn hnp (by omega) (by omega) (by omega) hclear
      by_cases hflag : readFlag slack flags i ≠ 0
      · rw [if_pos hflag]
        exact_mod_cast hrec
      · rw [if_neg hflag, if_neg hsqe, if_neg htm]
        exact_mod_cast hrec

/-- What `factor` leaves in memory for `n ≥ 2`: the prime factors of `n` in
ascending order, stored at `primes[0]`, `primes[1]`, ... -/
theorem factor_mem_eq (slack : Nat) (n : ℕ) (hn : 2 ≤ n) (primes : List Int)
    (hclear : ¬ n.Prime → (Nat.sqrt n).Prime → Nat.sqrt n ∣ n → slack = 0) :
    factor_mem slack { num := (n : ℤ), primes := primes } =
      store_all { slots := primes, spill := [] } 0 (int_factors n) := by
  unfold factor_mem
  simp only []
  by_cases hp : n.Prime
  · rw [if_pos ((prime_tester_ne_zero_iff_prime n hn).mpr hp)]
    unfold int_factors
    rw [Nat.primeFactorsList_prime hp]
    rfl
  · rw [if_neg (fun h => hp ((prime_tester_ne_zero_iff_prime n hn).mp h))]
    unfold trial_divider
    rw [Int.toNat_natCast, floor_sqrt_natCast]
    apply trial_divider_from_eq slack _ n n 2 _ 0 hn hp (le_refl _)
      (Nat.minFac_prime (by omega)).two_le (by omega)
    intro q hq hd hle
    apply readFlag_prime_builder slack (Nat.sqrt n) q hq
    have hqs : q ≤ Nat.sqrt n := Nat.le_sqrt.mpr hle
    rcases Nat.eq_or_lt_of_le hqs with he | hl
    · right
      subst he
      exact hclear hp hq hd
    · exact Or.inl hl

/-! ## Stores into the slots of an item -/

theorem store_at_front (pre rest : List Int) (x v : Int) (sp : List (Nat × Int)) :
    store { slots := pre ++ x :: rest, spill := sp } pre.length v =
      { slots := pre ++ v :: rest, spill := sp } := by
  unfold store
  rw [if_pos (by simp)]
  simp

theorem store_all_past (vs : List Int) :
    ∀ (m : FactorMem) (count : ℕ), m.slots.length ≤ count →
      store_all m count vs = { slots := m.slots, spill := m.spill ++ spill_of count vs } := by
  induction vs with
  | nil => intro m count _; simp [store_all, spill_of]
  | cons v vs ih =>
    intro m count h
    simp only [store_all, spill_of]
    have hs : store m count v = { slots := m.slots, spill := m.spill ++ [(count, v)] } := by
      unfold store
      rw [if_neg (by omega)]
    rw [hs, ih _ (count + 1) (by simp; omega)]
    simp

theorem store_all_front (vs : List Int) :
    ∀ (pre rest : List Int) (sp : List (Nat × Int)),
      store_all { slots := pre ++ rest, spill := sp } pre.length vs =
        { slots := pre ++ vs.take rest.length ++ rest.drop vs.length,
          spill := sp ++ spill_of (pre.length + rest.length) (vs.drop rest.length) } := by
  induction vs with
  | nil => intro pre rest sp; simp [store_all, spill_of]
  | cons v vs ih =>
    intro pre rest sp
    cases rest with
    | nil =>
      rw [store_all_past (v :: vs) _ pre.length (by simp)]
      simp
    | cons x rest =>
      simp only [store_all]
      rw [store_at_front]
      have h1 : pre ++ v :: rest = (pre ++ [v]) ++ rest := by simp
      have h2 : pre.length + 1 = (pre ++ [v]).length := by simp
      rw [h1, h2, ih (pre ++ [v]) rest sp]
      simp [Nat.add_assoc, Nat.add_comm 1]

theorem int_factors_pos (n : ℕ) : ∀ x ∈ int_factors n, 0 < x := by
  intro x hx
  unfold int_factors at hx
  obtain ⟨p, hp, rfl⟩ := List.mem_map.mp hx
  exact_mod_cast Nat.pos_of_mem_primeFactorsList hp

/-- Within the capacity of the slots, the factors the consumer prints are the
prime factors of `n` in ascending order. -/
theorem factor_list_eq (slack : Nat) (n : ℕ) (hn : 2 ≤ n)
    (hcap : (Nat.primeFactorsList n).length ≤ MAX_FACTORS)
    (hclear : ¬ n.Prime → (Nat.sqrt n).Prime → Nat.sqrt n ∣ n → slack = 0) :
    factor_list slack (n : ℤ) = int_factors n ∧ (factor_mem slack (mkData n)).spill = [] := by
  have hlen : (int_factors n).length ≤ MAX_FACTORS := by
    unfold int_factors; rw [List.length_map]; exact hcap
  have hm : factor_mem slack (mkData n) =
      { slots := int_factors n ++ List.replicate (MAX_FACTORS - (int_factors n).length) 0,
        spill := [] } := by
    unfold mkData
    rw [factor_mem_eq slack n hn zeroPrimes hclear]
    have h := store_all_front (int_factors n) [] zeroPrimes []
    simp only [List.nil_append, List.length_nil, Nat.zero_add] at h
    rw [h]
    have hz : zeroPrimes.length = MAX_FACTORS := by simp [zeroPrimes]
    rw [hz, List.take_of_length_le hlen, List.drop_eq_nil_of_le hlen]
    simp [spill_of, zeroPrimes]
  refine ⟨?_, by rw [hm]⟩
  unfold factor_list printed_factors factor
  rw [hm]
  simp only []
  rw [List.take_of_length_le (by simp; omega), List.filter_append]
  have h1 : (int_factors n).filter (fun v => decide (0 < v)) = int_factors n :=
    List.filter_eq_self.mpr (fun x hx => by simpa using int_factors_pos n x hx)
  have h2 : (List.replicate (MAX_FACTORS - (int_factors n).length) (0 : ℤ)).filter
      (fun v => decide (0 < v)) = [] :=
    List.filter_eq_nil_iff.mpr (fun x hx => by
      rw [List.eq_of_mem_replicate hx]; simp)
  rw [h1, h2, List.append_nil]

theorem int_factors_prod (n : ℕ) (hn : n ≠ 0) : (int_factors n).prod = (n : ℤ) := by
  unfold int_factors
  rw [← Nat.cast_list_prod, Nat.prod_primeFactorsList hn]

theorem int_factors_prime_sq (p : ℕ) (hp : p.Prime) :
    Nat.primeFactorsList (p * p) = [p, p] := by
  rw [← sq, hp.primeFactorsList_pow 2]
  rfl

theorem not_dvd_prime_sq (p i : ℕ) (hp : p.Prime) (h2 : 2 ≤ i) (hlt : i < p) : ¬ i ∣ p * p := by
  intro hd
  rw [← sq] at hd
  obtain ⟨k, hk, rfl⟩ := (Nat.dvd_prime_pow hp).mp hd
  have hp2 := hp.two_le
  interval_cases k
  · simp at h2
  · simp at hlt
  · rw [pow_two] at hlt
    nlinarith

/-! ## Factoring: main results -/

/-- C3: for every prime p, whatever the flag memory holds, `prime_tester`
accepts p and `factor` on the item (p, zeroed slots) performs the single store
`primes[0] = p`: the slots become p followed by nine zeros, nothing is stored
elsewhere, and the factor list is [p]. -/
theorem factor_prime (slack p : ℕ) (hp : p.Prime) :
    prime_tester (p : ℤ) = 1 ∧
      factor_mem slack (mkData p) = store { slots := zeroPrimes, spill := [] } 0 (p : ℤ) ∧
      factor_mem slack (mkData p) = { slots := (p : ℤ) :: List.replicate 9 0, spill := [] } ∧
      factor slack (mkData p) = { num := (p : ℤ), primes := (p : ℤ) :: List.replicate 9 0 } ∧
      factor_list slack (p : ℤ) = [(p : ℤ)] := by
  have h1 : prime_tester (p : ℤ) = 1 := (prime_tester_eq_one_iff_prime p hp.two_le).mpr hp
  have h2 : factor_mem slack (mkData p) = store { slots := zeroPrimes, spill := [] } 0 (p : ℤ) := by
    unfold factor_mem mkData
    simp only []
    rw [if_pos (by rw [h1]; decide)]
  have h3 : store { slots := zeroPrimes, spill := [] } 0 (p : ℤ) =
      { slots := (p : ℤ) :: List.replicate 9 0, spill := [] } := rfl
  have h4 : factor slack (mkData p) =
      { num := (p : ℤ), primes := (p : ℤ) :: List.replicate 9 0 } := by
    unfold factor
    rw [h2, h3]
    rfl
  refine ⟨h1, h2, by rw [h2, h3], h4, ?_⟩
  unfold factor_list printed_factors
  rw [h4]
  have hpos : (0 : ℤ) < p := by exact_mod_cast hp.pos
  simp [MAX_FACTORS, List.replicate, hpos]

/-- Witness of `factor_prime` at p = 17. -/
theorem factor_prime_witness :
    prime_tester ((17 : ℕ) : ℤ) = 1 ∧
      factor_mem 0 (mkData (17 : ℕ)) = store { slots := zeroPrimes, spill := [] } 0 ((17 : ℕ) : ℤ) ∧
      factor_mem 0 (mkData (17 : ℕ)) =
        { slots := ((17 : ℕ) : ℤ) :: List.replicate 9 0, spill := [] } ∧
      factor 0 (mkData (17 : ℕ)) =
        { num := ((17 : ℕ) : ℤ), primes := ((17 : ℕ) : ℤ) :: List.replicate 9 0 } ∧
      factor_list 0 ((17 : ℕ) : ℤ) = [((17 : ℕ) : ℤ)] :=
  factor_prime 0 17 (by decide)

/-- When the byte past the flag table holds 0: for every prime p whose square
fits in a C int, `prime_tester` rejects p*p; the scan of `trial_divider` over
the table `factor` built passes every index 2 ≤ i < p without storing anything,
and at i = p, where it reads that byte, takes the perfect-square branch, storing
p twice and stopping; so `factor` leaves p, p and eight zeros in the slots and
the factor list of p*p is [p, p]. -/
theorem factor_prime_sq_zero_byte (p : ℕ) (hp : p.Prime) (_hfit : p * p ≤ 2147483647) :
    prime_tester ((p * p : ℕ) : ℤ) = 0 ∧
      (∀ fuel i m count, 2 ≤ i → i < p →
        trial_divider_from 0 (prime_builder 0 (List.replicate p 0) p) (fuel + 1)
            ((p * p : ℕ) : ℤ) i m count =
          trial_divider_from 0 (prime_builder 0 (List.replicate p 0) p) fuel
            ((p * p : ℕ) : ℤ) (i + 1) m count) ∧
      (∀ fuel m count,
        trial_divider_from 0 (prime_builder 0 (List.replicate p 0) p) (fuel + 1)
            ((p * p : ℕ) : ℤ) p m count =
          store (store m count (p : ℤ)) (count + 1) (p : ℤ)) ∧
      factor_mem 0 (mkData ((p * p : ℕ) : ℤ)) =
        { slots := (p : ℤ) :: (p : ℤ) :: List.replicate 8 0, spill := [] } ∧
      factor_list 0 ((p * p : ℕ) : ℤ) = [(p : ℤ), (p : ℤ)] := by
  have hp2 := hp.two_le
  have hnp : ¬ (p * p).Prime := Nat.not_prime_mul (by omega) (by omega)
  have hn : 2 ≤ p * p := by nlinarith
  have hsqrt : floor_sqrt ((p * p : ℕ) : ℤ) = p := by
    rw [floor_sqrt_natCast, Nat.sqrt_eq]
  have hl : Nat.primeFactorsList (p * p) = [p, p] := int_factors_prime_sq p hp
  have hcap : (Nat.primeFactorsList (p * p)).length ≤ MAX_FACTORS := by
    rw [hl]; simp [MAX_FACTORS]
  have hfl := factor_list_eq 0 (p * p) hn hcap (fun _ _ _ => rfl)
  have hif : int_factors (p * p) = [(p : ℤ), (p : ℤ)] := by
    unfold int_factors; rw [hl]; rfl
  refine ⟨?_, ?_, ?_, ?_, ?_⟩
  · rcases prime_tester_bit ((p * p : ℕ) : ℤ) with h | h
    · exact h
    · exact absurd ((prime_tester_eq_one_iff_prime _ hn).mp h) hnp
  · intro fuel i m count hi hlt
    have hnd := not_dvd_prime_sq p i hp hi hlt
    have hsqe : ¬ ((i : ℕ) : ℤ) ^ 2 = ((p * p : ℕ) : ℤ) := by
      intro h
      have h2 : i ^ 2 = p * p := by exact_mod_cast h
      exact hnd ⟨i, by rw [← h2, sq]⟩
    have htm : ¬ ((p * p : ℕ) : ℤ).tmod ((i : ℕ) : ℤ) = 0 :=
      fun h => hnd ((tmod_natCast_eq_zero _ _).mp h)
    simp only [trial_divider_from]
    rw [if_pos (by rw [hsqrt]; omega)]
    by_cases hflag : readFlag 0 (prime_builder 0 (List.replicate p 0) p) i ≠ 0
    · rw [if_pos hflag]
    · rw [if_neg hflag, if_neg hsqe, if_neg htm]
  · intro fuel m count
    have hflag : ¬ readFlag 0 (prime_builder 0 (List.replicate p 0) p) p ≠ 0 := by
      rw [readFlag_prime_builder 0 p p hp (Or.inr rfl)]; simp
    have hsqe : ((p : ℕ) : ℤ) ^ 2 = ((p * p : ℕ) : ℤ) := by push_cast; ring
    simp only [trial_divider_from]
    rw [if_pos (by rw [hsqrt]), if_neg hflag, if_pos hsqe]
  · have h := factor_mem_eq 0 (p * p) hn zeroPrimes (fun _ _ _ => rfl)
    unfold mkData
    rw [h, hif]
    rfl
  · rw [hfl.1, hif]

/-- The instance p = 7 of `factor_prime_sq_zero_byte`. -/
theorem factor_prime_sq_zero_byte_at_7 :
    factor_list 0 ((7 * 7 : ℕ) : ℤ) = [((7 : ℕ) : ℤ), ((7 : ℕ) : ℤ)] :=
  (factor_prime_sq_zero_byte 7 (by decide) (by decide)).2.2.2.2

/-- C5: for every integer n ≥ 0, so for every n ≥ 1, `prime_tester` returns 1
exactly when n is 2, or n is odd and has no odd divisor in [3, floor(sqrt n)], and 0 otherwise; for
n ≥ 2 that is exactly when n is prime; and on an odd n the loop decides it by
trying the odd numbers 3, 5, ..., 2 * floor(sqrt n) - 1. -/
theorem prime_tester_correct (n : ℕ) :
    (prime_tester (n : ℤ) = 1 ↔ spec_prime n) ∧
      (prime_tester (n : ℤ) = 0 ∨ prime_tester (n : ℤ) = 1) ∧
      (2 ≤ n → (prime_tester (n : ℤ) = 1 ↔ n.Prime)) ∧
      (n % 2 = 1 →
        (prime_tester (n : ℤ) = 1 ↔ ∀ j, 1 ≤ j → j < Nat.sqrt n → ¬ (2 * j + 1 ∣ n))) := by
  refine ⟨prime_tester_iff_spec n, prime_tester_bit _, prime_tester_eq_one_iff_prime n, ?_⟩
  intro hodd
  rw [prime_tester_natCast]
  constructor
  · rintro (h | ⟨_, h⟩)
    · omega
    · exact h
  · intro h; exact Or.inr ⟨hodd, h⟩

/-- Witness of `prime_tester_correct` at n = 9. -/
theorem prime_tester_correct_witness :
    2 ≤ 9 ∧ (prime_tester ((9 : ℕ) : ℤ) = 1 ↔ Nat.Prime 9) :=
  ⟨by decide, (prime_tester_correct 9).2.2.1 (by decide)⟩

/-- C9 (evaluation at the failing input 2048): `factor` performs the store
`primes[10] = 2`, one slot past the MAX_FACTORS = 10 slots of the item, and the
item it hands on holds only ten of the eleven factors. -/
theorem factor_2048_spill :
    (factor_mem 0 (mkData 2048)).spill = [(10, 2)] ∧
      (factor 0 (mkData 2048)).primes = [2, 2, 2, 2, 2, 2, 2, 2, 2, 2] ∧
      (factor 0 (mkData 2048)).primes.length = MAX_FACTORS := by
  decide

/-! ## The circular buffer: layout invariant -/

theorem bufInv_init : BufInv (buffer_init BUFFER_SIZE) [] := by
  refine ⟨by simp [buffer_init], by decide, by decide, by decide, by decide, ?_⟩
  intro k hk
  simp at hk

theorem buffer_add_eq (b b' : Buffer) (d : Data) (h : buffer_add b d = some b') :
    (b.in_ + 1) % BUFFER_SIZE ≠ b.out ∧
      b' = { buff := b.buff.set b.in_ d, in_ := (b.in_ + 1) % BUFFER_SIZE, out := b.out } := by
  unfold buffer_add buffer_add_sized at h
  by_cases hf : (b.in_ + 1) % BUFFER_SIZE = b.out
  · rw [if_pos hf] at h; exact absurd h (by simp)
  · rw [if_neg hf] at h
    exact ⟨hf, (Option.some.inj h).symm⟩

theorem buffer_remove_eq (b b' : Buffer) (d : Data) (h : buffer_remove b = some (d, b')) :
    b.in_ ≠ b.out ∧ d = b.buff.getD b.out zeroData ∧
      b' = { buff := b.buff, in_ := b.in_, out := (b.out + 1) % BUFFER_SIZE } := by
  unfold buffer_remove buffer_remove_sized at h
  by_cases hf : b.in_ = b.out
  · rw [if_pos hf] at h; exact absurd h (by simp)
  · rw [if_neg hf] at h
    have h' := Option.some.inj h
    simp only [Prod.mk.injEq] at h'
    exact ⟨hf, h'.1.symm, h'.2.symm⟩

theorem bufInv_add (b b' : Buffer) (q : List Data) (d : Data) (hinv : BufInv b q)
    (h : buffer_add b d = some b') : BufInv b' (q ++ [d]) := by
  obtain ⟨hf, rfl⟩ := buffer_add_eq b b' d h
  unfold BufInv at hinv ⊢
  simp only [BUFFER_SIZE, List.length_append, List.length_singleton, List.length_set] at *
  obtain ⟨hlen, hin, hout, hq, hqi, hslots⟩ := hinv
  refine ⟨hlen, by omega, hout, by omega, by omega, ?_⟩
  intro k hk
  by_cases hkq : k < q.length
  · have hne : b.in_ ≠ (b.out + k) % 10 := by omega
    rw [List.getElem?_set_ne hne, hslots k hkq, List.getElem?_append_left hkq]
  · have hke : k = q.length := by omega
    subst hke
    rw [hqi, List.getElem?_set_eq_of_lt _ (by rw [hlen]; exact hin)]
    simp

theorem bufInv_remove (b b' : Buffer) (q : List Data) (d : Data) (hinv : BufInv b q)
    (h : buffer_remove b = some (d, b')) :
    q.head? = some d ∧ b.buff[b.out]? = some d ∧ BufInv b' q.tail := by
  obtain ⟨hf, hd, rfl⟩ := buffer_remove_eq b b' d h
  unfold BufInv at hinv ⊢
  simp only [BUFFER_SIZE] at *
  obtain ⟨hlen, hin, hout, hq, hqi, hslots⟩ := hinv
  cases q with
  | nil =>
    exfalso
    simp at hqi
    omega
  | cons x q =>
    have h0 := hslots 0 (by simp)
    have hmod : (b.out + 0) % 10 = b.out := by omega
    rw [hmod] at h0
    simp only [List.getElem?_cons_zero] at h0
    have hdx : d = x := by
      rw [hd, List.getD_eq_getElem?_getD, h0]
      rfl
    subst hdx
    simp only [List.length_cons, List.tail_cons] at hq hqi hslots ⊢
    refine ⟨rfl, h0, hlen, hin, by omega, by omega, by omega, ?_⟩
    intro k hk
    have h1 := hslots (k + 1) (by omega)
    have hmod2 : ((b.out + 1) % 10 + k) % 10 = (b.out + (k + 1)) % 10 := by omega
    rw [hmod2, h1]
    simp

theorem reach_bufInv (b : Buffer) (q : List Data) (h : Reach b q) : BufInv b q := by
  induction h with
  | init => exact bufInv_init
  | add d _ hadd ih => exact bufInv_add _ _ _ d ih hadd
  | remove d _ hrem ih => exact (bufInv_remove _ _ _ d ih hrem).2.2

theorem run_ops_bufInv :
    ∀ (ops : List Op) (b : Buffer) (q : List Data) (bf : Buffer) (outs : List Data),
      Reach b q → run_ops b ops = some (bf, outs) →
      ∃ qf, Reach bf qf ∧ q ++ added ops = outs ++ qf := by
  intro ops
  induction ops with
  | nil =>
    intro b q bf outs hr h
    simp only [run_ops, Option.some.injEq, Prod.mk.injEq] at h
    obtain ⟨rfl, rfl⟩ := h
    exact ⟨q, hr, by simp [added]⟩
  | cons op ops ih =>
    intro b q bf outs hr h
    cases op with
    | add d =>
      simp only [run_ops] at h
      cases hadd : buffer_add b d with
      | none => rw [hadd] at h; exact absurd h (by simp)
      | some b' =>
        rw [hadd] at h
        obtain ⟨qf, hrf, he⟩ := ih b' (q ++ [d]) bf outs (Reach.add d hr hadd) h
        exact ⟨qf, hrf, by simpa [added] using he⟩
    | remove =>
      simp only [run_ops] at h
      cases hrem : buffer_remove b with
      | none => rw [hrem] at h; exact absurd h (by simp)
      | some r =>
        obtain ⟨d, b'⟩ := r
        rw [hrem] at h
        simp only [] at h
        cases hrun : run_ops b' ops with
        | none => rw [hrun] at h; exact absurd h (by simp)
        | some r2 =>
          obtain ⟨bf2, outs2⟩ := r2
          rw [hrun] at h
          simp only [Option.some.injEq, Prod.mk.injEq] at h
          obtain ⟨rfl, rfl⟩ := h
          have hhead := (bufInv_remove b b' q d (reach_bufInv b q hr) hrem).1
          obtain ⟨qf, hrf, he⟩ := ih b' q.tail bf2 outs2 (Reach.remove d hr hrem) hrun
          refine ⟨qf, hrf, ?_⟩
          cases q with
          | nil => simp at hhead
          | cons x q =>
            simp only [List.head?_cons, Option.some.injEq] at hhead
            subst hhead
            simp only [List.tail_cons] at he
            simp [added, he]

/-! ## The circular buffer: main results -/

/-- C6: FIFO order of one buffer.  For every sequence of `buffer_add` and
`buffer_remove` operations on a buffer starting from in = out = 0 in which every
operation proceeds (no add meets the full test, no remove the empty test), the
items returned are, in order, the first items added: the k-th item returned is
the k-th item added, for every k. -/
theorem buffer_fifo (ops : List Op) (outs : List Data)
    (h : (run_ops (buffer_init BUFFER_SIZE) ops).map Prod.snd = some outs) :
    outs <+: added ops ∧ outs.length ≤ (added ops).length ∧
      ∀ k, k < outs.length → (added ops)[k]? = outs[k]? := by
  cases hrun : run_ops (buffer_init BUFFER_SIZE) ops with
  | none => rw [hrun] at h; exact absurd h (by simp)
  | some r =>
    obtain ⟨bf, outs'⟩ := r
    rw [hrun] at h
    simp only [Option.map_some', Option.some.injEq] at h
    subst h
    obtain ⟨qf, _, he⟩ := run_ops_bufInv ops _ [] bf outs' Reach.init hrun
    simp only [List.nil_append] at he
    refine ⟨⟨qf, he.symm⟩, by rw [he]; simp, ?_⟩
    intro k hk
    rw [he, List.getElem?_append_left hk]

/-- Witness of `buffer_fifo`: two adds, a remove, an add, a remove. -/
theorem buffer_fifo_witness :
    [mkData 5, mkData 7] <+:
        added [Op.add (mkData 5), Op.add (mkData 7), Op.remove, Op.add (mkData 9), Op.remove] ∧
      [mkData 5, mkData 7].length ≤
        (added [Op.add (mkData 5), Op.add (mkData 7), Op.remove, Op.add (mkData 9),
          Op.remove]).length ∧
      ∀ k, k < [mkData 5, mkData 7].length →
        (added [Op.add (mkData 5), Op.add (mkData 7), Op.remove, Op.add (mkData 9),
          Op.remove])[k]? = [mkData 5, mkData 7][k]? :=
  buffer_fifo [Op.add (mkData 5), Op.add (mkData 7), Op.remove, Op.add (mkData 9), Op.remove]
    [mkData 5, mkData 7] (by decide)

/-- C7: buffer occupancy invariant.  In every buffer state reachable from
in = out = 0 by `buffer_add` (taken only when not full) and `buffer_remove`
(taken only when not empty), 0 ≤ in < BUFFER_SIZE and 0 ≤ out < BUFFER_SIZE, and
the number of held items (in - out) mod BUFFER_SIZE, which is the number of
items added and not yet removed, is between 0 and BUFFER_SIZE = 10. -/
theorem buffer_occupancy (b : Buffer) (q : List Data) (h : Reach b q) :
    b.in_ < BUFFER_SIZE ∧ b.out < BUFFER_SIZE ∧ b.buff.length = BUFFER_SIZE ∧
      occupancy b = (q.length : ℤ) ∧ 0 ≤ occupancy b ∧ occupancy b ≤ (BUFFER_SIZE : ℤ) ∧
      BUFFER_SIZE = 10 := by
  obtain ⟨hlen, hin, hout, hq, hqi, _⟩ := reach_bufInv b q h
  have hocc : occupancy b = (q.length : ℤ) := by
    unfold occupancy
    simp only [BUFFER_SIZE] at *
    push_cast
    omega
  refine ⟨hin, hout, hlen, hocc, by rw [hocc]; omega, ?_, rfl⟩
  rw [hocc]
  simp only [BUFFER_SIZE] at *
  push_cast
  omega

/-- Witness of `buffer_occupancy`: the state after one add. -/
theorem buffer_occupancy_witness :
    occupancy { buff := (buffer_init BUFFER_SIZE).buff.set 0 (mkData 5), in_ := 1, out := 0 } =
      (([] ++ [mkData 5] : List Data).length : ℤ) :=
  (buffer_occupancy _ _ (Reach.add (mkData 5) Reach.init (by rfl))).2.2.2.1

/-- C8: no overwrite, no under-read.  In every reachable buffer state, whose
unread slots out, out+1, ..., in-1 (mod BUFFER_SIZE) hold the items added and
not yet removed: a `buffer_add` that proceeds writes slot buff[in], which is
none of the unread slots, changes only that slot and in (to
(in + 1) % BUFFER_SIZE) and leaves out and every other slot unchanged; a
`buffer_remove` that proceeds returns the content of buff[out], which is the
oldest item added and not yet removed, changes only out (to
(out + 1) % BUFFER_SIZE) and leaves in and all slots unchanged. -/
theorem buffer_frame (b : Buffer) (q : List Data) (h : Reach b q) :
    (∀ k, k < q.length → b.buff[(b.out + k) % BUFFER_SIZE]? = q[k]?) ∧
      (∀ d b', buffer_add b d = some b' →
        b'.buff = b.buff.set b.in_ d ∧ b'.buff[b.in_]? = some d ∧
        (∀ j, j ≠ b.in_ → b'.buff[j]? = b.buff[j]?) ∧
        (∀ k, k < q.length → (b.out + k) % BUFFER_SIZE ≠ b.in_) ∧
        b'.in_ = (b.in_ + 1) % BUFFER_SIZE ∧ b'.out = b.out) ∧
      (∀ d b', buffer_remove b = some (d, b') →
        b.buff[b.out]? = some d ∧ q.head? = some d ∧
        b'.buff = b.buff ∧ b'.in_ = b.in_ ∧ b'.out = (b.out + 1) % BUFFER_SIZE) := by
  have hinv := reach_bufInv b q h
  obtain ⟨hlen, hin, hout, hq, hqi, hslots⟩ := hinv
  refine ⟨hslots, ?_, ?_⟩
  · intro d b' hadd
    obtain ⟨hf, rfl⟩ := buffer_add_eq b b' d hadd
    refine ⟨rfl, ?_, ?_, ?_, rfl, rfl⟩
    · exact List.getElem?_set_eq_of_lt _ (by rw [hlen]; exact hin)
    · intro j hj
      exact List.getElem?_set_ne (fun e => hj e.symm)
    · intro k hk
      simp only [BUFFER_SIZE] at *
      omega
  · intro d b' hrem
    have h3 := bufInv_remove b b' q d (reach_bufInv b q h) hrem
    obtain ⟨_, _, rfl⟩ := buffer_remove_eq b b' d hrem
    exact ⟨h3.2.1, h3.1, rfl, rfl, rfl⟩

/-- Witness of `buffer_frame`: in the state after one add, the unread slot
holds the item added. -/
theorem buffer_frame_witness :
    ({ buff := (buffer_init BUFFER_SIZE).buff.set 0 (mkData 5), in_ := 1, out := 0 } :
        Buffer).buff[(0 + 0) % BUFFER_SIZE]? = ([] ++ [mkData 5] : List Data)[0]? :=
  (buffer_frame { buff := (buffer_init BUFFER_SIZE).buff.set 0 (mkData 5), in_ := 1, out := 0 }
    _ (Reach.add (mkData 5) Reach.init (by rfl))).1 0 (by decide)

/-! ## The pipeline: invariant -/

theorem factor_num (slack : Nat) (d : Data) : (factor slack d).num = d.num := rfl

theorem produced_sentinel (slack : Nat) (d : Data) (h : d.num = SENTINEL) :
    produced slack d = d := by
  unfold produced
  rw [if_pos h]

theorem produced_factor (slack : Nat) (d : Data) (h : d.num ≠ SENTINEL) :
    produced slack d = factor slack d := by
  unfold produced
  rw [if_neg h]

theorem map_produced (slack : Nat) (rest : List Int) (h : SENTINEL ∉ rest) :
    (rest.map mkData).map (produced slack) = rest.map (fun n => factor slack (mkData n)) := by
  rw [List.map_map]
  apply List.map_congr_left
  intro n hn
  have hne : (mkData n).num ≠ SENTINEL := fun e => h (by rw [← e]; exact hn)
  exact produced_factor slack _ hne

/-- In a stream that ends with its only sentinel, nothing follows a sentinel. -/
theorem sentinel_last (slack : Nat) (x : Data) (hx : x.num = SENTINEL) :
    ∀ (X Y : List Data) (rest : List Int), SENTINEL ∉ rest →
      X ++ x :: Y = rest.map (fun n => factor slack (mkData n)) ++ [sentinelData] → Y = [] := by
  intro X
  induction X with
  | nil =>
    intro Y rest hrest h
    cases rest with
    | nil =>
      simp only [List.nil_append, List.map_nil, List.cons.injEq] at h
      exact h.2
    | cons n r =>
      exfalso
      simp only [List.nil_append, List.map_cons, List.cons_append, List.cons.injEq] at h
      apply hrest
      have : x.num = n := by rw [h.1]; rfl
      rw [← hx, this]
      exact List.mem_cons_self _ _
  | cons a X ih =>
    intro Y rest hrest h
    cases rest with
    | nil =>
      exfalso
      simp only [List.cons_append, List.map_nil, List.nil_append, List.cons.injEq] at h
      exact absurd h.2 (by simp)
    | cons n r =>
      simp only [List.cons_append, List.map_cons, List.cons.injEq] at h
      exact ih Y r (fun hm => hrest (List.mem_cons_of_mem _ hm)) h.2

theorem run_ops_adds (ds : List Data) :
    ∀ (b : Buffer) (q : List Data), Reach b q →
      ((run_ops b (ds.map Op.add)).isSome = true ↔ q.length + ds.length ≤ BUFFER_SIZE - 1) := by
  induction ds with
  | nil =>
    intro b q h
    have hq := (reach_bufInv b q h).2.2.2.1
    simp only [BUFFER_SIZE] at *
    simp [run_ops]
    omega
  | cons d ds ih =>
    intro b q h
    obtain ⟨_, hin, hout, hq, hqi, _⟩ := reach_bufInv b q h
    simp only [List.map_cons, run_ops, List.length_cons]
    cases hadd : buffer_add b d with
    | none =>
      have hfull : (b.in_ + 1) % BUFFER_SIZE = b.out := by
        unfold buffer_add buffer_add_sized at hadd
        by_contra hne
        rw [if_neg hne] at hadd
        exact absurd hadd (by simp)
      simp only [BUFFER_SIZE] at *
      simp
      omega
    | some b' =>
      have hne := (buffer_add_eq b b' d hadd).1
      simp only []
      rw [ih b' (q ++ [d]) (Reach.add d h hadd)]
      simp only [BUFFER_SIZE, List.length_append, List.length_singleton] at *
      omega

/-- C12: full and empty tests under the reserved-slot scheme.  In every
reachable buffer state the full test (in + 1) % BUFFER_SIZE == out of
`buffer_add` is true exactly when the buffer holds BUFFER_SIZE - 1 = 9 items,
and the empty test in == out of `buffer_remove` is true exactly when it holds 0
items; `buffer_add` waits exactly in the first case and `buffer_remove` exactly
in the second; and from the empty buffer a run of consecutive adds proceeds
exactly when it has at most 9 adds, so 9 adds proceed and a 10th must wait. -/
theorem buffer_full_empty (b : Buffer) (q : List Data) (h : Reach b q) :
    ((b.in_ + 1) % BUFFER_SIZE = b.out ↔ q.length = BUFFER_SIZE - 1) ∧
      (b.in_ = b.out ↔ q.length = 0) ∧
      ((b.in_ + 1) % BUFFER_SIZE = b.out ↔ occupancy b = 9) ∧
      (b.in_ = b.out ↔ occupancy b = 0) ∧
      (∀ d, buffer_add b d = none ↔ q.length = BUFFER_SIZE - 1) ∧
      (buffer_remove b = none ↔ q.length = 0) ∧
      (∀ ds : List Data,
        (run_ops (buffer_init BUFFER_SIZE) (ds.map Op.add)).isSome = true ↔ ds.length ≤ 9) := by
  obtain ⟨hlen, hin, hout, hq, hqi, _⟩ := reach_bufInv b q h
  have hocc : occupancy b = (q.length : ℤ) := by
    unfold occupancy
    simp only [BUFFER_SIZE] at *
    push_cast
    omega
  have h1 : (b.in_ + 1) % BUFFER_SIZE = b.out ↔ q.length = BUFFER_SIZE - 1 := by
    simp only [BUFFER_SIZE] at *
    omega
  have h2 : b.in_ = b.out ↔ q.length = 0 := by
    simp only [BUFFER_SIZE] at *
    omega
  refine ⟨h1, h2, ?_, ?_, ?_, ?_, ?_⟩
  · rw [h1, hocc]
    simp only [BUFFER_SIZE]
    omega
  · rw [h2, hocc]
    omega
  · intro d
    rw [← h1]
    unfold buffer_add buffer_add_sized
    by_cases hf : (b.in_ + 1) % BUFFER_SIZE = b.out
    · rw [if_pos hf]; simp [hf]
    · rw [if_neg hf]; simp [hf]
  · rw [← h2]
    unfold buffer_remove buffer_remove_sized
    by_cases hf : b.in_ = b.out
    · rw [if_pos hf]; simp [hf]
    · rw [if_neg hf]; simp [hf]
  · intro ds
    have := run_ops_adds ds (buffer_init BUFFER_SIZE) [] Reach.init
    simpa [BUFFER_SIZE] using this

/-- Witness of `buffer_full_empty`: in the state after one add neither test
holds; the buffer holds one item. -/
theorem buffer_full_empty_witness :
    ((1 + 1) % BUFFER_SIZE = 0 ↔ ([] ++ [mkData 5] : List Data).length = BUFFER_SIZE - 1) ∧
      ((1 : ℕ) = 0 ↔ ([] ++ [mkData 5] : List Data).length = 0) :=
  ⟨(buffer_full_empty
      { buff := (buffer_init BUFFER_SIZE).buff.set 0 (mkData 5), in_ := 1, out := 0 } _
      (Reach.add (mkData 5) Reach.init (by rfl))).1,
    (buffer_full_empty
      { buff := (buffer_init BUFFER_SIZE).buff.set 0 (mkData 5), in_ := 1, out := 0 } _
      (Reach.add (mkData 5) Reach.init (by rfl))).2.1⟩

/-! ## The flag table: what is marked and what is accessed -/

theorem floor_sqrt_eq (num : ℤ) : floor_sqrt num = Nat.sqrt num.toNat := by
  unfold floor_sqrt
  exact sqrt_search_eq num.toNat num.toNat 0 (Nat.zero_le _)
    (by have := Nat.sqrt_le_self num.toNat; omega)

theorem floor_sqrt_mono (a b : ℤ) (h : a ≤ b) : floor_sqrt a ≤ floor_sqrt b := by
  rw [floor_sqrt_eq, floor_sqrt_eq]
  exact Nat.sqrt_le_sqrt (Int.toNat_le_toNat h)

/-- The inner loop of `prime_builder` writes below `primeThreshold` only. -/
theorem prime_builder_inner_writes_lt (T i : ℕ) :
    ∀ fuel j, ∀ k ∈ prime_builder_inner_writes T i fuel j, k < T := by
  intro fuel
  induction fuel with
  | zero => intro j k hk; simp [prime_builder_inner_writes] at hk
  | succ fuel ih =>
    intro j k hk
    simp only [prime_builder_inner_writes] at hk
    split at hk
    · next hj =>
      rcases List.mem_cons.mp hk with rfl | h
      · exact hj
      · exact ih (j + i) k h
    · simp at hk

/-- The outer loop of `prime_builder` reads `flags[primeThreshold]`. -/
theorem prime_builder_outer_reads_threshold (slack T : ℕ) :
    ∀ fuel i flags, i ≤ T → T + 1 ≤ i + fuel →
      T ∈ prime_builder_outer_accesses slack T fuel i flags := by
  intro fuel
  induction fuel with
  | zero => intro i flags h1 h2; omega
  | succ fuel ih =>
    intro i flags h1 h2
    simp only [prime_builder_outer_accesses]
    rw [if_pos h1]
    rcases Nat.eq_or_lt_of_le h1 with rfl | hlt
    · split <;> exact List.mem_cons_self _ _
    · split
      · exact List.mem_cons_of_mem _ (List.mem_append_right _ (ih (i + 1) _ (by omega) (by omega)))
      · exact List.mem_cons_of_mem _ (ih (i + 1) _ (by omega) (by omega))

/-- For every composite n ≥ 4, whatever the memory past the table holds,
`prime_builder` reads the index `floor(sqrt n)`, the size of the table. -/
theorem factor_builder_reads_size (slack n : ℕ) (hn : 2 ≤ n) (hnp : ¬ n.Prime) :
    factor_flag_size (mkData n) ∈ factor_builder_accesses slack (mkData n) := by
  have h4 : 2 ≤ Nat.sqrt n := by
    have hsq : n.minFac ^ 2 ≤ n := Nat.minFac_sq_le_self (by omega) hnp
    have h2 := (Nat.minFac_prime (show n ≠ 1 by omega)).two_le
    have : n.minFac ≤ Nat.sqrt n := Nat.le_sqrt.mpr (by rw [← sq]; exact hsq)
    omega
  unfold factor_builder_accesses factor_flag_size mkData
  simp only []
  rw [if_neg (fun h => hnp ((prime_tester_ne_zero_iff_prime n hn).mp h)), floor_sqrt_natCast]
  exact prime_builder_outer_reads_threshold slack _ _ 2 _ h4 (by omega)

/-- C14 (evaluation at the failing input): for the composite num = 16 the
threshold is 4, itself composite; `prime_builder` on the zeroed four-byte table
marks nothing (its inner loop stops at j < 4), the table has no index 4, and the
read of `flags[4]` sees the unmarked byte past it. -/
theorem sieve_misses_threshold :
    floor_sqrt 16 = 4 ∧ ¬ Nat.Prime 16 ∧ ¬ Nat.Prime 4 ∧
      prime_builder 0 (List.replicate 4 0) 4 = [0, 0, 0, 0] ∧
      prime_builder_accesses 0 (List.replicate 4 0) 4 = [2, 3, 4] ∧
      readFlag 0 (prime_builder 0 (List.replicate 4 0) 4) 4 = 0 := by
  decide

/-- C15 (evaluation at the failing input): for n = 4 `factor` allocates a
table of floor(sqrt 4) = 2 bytes, indices 0 and 1, and both `prime_builder` and
`trial_divider` read `flags[2]`. -/
theorem factor_reads_past_table :
    factor_flag_size (mkData 4) = 2 ∧
      factor_builder_accesses 0 (mkData 4) = [2] ∧
      factor_divider_reads 0 (mkData 4) = [2] ∧
      ¬ (∀ k ∈ factor_builder_accesses 0 (mkData 4) ++ factor_divider_reads 0 (mkData 4),
          k < factor_flag_size (mkData 4)) := by
  decide

/-! ## The recursion of `trial_divider` -/

theorem component_bounds (n i : ℕ) (hi : 2 ≤ i) (hle : i ≤ Nat.sqrt n) :
    2 ≤ n / i ∧ n / i < n := by
  have hsq : i * i ≤ n := Nat.le_sqrt.mp hle
  have h1 : i ≤ n / i := (Nat.le_div_iff_mul_le (by omega)).mpr hsq
  have h2 : n / i < n := Nat.div_lt_self (by nlinarith) (by omega)
  omega

theorem scan_num_natCast (num : ℤ) (i : ℕ) (hi : 2 ≤ i) (hle : i ≤ floor_sqrt num) :
    ∃ n : ℕ, num = (n : ℤ) ∧ i ≤ Nat.sqrt n := by
  rw [floor_sqrt_eq] at hle
  have hpos : 0 ≤ num := by
    by_contra hneg
    rw [Int.toNat_of_nonpos (by omega)] at hle
    simp at hle
    omega
  exact ⟨num.toNat, (Int.toNat_of_nonneg hpos).symm, hle⟩

/-- Every recursive invocation gets a component with 2 ≤ component < num of
its caller. -/
theorem trial_divider_calls_chain (slack : Nat) (flags : List Nat) :
    ∀ fuel (num : ℤ) (i : ℕ), 2 ≤ i →
      List.Chain (fun a b : ℤ => 2 ≤ b ∧ b < a) num
        (trial_divider_calls slack flags fuel num i) := by
  intro fuel
  induction fuel with
  | zero => intro num i _; exact List.Chain.nil
  | succ fuel ih =>
    intro num i hi
    simp only [trial_divider_calls]
    split
    · next hle =>
      obtain ⟨n, rfl, hsq⟩ := scan_num_natCast num i hi hle
      split
      · exact ih _ (i + 1) (by omega)
      · split
        · exact List.Chain.nil
        · split
          · split
            · exact List.Chain.nil
            · have hb := component_bounds n i hi hsq
              have hdiv : (n : ℤ).tdiv ((i : ℕ) : ℤ) = ((n / i : ℕ) : ℤ) := rfl
              rw [hdiv]
              refine List.Chain.cons ⟨by exact_mod_cast hb.1, by exact_mod_cast hb.2⟩ ?_
              exact ih _ 2 (le_refl _)
          · exact ih _ (i + 1) (by omega)
    · exact List.Chain.nil

theorem trial_divider_calls_le (slack : Nat) (flags : List Nat) :
    ∀ fuel (num : ℤ) (i : ℕ), 2 ≤ i →
      ∀ c ∈ trial_divider_calls slack flags fuel num i, 2 ≤ c ∧ c < num := by
  intro fuel
  induction fuel with
  | zero => intro num i _ c hc; simp [trial_divider_calls] at hc
  | succ fuel ih =>
    intro num i hi c hc
    simp only [trial_divider_calls] at hc
    split at hc
    · next hle =>
      obtain ⟨n, rfl, hsq⟩ := scan_num_natCast num i hi hle
      split at hc
      · exact ih _ (i + 1) (by omega) c hc
      · split at hc
        · simp at hc
        · split at hc
          · split at hc
            · simp at hc
            · have hb := component_bounds n i hi hsq
              have hdiv : (n : ℤ).tdiv ((i : ℕ) : ℤ) = ((n / i : ℕ) : ℤ) := rfl
              rw [hdiv] at hc
              have hb1 : (2 : ℤ) ≤ ((n / i : ℕ) : ℤ) := by exact_mod_cast hb.1
              have hb2 : ((n / i : ℕ) : ℤ) < (n : ℤ) := by exact_mod_cast hb.2
              rcases List.mem_cons.mp hc with rfl | h
              · exact ⟨hb1, hb2⟩
              · have := ih _ 2 (le_refl _) c h
                exact ⟨this.1, by omega⟩
          · exact ih _ (i + 1) (by omega) c hc
    · simp at hc

theorem trial_divider_reads_bound (slack : Nat) (flags : List Nat) :
    ∀ fuel (num : ℤ) (i : ℕ), 2 ≤ i →
      ∀ k ∈ trial_divider_reads slack flags fuel num i, 2 ≤ k ∧ k ≤ floor_sqrt num := by
  intro fuel
  induction fuel with
  | zero => intro num i _ k hk; simp [trial_divider_reads] at hk
  | succ fuel ih =>
    intro num i hi k hk
    simp only [trial_divider_reads] at hk
    split at hk
    · next hle =>
      have hself : 2 ≤ i ∧ i ≤ floor_sqrt num := ⟨hi, hle⟩
      obtain ⟨n, rfl, hsq⟩ := scan_num_natCast num i hi hle
      split at hk
      · rcases List.mem_cons.mp hk with rfl | h
        · exact hself
        · exact ih _ (i + 1) (by omega) k h
      · split at hk
        · rcases List.mem_singleton.mp hk with rfl
          exact hself
        · split at hk
          · split at hk
            · rcases List.mem_singleton.mp hk with rfl
              exact hself
            · rcases List.mem_cons.mp hk with rfl | h
              · exact hself
              · have hb := component_bounds n i hi hsq
                have hdiv : (n : ℤ).tdiv ((i : ℕ) : ℤ) = ((n / i : ℕ) : ℤ) := rfl
                rw [hdiv] at h
                have := ih _ 2 (le_refl _) k h
                refine ⟨this.1, le_trans this.2 (floor_sqrt_mono _ _ ?_)⟩
                exact_mod_cast hb.2.le
          · rcases List.mem_cons.mp hk with rfl | h
            · exact hself
            · exact ih _ (i + 1) (by omega) k h
    · simp at hk

/-- C16: the single flag table built from the original num suffices for the
whole recursion.  For every num (so for every n > 1) and every recursive
invocation `trial_divider(component, flags, ...)` reached from `factor`, the
component satisfies 2 ≤ component < num, the scan bound floor(sqrt(component))
recomputed in that call is at most floor(sqrt(num)), and every flag index any
invocation consults lies in [2, floor(sqrt(num))]. -/
theorem recursion_within_threshold (slack : Nat) (num : ℤ) :
    (∀ c ∈ factor_calls slack (mkData num),
        2 ≤ c ∧ c < num ∧ floor_sqrt c ≤ floor_sqrt num) ∧
      (∀ k ∈ factor_divider_reads slack (mkData num), 2 ≤ k ∧ k ≤ floor_sqrt num) := by
  constructor
  · intro c hc
    unfold factor_calls mkData at hc
    simp only [] at hc
    split at hc
    · simp at hc
    · have := trial_divider_calls_le slack _ _ num 2 (le_refl _) c hc
      exact ⟨this.1, this.2, floor_sqrt_mono _ _ this.2.le⟩
  · intro k hk
    unfold factor_divider_reads mkData at hk
    simp only [] at hk
    split at hk
    · simp at hk
    · exact trial_divider_reads_bound slack _ _ num 2 (le_refl _) k hk

/-- Witness of `recursion_within_threshold`: factoring 16 recurses on 8. -/
theorem recursion_within_threshold_witness :
    (2 : ℤ) ≤ 8 ∧ (8 : ℤ) < 16 ∧ floor_sqrt 8 ≤ floor_sqrt 16 :=
  (recursion_within_threshold 0 16).1 8 (by decide)

/-! ## Termination: the fuel is never used up -/

theorem not_scan_of_small (num : ℤ) (i : ℕ) (hi : 2 ≤ i) (h : num.toNat ≤ i) :
    ¬ i ≤ floor_sqrt num := by
  rw [floor_sqrt_eq]
  intro hle
  have hsq : i * i ≤ num.toNat := Nat.le_sqrt.mp hle
  nlinarith

/-- One more unit of fuel changes nothing once `trial_divider` has `num - i`
units: the scan and its recursive invocations take at most that many
iterations. -/
theorem trial_divider_from_fuel_succ (slack : Nat) (flags : List Nat) :
    ∀ fuel (num : ℤ) (i : ℕ) (m : FactorMem) (count : ℕ), 2 ≤ i → num.toNat - i ≤ fuel →
      trial_divider_from slack flags (fuel + 1) num i m count =
        trial_divider_from slack flags fuel num i m count := by
  intro fuel
  induction fuel with
  | zero =>
    intro num i m count hi hf
    simp only [trial_divider_from]
    rw [if_neg (not_scan_of_small num i hi (by omega))]
  | succ fuel ih =>
    intro num i m count hi hf
    conv_lhs => rw [trial_divider_from]
    conv_rhs => rw [trial_divider_from]
    by_cases hle : i ≤ floor_sqrt num
    · rw [if_pos hle, if_pos hle]
      obtain ⟨n, rfl, hsq⟩ := scan_num_natCast num i hi hle
      rw [Int.toNat_natCast] at hf
      have hb := component_bounds n i hi hsq
      have hmul : i * (n / i) ≤ n := Nat.mul_div_le n i
      have hcont := ih (n : ℤ) (i + 1) m count (by omega)
        (by rw [Int.toNat_natCast]; omega)
      by_cases hflag : readFlag slack flags i ≠ 0
      · rw [if_pos hflag, if_pos hflag]
        exact hcont
      · rw [if_neg hflag, if_neg hflag]
        simp only []
        by_cases hsqe : ((i : ℕ) : ℤ) ^ 2 = (n : ℤ)
        · rw [if_pos hsqe, if_pos hsqe]
        · rw [if_neg hsqe, if_neg hsqe]
          by_cases htm : (n : ℤ).tmod ((i : ℕ) : ℤ) = 0
          · rw [if_pos htm, if_pos htm]
            by_cases hpt : prime_tester ((n : ℤ).tdiv ((i : ℕ) : ℤ)) ≠ 0
            · rw [if_pos hpt, if_pos hpt]
            · rw [if_neg hpt, if_neg hpt]
              have hdiv : (n : ℤ).tdiv ((i : ℕ) : ℤ) = ((n / i : ℕ) : ℤ) := rfl
              rw [hdiv]
              exact ih _ 2 _ _ (le_refl _) (by
                rw [Int.toNat_natCast]
                have : i + n / i ≤ n + 1 := by nlinarith
                omega)
          · rw [if_neg htm, if_neg htm]
            exact hcont
    · rw [if_neg hle, if_neg hle]

theorem trial_divider_from_fuel_add (slack : Nat) (flags : List Nat) (fuel : ℕ) (num : ℤ)
    (i : ℕ) (m : FactorMem) (count : ℕ) (hi : 2 ≤ i) (hf : num.toNat - i ≤ fuel) :
    ∀ extra, trial_divider_from slack flags (fuel + extra) num i m count =
      trial_divider_from slack flags fuel num i m count := by
  intro extra
  induction extra with
  | zero => rfl
  | succ extra ih =>
    rw [← Nat.add_assoc,
      trial_divider_from_fuel_succ slack flags (fuel + extra) num i m count hi (by omega), ih]

theorem prime_tester_loop_fuel_succ (num : ℤ) (T : ℕ) :
    ∀ fuel i, T ≤ i + fuel →
      prime_tester_loop num T (fuel + 1) i = prime_tester_loop num T fuel i := by
  intro fuel
  induction fuel with
  | zero =>
    intro i h
    simp only [prime_tester_loop]
    rw [if_neg (by omega)]
  | succ fuel ih =>
    intro i h
    conv_lhs => rw [prime_tester_loop]
    conv_rhs => rw [prime_tester_loop]
    by_cases hi : i < T
    · rw [if_pos hi, if_pos hi]
      simp only []
      by_cases hd : num.tmod (2 * (i : ℤ) + 1) = 0
      · rw [if_pos hd, if_pos hd]
      · rw [if_neg hd, if_neg hd]
        exact ih (i + 1) (by omega)
    · rw [if_neg hi, if_neg hi]

theorem prime_tester_loop_fuel_add (num : ℤ) (T fuel i : ℕ) (h : T ≤ i + fuel) :
    ∀ extra, prime_tester_loop num T (fuel + extra) i = prime_tester_loop num T fuel i := by
  intro extra
  induction extra with
  | zero => rfl
  | succ extra ih =>
    rw [← Nat.add_assoc, prime_tester_loop_fuel_succ num T (fuel + extra) i (by omega), ih]

theorem prime_builder_inner_fuel_add (T i fuel j : ℕ) (flags : List Nat) (hi : 0 < i)
    (h : T ≤ j + fuel) :
    ∀ extra, prime_builder_inner T i (fuel + extra) j flags =
      prime_builder_inner T i fuel j flags := by
  intro extra
  induction extra with
  | zero => rfl
  | succ extra ih =>
    rw [← Nat.add_assoc, prime_builder_inner_fuel T i hi (fuel + extra) j flags (by omega), ih]

theorem prime_builder_outer_fuel_add (slack T fuel i : ℕ) (flags : List Nat)
    (h : T + 1 ≤ i + fuel) :
    ∀ extra, prime_builder_outer slack T (fuel + extra) i flags =
      prime_builder_outer slack T fuel i flags := by
  intro extra
  induction extra with
  | zero => rfl
  | succ extra ih =>
    rw [← Nat.add_assoc, prime_builder_outer_fuel slack T (fuel + extra) i flags (by omega), ih]

/-! ## Within capacity -/

theorem two_pow_length_le_prod :
    ∀ l : List ℕ, (∀ p ∈ l, 2 ≤ p) → 2 ^ l.length ≤ l.prod := by
  intro l
  induction l with
  | nil => intro _; simp
  | cons a l ih =>
    intro h
    have ha : 2 ≤ a := h a (List.mem_cons_self _ _)
    have hl := ih (fun p hp => h p (List.mem_cons_of_mem _ hp))
    simp only [List.length_cons, List.prod_cons, pow_succ]
    calc 2 ^ l.length * 2 ≤ l.prod * a := Nat.mul_le_mul hl ha
      _ = a * l.prod := Nat.mul_comm _ _

theorem primeFactorsList_length_le (n : ℕ) (hn : n ≠ 0) (h : n < 2 ^ (MAX_FACTORS + 1)) :
    (Nat.primeFactorsList n).length ≤ MAX_FACTORS := by
  have h1 := two_pow_length_le_prod (Nat.primeFactorsList n)
    (fun p hp => (Nat.prime_of_mem_primeFactorsList hp).two_le)
  rw [Nat.prod_primeFactorsList hn] at h1
  by_contra hgt
  have h2 : 2 ^ (MAX_FACTORS + 1) ≤ 2 ^ (Nat.primeFactorsList n).length :=
    Nat.pow_le_pow_right (by decide) (by omega)
  omega

/-- When the byte past the flag table holds 0: for every integer n with
2 ≤ n ≤ 2047, `factor` performs one store per prime factor of n counted with
multiplicity, at the indices 0, 1, 2, ... in order; there are at most
MAX_FACTORS = 10 of them, so every store is at an index in [0, 10): nothing is
stored outside the slots, which end up holding the factors followed by zeros. -/
theorem factor_within_capacity_zero_byte (n : ℕ) (h2 : 2 ≤ n) (h : n ≤ 2047) :
    factor_mem 0 (mkData n) =
        store_all { slots := zeroPrimes, spill := [] } 0 (int_factors n) ∧
      (int_factors n).length = (Nat.primeFactorsList n).length ∧
      (Nat.primeFactorsList n).length ≤ MAX_FACTORS ∧
      (∀ k, k < (int_factors n).length → k < MAX_FACTORS) ∧
      (factor_mem 0 (mkData n)).spill = [] ∧
      (factor_mem 0 (mkData n)).slots =
        int_factors n ++ List.replicate (MAX_FACTORS - (int_factors n).length) 0 ∧
      (factor_mem 0 (mkData n)).slots.length = MAX_FACTORS := by
  have hcap : (Nat.primeFactorsList n).length ≤ MAX_FACTORS :=
    primeFactorsList_length_le n (by omega) (by simp only [MAX_FACTORS]; omega)
  have hlen : (int_factors n).length = (Nat.primeFactorsList n).length := by
    unfold int_factors; rw [List.length_map]
  have hm : factor_mem 0 (mkData n) =
      store_all { slots := zeroPrimes, spill := [] } 0 (int_factors n) :=
    factor_mem_eq 0 n h2 zeroPrimes (fun _ _ _ => rfl)
  have hlen' : (int_factors n).length ≤ MAX_FACTORS := by omega
  have hm2 : factor_mem 0 (mkData n) =
      { slots := int_factors n ++ List.replicate (MAX_FACTORS - (int_factors n).length) 0,
        spill := [] } := by
    rw [hm]
    have hfront := store_all_front (int_factors n) [] zeroPrimes []
    simp only [List.nil_append, List.length_nil, Nat.zero_add] at hfront
    rw [hfront]
    have hz : zeroPrimes.length = MAX_FACTORS := by simp [zeroPrimes]
    rw [hz, List.take_of_length_le hlen', List.drop_eq_nil_of_le hlen']
    simp [spill_of, zeroPrimes]
  refine ⟨hm, hlen, hcap, fun k hk => by omega, by rw [hm2], by rw [hm2], ?_⟩
  rw [hm2]
  simp
  omega

/-- The instance n = 1024 = 2^10 of `factor_within_capacity_zero_byte`, which
fills the ten slots. -/
theorem factor_within_capacity_zero_byte_at_1024 :
    (factor_mem 0 (mkData (1024 : ℕ))).spill = [] ∧
      (factor_mem 0 (mkData (1024 : ℕ))).slots.length = MAX_FACTORS :=
  ⟨(factor_within_capacity_zero_byte 1024 (by decide) (by decide)).2.2.2.2.1,
    (factor_within_capacity_zero_byte 1024 (by decide) (by decide)).2.2.2.2.2.2⟩

/-! ## The sieve never hides a factor -/

/-- An index that does not divide num lets the scan go on to the next one,
flagged or not. -/
theorem scan_passes (slack : Nat) (flags : List Nat) (fuel n i : ℕ) (m : FactorMem)
    (count : ℕ) (hle : i ≤ Nat.sqrt n) (hnd : ¬ i ∣ n) :
    trial_divider_from slack flags (fuel + 1) (n : ℤ) i m count =
      trial_divider_from slack flags fuel (n : ℤ) (i + 1) m count := by
  have hsqe : ¬ ((i : ℕ) : ℤ) ^ 2 = (n : ℤ) := by
    intro h
    have h2 : i ^ 2 = n := by exact_mod_cast h
    exact hnd ⟨i, by rw [← h2, sq]⟩
  have htm : ¬ (n : ℤ).tmod ((i : ℕ) : ℤ) = 0 := fun h => hnd ((tmod_natCast_eq_zero _ _).mp h)
  simp only [trial_divider_from]
  rw [if_pos (by rw [floor_sqrt_natCast]; exact hle)]
  by_cases hflag : readFlag slack flags i ≠ 0
  · rw [if_pos hflag]
  · rw [if_neg hflag, if_neg hsqe, if_neg htm]

/-- At an unflagged divisor of num the scan stops: it stores the divisor and
either finishes or hands the component on. -/
theorem scan_stops (slack : Nat) (flags : List Nat) (fuel n i : ℕ) (m : FactorMem)
    (count : ℕ) (hle : i ≤ Nat.sqrt n) (hd : i ∣ n) (hflag : readFlag slack flags i = 0) :
    trial_divider_from slack flags (fuel + 1) (n : ℤ) i m count =
      if i ^ 2 = n then store (store m count (i : ℤ)) (count + 1) (i : ℤ)
      else if prime_tester ((n / i : ℕ) : ℤ) ≠ 0 then
        store (store m count (i : ℤ)) (count + 1) ((n / i : ℕ) : ℤ)
      else
        trial_divider_from slack flags fuel ((n / i : ℕ) : ℤ) 2 (store m count (i : ℤ))
          (count + 1) := by
  have htm : (n : ℤ).tmod ((i : ℕ) : ℤ) = 0 := (tmod_natCast_eq_zero _ _).mpr hd
  have hdiv : (n : ℤ).tdiv ((i : ℕ) : ℤ) = ((n / i : ℕ) : ℤ) := rfl
  simp only [trial_divider_from]
  rw [if_pos (by rw [floor_sqrt_natCast]; exact hle), if_neg (by rw [hflag]; simp)]
  by_cases hsqe : i ^ 2 = n
  · have hsqe' : ((i : ℕ) : ℤ) ^ 2 = (n : ℤ) := by exact_mod_cast hsqe
    rw [if_pos hsqe', if_pos hsqe]
  · have hsqe' : ¬ ((i : ℕ) : ℤ) ^ 2 = (n : ℤ) := fun h => hsqe (by exact_mod_cast h)
    rw [if_neg hsqe', if_neg hsqe, if_pos htm, hdiv]

theorem scanClear_zero_table (T n : ℕ) : ScanClear 0 (List.replicate T 0) n := by
  intro q _ _ _
  unfold readFlag
  simp only [List.getD_eq_getElem?_getD, List.getElem?_replicate]
  split <;> rfl

theorem scanClear_sieve (T n : ℕ) :
    ScanClear 0 (prime_builder 0 (List.replicate T 0) T) n :=
  fun q hq _ _ => readFlag_prime_builder 0 T q hq (Or.inr rfl)

/-- When the byte past the flag table holds 0: `prime_builder` never flags a
prime index of the table; in every call `trial_divider(num, flags, ...)` with
composite num ≥ 4 on the table `factor` built, the scan passes every index
2 ≤ i below the smallest prime factor of num and stops at that factor, storing
it; and what `trial_divider` stores with the sieved table is what the same
`trial_divider` stores with an all-zero table, the prime factorisation of
num. -/
theorem sieve_scan_zero_byte (n : ℕ) (hn : 4 ≤ n) (hnp : ¬ n.Prime) :
    (∀ slack T q, q.Prime → q < T →
        readFlag slack (prime_builder slack (List.replicate T 0) T) q = 0) ∧
      (∀ T fuel i m count, 2 ≤ i → i < n.minFac →
        trial_divider_from 0 (prime_builder 0 (List.replicate T 0) T) (fuel + 1) (n : ℤ) i m count
          = trial_divider_from 0 (prime_builder 0 (List.replicate T 0) T) fuel (n : ℤ) (i + 1)
              m count) ∧
      (∀ T fuel m count,
        trial_divider_from 0 (prime_builder 0 (List.replicate T 0) T) (fuel + 1) (n : ℤ)
            n.minFac m count =
          if n.minFac ^ 2 = n then
            store (store m count (n.minFac : ℤ)) (count + 1) (n.minFac : ℤ)
          else if prime_tester ((n / n.minFac : ℕ) : ℤ) ≠ 0 then
            store (store m count (n.minFac : ℤ)) (count + 1) ((n / n.minFac : ℕ) : ℤ)
          else
            trial_divider_from 0 (prime_builder 0 (List.replicate T 0) T) fuel
              ((n / n.minFac : ℕ) : ℤ) 2 (store m count (n.minFac : ℤ)) (count + 1)) ∧
      (∀ T fuel m count, n - 2 ≤ fuel →
        trial_divider 0 fuel (n : ℤ) (prime_builder 0 (List.replicate T 0) T) m count =
          trial_divider 0 fuel (n : ℤ) (List.replicate T 0) m count ∧
        trial_divider 0 fuel (n : ℤ) (prime_builder 0 (List.replicate T 0) T) m count =
          store_all m count (int_factors n)) := by
  have hpp : n.minFac.Prime := Nat.minFac_prime (by omega)
  have hpd : n.minFac ∣ n := Nat.minFac_dvd n
  have hsq : n.minFac ^ 2 ≤ n := Nat.minFac_sq_le_self (by omega) hnp
  have hps : n.minFac ≤ Nat.sqrt n := Nat.le_sqrt.mpr (by rw [← sq]; exact hsq)
  refine ⟨?_, ?_, ?_, ?_⟩
  · intro slack T q hq hlt
    exact readFlag_prime_builder slack T q hq (Or.inl hlt)
  · intro T fuel i m count hi hlt
    apply scan_passes
    · omega
    · intro hd
      have := Nat.minFac_le_of_dvd hi hd
      omega
  · intro T fuel m count
    exact scan_stops 0 _ fuel n n.minFac m count hps hpd
      (readFlag_prime_builder 0 T _ hpp (Or.inr rfl))
  · intro T fuel m count hf
    have h2 : 2 ≤ n.minFac := hpp.two_le
    have e1 := trial_divider_from_eq 0 (prime_builder 0 (List.replicate T 0) T) fuel n 2 m count
      (by omega) hnp (le_refl _) h2 hf (scanClear_sieve T n)
    have e2 := trial_divider_from_eq 0 (List.replicate T 0) fuel n 2 m count
      (by omega) hnp (le_refl _) h2 hf (scanClear_zero_table T n)
    unfold trial_divider
    exact ⟨by rw [e1, e2], e1⟩

/-- The instance n = 100 of `sieve_scan_zero_byte`, with the table of
floor(sqrt 100) = 10 bytes and the fuel `factor` hands over. -/
theorem sieve_scan_zero_byte_at_100 :
    trial_divider 0 100 ((100 : ℕ) : ℤ) (prime_builder 0 (List.replicate 10 0) 10)
        { slots := zeroPrimes, spill := [] } 0 =
      trial_divider 0 100 ((100 : ℕ) : ℤ) (List.replicate 10 0)
        { slots := zeroPrimes, spill := [] } 0 :=
  ((sieve_scan_zero_byte 100 (by decide) (by decide)).2.2.2 10 100
    { slots := zeroPrimes, spill := [] } 0 (by decide)).1

/-! ## The circular buffer for any capacity constant of at least 2 -/

theorem mod_wrap (n a : ℕ) (h : a < 2 * n) : a % n = if a < n then a else a - n := by
  split
  · next hlt => exact Nat.mod_eq_of_lt hlt
  · next hge =>
    rw [Nat.mod_eq_sub_mod (by omega)]
    exact Nat.mod_eq_of_lt (by omega)

theorem mod_add_inj (n o k l : ℕ) (ho : o < n) (hk : k < n) (hl : l < n)
    (h : (o + k) % n = (o + l) % n) : k = l := by
  rw [mod_wrap n (o + k) (by omega), mod_wrap n (o + l) (by omega)] at h
  split at h <;> split at h <;> omega

theorem bufInvS_init (size : ℕ) (hs : 2 ≤ size) : BufInvS size (buffer_init size) [] := by
  refine ⟨by simp [buffer_init], ?_, ?_, ?_, ?_, ?_⟩
  · show 0 < size; omega
  · show 0 < size; omega
  · show 0 < size; omega
  · show (0 + 0) % size = 0; simp
  · intro k hk; simp at hk

theorem buffer_add_sized_eq (size : ℕ) (b b' : Buffer) (d : Data)
    (h : buffer_add_sized size b d = some b') :
    (b.in_ + 1) % size ≠ b.out ∧
      b' = { buff := b.buff.set b.in_ d, in_ := (b.in_ + 1) % size, out := b.out } := by
  unfold buffer_add_sized at h
  by_cases hf : (b.in_ + 1) % size = b.out
  · rw [if_pos hf] at h; exact absurd h (by simp)
  · rw [if_neg hf] at h
    exact ⟨hf, (Option.some.inj h).symm⟩

theorem buffer_remove_sized_eq (size : ℕ) (b b' : Buffer) (d : Data)
    (h : buffer_remove_sized size b = some (d, b')) :
    b.in_ ≠ b.out ∧ d = b.buff.getD b.out zeroData ∧
      b' = { buff := b.buff, in_ := b.in_, out := (b.out + 1) % size } := by
  unfold buffer_remove_sized at h
  by_cases hf : b.in_ = b.out
  · rw [if_pos hf] at h; exact absurd h (by simp)
  · rw [if_neg hf] at h
    have h' := Option.some.inj h
    simp only [Prod.mk.injEq] at h'
    exact ⟨hf, h'.1.symm, h'.2.symm⟩

theorem bufInvS_add (size : ℕ) (hs : 2 ≤ size) (b b' : Buffer) (q : List Data) (d : Data)
    (hinv : BufInvS size b q) (h : buffer_add_sized size b d = some b') :
    BufInvS size b' (q ++ [d]) := by
  obtain ⟨hf, rfl⟩ := buffer_add_sized_eq size b b' d h
  obtain ⟨hlen, hin, hout, hq, hqi, hslots⟩ := hinv
  have hstep : (b.out + (q.length + 1)) % size = (b.in_ + 1) % size := by
    rw [← hqi, Nat.mod_add_mod, Nat.add_assoc]
  have hroom : q.length + 1 < size := by
    by_contra hge
    apply hf
    rw [← hstep]
    have : b.out + (q.length + 1) = b.out + size := by omega
    rw [this, Nat.add_mod_right, Nat.mod_eq_of_lt hout]
  refine ⟨by simp [hlen], Nat.mod_lt _ (by omega), hout, by simpa using hroom,
    by simpa using hstep, ?_⟩
  intro k hk
  simp only [List.length_append, List.length_singleton] at hk
  by_cases hkq : k < q.length
  · have hne : b.in_ ≠ (b.out + k) % size := by
      intro e
      rw [← hqi] at e
      have := mod_add_inj size b.out q.length k hout hq (by omega) e
      omega
    show (b.buff.set b.in_ d)[(b.out + k) % size]? = (q ++ [d])[k]?
    rw [List.getElem?_set_ne hne, hslots k hkq, List.getElem?_append_left hkq]
  · have hke : k = q.length := by omega
    subst hke
    show (b.buff.set b.in_ d)[(b.out + q.length) % size]? = (q ++ [d])[q.length]?
    rw [hqi, List.getElem?_set_eq_of_lt _ (by rw [hlen]; exact hin)]
    simp

theorem bufInvS_remove (size : ℕ) (hs : 2 ≤ size) (b b' : Buffer) (q : List Data) (d : Data)
    (hinv : BufInvS size b q) (h : buffer_remove_sized size b = some (d, b')) :
    q.head? = some d ∧ BufInvS size b' q.tail := by
  obtain ⟨hf, hd, rfl⟩ := buffer_remove_sized_eq size b b' d h
  obtain ⟨hlen, hin, hout, hq, hqi, hslots⟩ := hinv
  cases q with
  | nil =>
    exfalso
    apply hf
    rw [← hqi]
    simp [Nat.mod_eq_of_lt hout]
  | cons x q =>
    have h0 := hslots 0 (by simp)
    rw [Nat.add_zero, Nat.mod_eq_of_lt hout] at h0
    simp only [List.getElem?_cons_zero] at h0
    have hdx : d = x := by
      rw [hd, List.getD_eq_getElem?_getD, h0]
      rfl
    subst hdx
    simp only [List.length_cons, List.tail_cons] at hq hqi hslots ⊢
    refine ⟨rfl, hlen, hin, Nat.mod_lt _ (by omega), by omega, ?_, ?_⟩
    · show ((b.out + 1) % size + q.length) % size = b.in_
      rw [Nat.mod_add_mod, ← hqi]
      congr 1
      omega
    · intro k hk
      show b.buff[((b.out + 1) % size + k) % size]? = q[k]?
      have h1 := hslots (k + 1) (by omega)
      rw [Nat.mod_add_mod, show b.out + 1 + k = b.out + (k + 1) by omega, h1]
      simp

theorem mkData_sentinel : mkData SENTINEL = sentinelData := rfl

theorem stream_split (args : List Int) :
    args.map mkData ++ [sentinelData] =
      ((effective args).map mkData ++ [sentinelData]) ++ junk args := by
  induction args with
  | nil => rfl
  | cons a l ih =>
    by_cases ha : a = SENTINEL
    · subst ha
      simp [effective, junk, List.takeWhile, List.dropWhile, mkData_sentinel]
    · unfold effective junk at ih ⊢
      simp only [List.takeWhile, List.dropWhile, ha, ne_eq, not_false_eq_true, decide_True,
        List.map_cons, List.cons_append]
      rw [ih]

theorem effective_no_sentinel (args : List Int) : SENTINEL ∉ effective args := by
  intro h
  have := List.mem_takeWhile_imp h
  simp at this

theorem effective_eq_self (args : List Int) (h : SENTINEL ∉ args) :
    effective args = args ∧ junk args = [] := by
  have hall : ∀ x ∈ args, (fun n => decide (n ≠ SENTINEL)) x = true := by
    intro x hx
    have : x ≠ SENTINEL := fun e => h (e ▸ hx)
    simpa using this
  constructor
  · exact List.takeWhile_eq_self_iff.mpr hall
  · unfold junk
    rw [List.dropWhile_eq_nil_iff.mpr hall]

/-- In a stream that ends with its only sentinel, something follows every
other item. -/
theorem sentinel_not_inner (slack : Nat) (y : Data) (hy : y.num ≠ SENTINEL)
    (X Y : List Data) (rest : List Int)
    (h : X ++ y :: Y = rest.map (fun n => factor slack (mkData n)) ++ [sentinelData]) :
    Y ≠ [] := by
  intro hY
  subst hY
  have h2 := (List.append_inj' h (by simp)).2
  simp only [List.cons.injEq, and_true] at h2
  exact hy (by rw [h2]; rfl)

theorem gInv_init (size slack : ℕ) (hs : 2 ≤ size) (args : List Int) :
    GInv size slack (effective args) (junk args) (pipeline_init_sized size args) [] []
      ((effective args).map mkData ++ [sentinelData]) := by
  refine ⟨bufInvS_init size hs, bufInvS_init size hs, ?_, ?_, ?_, ?_, ?_, ?_⟩
  · rw [← stream_split]
    simp [upstream, main_rest, pipeline_init_sized]
  · intro d h; exact absurd h (by simp [pipeline_init_sized])
  · rintro (h | ⟨d, h⟩) <;> exact absurd h (by simp [pipeline_init_sized])
  · intro _; simp
  · intro h; exact absurd h (by simp [pipeline_init_sized])
  · intro _
    refine ⟨effective args, effective_no_sentinel args, ?_, by simp [pipeline_init_sized]⟩
    simp only [prod_hold, pipeline_init_sized, List.nil_append, List.map_append, List.map_cons,
      List.map_nil]
    rw [map_produced slack _ (effective_no_sentinel args),
      produced_sentinel slack sentinelData rfl]

theorem main_step_ginv (size slack : ℕ) (hs : 2 ≤ size) (eff : List Int) (J : List Data)
    (s s' : Pipeline) (qm qc U : List Data) (hinv : GInv size slack eff J s qm qc U)
    (h : main_step size s = some s') :
    ∃ qm', GInv size slack eff J s' qm' qc U ∧ work s' qm' qc + 1 = work s qm qc ∧
      main_rest s = (main_item s).toList ++ main_rest s' ∧ s'.prod = s.prod := by
  obtain ⟨hm, hc, hU, h3, h4, hN, h5, h6⟩ := hinv
  unfold main_step at h
  have key : ∀ (x : Data) (b : Buffer) (s1 : Pipeline),
      buffer_add_sized size s.mp_buffer x = some b → main_rest s = x :: main_rest s1 →
      main_item s = some x →
      s1.mp_buffer = b → s1.cp_buffer = s.cp_buffer → s1.prod = s.prod →
      s1.cons_done = s.cons_done → s1.printed = s.printed →
      ∃ qm', GInv size slack eff J s1 qm' qc U ∧ work s1 qm' qc + 1 = work s qm qc ∧
        main_rest s = (main_item s).toList ++ main_rest s1 ∧ s1.prod = s.prod := by
    intro x b s1 hadd hrest hitem e1 e2 e3 e4 e5
    have hup : upstream s1 (qm ++ [x]) = upstream s qm := by
      unfold upstream; rw [hrest]; simp
    refine ⟨qm ++ [x], ⟨?_, ?_, ?_, ?_, ?_, ?_, ?_, ?_⟩, ?_, ?_, e3⟩
    · rw [e1]; exact bufInvS_add size hs _ _ _ x hm hadd
    · rw [e2]; exact hc
    · rw [hup]; exact hU
    · intro d hd; exact h3 d (by rw [← e3]; exact hd)
    · intro hd; exact h4 (by rw [← e3]; exact hd)
    · intro hd; exact hN (by rw [← e3]; exact hd)
    · intro hd; rw [e3, e5]; exact h5 (by rw [← e4]; exact hd)
    · intro hd; rw [e3, e5]; exact h6 (by rw [← e4]; exact hd)
    · unfold work; rw [hrest, e3]; simp; omega
    · rw [hitem, hrest]; rfl
  cases hargs : s.args with
  | nil =>
    rw [hargs] at h
    simp only [] at h
    by_cases hdone : s.main_done = true
    · rw [if_pos hdone] at h; exact absurd h (by simp)
    · rw [if_neg hdone] at h
      cases hadd : buffer_add_sized size s.mp_buffer sentinelData with
      | none => rw [hadd] at h; exact absurd h (by simp)
      | some b =>
        rw [hadd] at h
        simp only [Option.some.injEq] at h
        subst h
        exact key sentinelData b _ hadd (by simp [main_rest, hargs, hdone])
          (by simp [main_item, hargs, hdone]) rfl rfl rfl rfl rfl
  | cons n rest =>
    rw [hargs] at h
    simp only [] at h
    cases hadd : buffer_add_sized size s.mp_buffer (mkData n) with
    | none => rw [hadd] at h; exact absurd h (by simp)
    | some b =>
      rw [hadd] at h
      simp only [Option.some.injEq] at h
      subst h
      exact key (mkData n) b _ hadd (by simp [main_rest, hargs])
        (by simp [main_item, hargs]) rfl rfl rfl rfl rfl

theorem producer_step_ginv (size slack : ℕ) (hs : 2 ≤ size) (eff : List Int) (J : List Data)
    (s s' : Pipeline) (qm qc U : List Data) (hinv : GInv size slack eff J s qm qc U)
    (h : producer_step size slack s = some s') :
    ∃ qm' qc' U', GInv size slack eff J s' qm' qc' U' ∧
      work s' qm' qc' + 1 = work s qm qc ∧ main_rest s' = main_rest s ∧
      prod_hold s.prod ++ U.map (produced slack) =
        (producer_item s).toList ++ (prod_hold s'.prod ++ U'.map (produced slack)) := by
  obtain ⟨hm, hc, hU, h3, h4, hN, h5, h6⟩ := hinv
  unfold producer_step at h
  cases hprod : s.prod with
  | removing =>
    rw [hprod] at h
    simp only [] at h
    cases hrem : buffer_remove_sized size s.mp_buffer with
    | none => rw [hrem] at h; exact absurd h (by simp)
    | some r =>
      obtain ⟨temp, b⟩ := r
      rw [hrem] at h
      simp only [] at h
      obtain ⟨hhead, hb⟩ := bufInvS_remove size hs s.mp_buffer b qm temp hm hrem
      cases qm with
      | nil => simp at hhead
      | cons x qm' =>
        simp only [List.head?_cons, Option.some.injEq] at hhead
        subst hhead
        simp only [List.tail_cons] at hb
        have hUne : U ≠ [] := hN (Or.inl hprod)
        cases U with
        | nil => exact absurd rfl hUne
        | cons u U' =>
          have hU' : x = u ∧ qm' ++ main_rest s = U' ++ J := by
            simpa [upstream] using hU
          obtain ⟨rfl, hUtail⟩ := hU'
          have hcd : s.cons_done = false := by
            cases hcd : s.cons_done with
            | false => rfl
            | true =>
              exfalso
              have := (h5 hcd).1
              simp at this
          obtain ⟨rest, hrest, hw, hE⟩ := h6 hcd
          rw [hprod] at hw
          simp only [prod_hold, List.append_nil, List.map_cons] at hw
          by_cases hsent : x.num = SENTINEL
          · rw [if_pos hsent] at h
            simp only [Option.some.injEq] at h
            subst h
            have hnil := sentinel_last slack (produced slack x)
              (by rw [produced_sentinel slack x hsent]; exact hsent) qc _ rest hrest hw
            have hU0 : U' = [] := List.map_eq_nil_iff.mp hnil
            subst hU0
            refine ⟨qm', qc, [], ⟨hb, hc, ?_, ?_, ?_, ?_, ?_, ?_⟩, ?_, rfl, ?_⟩
            · simpa [upstream, main_rest] using hUtail
            · intro d hd
              simp only [ProdState.finishing.injEq] at hd
              rw [← hd]; exact hsent
            · intro _; rfl
            · rintro (hd | ⟨d, hd⟩) <;> simp at hd
            · intro hd; exact absurd hd (by simp [hcd])
            · intro _
              refine ⟨rest, hrest, ?_, hE⟩
              rw [← hw]
              simp [prod_hold, produced_sentinel slack x hsent]
            · simp [work, hprod, prod_hold, main_rest]; omega
            · simp [producer_item, hprod, prod_hold, produced_sentinel slack x hsent]
          · rw [if_neg hsent] at h
            simp only [Option.some.injEq] at h
            subst h
            have hne : U'.map (produced slack) ≠ [] :=
              sentinel_not_inner slack (produced slack x)
                (by rw [produced_factor slack x hsent]; exact hsent) qc _ rest hw
            refine ⟨qm', qc, U', ⟨hb, hc, ?_, ?_, ?_, ?_, ?_, ?_⟩, ?_, rfl, ?_⟩
            · simpa [upstream, main_rest] using hUtail
            · intro d hd; simp at hd
            · rintro (hd | ⟨d, hd⟩) <;> simp at hd
            · intro _ e
              apply hne
              rw [e]; rfl
            · intro hd; exact absurd hd (by simp [hcd])
            · intro _
              refine ⟨rest, hrest, ?_, hE⟩
              rw [← hw]
              simp [prod_hold, produced_factor slack x hsent]
            · simp [work, hprod, prod_hold, main_rest]; omega
            · simp [producer_item, hprod, prod_hold, produced_factor slack x hsent]
  | adding temp =>
    rw [hprod] at h
    simp only [] at h
    cases hadd : buffer_add_sized size s.cp_buffer temp with
    | none => rw [hadd] at h; exact absurd h (by simp)
    | some b =>
      rw [hadd] at h
      simp only [Option.some.injEq] at h
      subst h
      have hUne : U ≠ [] := hN (Or.inr ⟨temp, hprod⟩)
      refine ⟨qm, qc ++ [temp], U,
        ⟨hm, bufInvS_add size hs _ _ _ temp hc hadd, hU, ?_, ?_, ?_, ?_, ?_⟩, ?_, rfl, ?_⟩
      · intro d hd; simp at hd
      · rintro (hd | ⟨d, hd⟩) <;> simp at hd
      · intro _; exact hUne
      · intro hd
        have := h5 hd
        rw [hprod] at this
        simp [prod_hold] at this
      · intro hd
        have := h6 hd
        rw [hprod] at this
        simpa [prod_hold] using this
      · simp [work, hprod, prod_hold, main_rest]; omega
      · simp [producer_item, hprod, prod_hold]
  | finishing temp =>
    rw [hprod] at h
    simp only [] at h
    cases hadd : buffer_add_sized size s.cp_buffer temp with
    | none => rw [hadd] at h; exact absurd h (by simp)
    | some b =>
      rw [hadd] at h
      simp only [Option.some.injEq] at h
      subst h
      have hU0 : U = [] := h4 (Or.inr ⟨temp, hprod⟩)
      refine ⟨qm, qc ++ [temp], U,
        ⟨hm, bufInvS_add size hs _ _ _ temp hc hadd, hU, ?_, ?_, ?_, ?_, ?_⟩, ?_, rfl, ?_⟩
      · intro d hd; simp at hd
      · intro _; exact hU0
      · rintro (hd | ⟨d, hd⟩) <;> simp at hd
      · intro hd
        have := h5 hd
        rw [hprod] at this
        simp [prod_hold] at this
      · intro hd
        have := h6 hd
        rw [hprod] at this
        simpa [prod_hold] using this
      · simp [work, hprod, prod_hold, main_rest]; omega
      · simp [producer_item, hprod, prod_hold]
  | done =>
    rw [hprod] at h
    exact absurd h (by simp)

theorem consumer_step_ginv (size slack : ℕ) (hs : 2 ≤ size) (eff : List Int) (J : List Data)
    (s s' : Pipeline) (qm qc U : List Data) (hinv : GInv size slack eff J s qm qc U)
    (h : consumer_step size s = some s') :
    ∃ qc', GInv size slack eff J s' qm qc' U ∧ work s' qm qc' + 1 = work s qm qc ∧
      main_rest s' = main_rest s ∧ s'.prod = s.prod := by
  obtain ⟨hm, hc, hU, h3, h4, hN, h5, h6⟩ := hinv
  unfold consumer_step at h
  by_cases hcd : s.cons_done = true
  · rw [if_pos hcd] at h; exact absurd h (by simp)
  · rw [if_neg hcd] at h
    have hcd' : s.cons_done = false := by simpa using hcd
    cases hrem : buffer_remove_sized size s.cp_buffer with
    | none => rw [hrem] at h; exact absurd h (by simp)
    | some r =>
      obtain ⟨temp, b⟩ := r
      rw [hrem] at h
      simp only [] at h
      obtain ⟨hhead, hb⟩ := bufInvS_remove size hs s.cp_buffer b qc temp hc hrem
      cases qc with
      | nil => simp at hhead
      | cons x qc' =>
        simp only [List.head?_cons, Option.some.injEq] at hhead
        subst hhead
        simp only [List.tail_cons] at hb
        obtain ⟨rest, hrest, hw, hE⟩ := h6 hcd'
        by_cases hsent : x.num = SENTINEL
        · rw [if_pos hsent] at h
          simp only [Option.some.injEq] at h
          subst h
          have hrest0 : rest = [] := by
            cases rest with
            | nil => rfl
            | cons n r =>
              exfalso
              simp only [List.cons_append, List.map_cons, List.cons.injEq] at hw
              apply hrest
              have : x.num = n := by rw [hw.1]; rfl
              rw [← hsent, this]
              exact List.mem_cons_self _ _
          subst hrest0
          simp only [List.cons_append, List.map_nil, List.nil_append, List.cons.injEq] at hw
          refine ⟨qc', ⟨hm, hb, hU, h3, h4, hN, ?_, ?_⟩, ?_, rfl, rfl⟩
          · intro _
            refine ⟨hw.2, ?_⟩
            simpa using hE.symm
          · intro hd; simp at hd
          · simp [work, main_rest]; omega
        · rw [if_neg hsent] at h
          simp only [Option.some.injEq] at h
          subst h
          cases rest with
          | nil =>
            exfalso
            simp only [List.cons_append, List.map_nil, List.nil_append, List.cons.injEq] at hw
            apply hsent
            rw [hw.1]; rfl
          | cons n r =>
            simp only [List.cons_append, List.map_cons, List.cons.injEq] at hw
            refine ⟨qc', ⟨hm, hb, hU, h3, h4, hN, ?_, ?_⟩, ?_, rfl, rfl⟩
            · intro hd; exact absurd hd (by simp [hcd'])
            · intro _
              refine ⟨r, fun hmem => hrest (List.mem_cons_of_mem _ hmem), hw.2, ?_⟩
              rw [hE, hw.1]
              simp [output_line, factor_list, factor_num, mkData]
            · simp [work, main_rest]; omega

/-- A step that proceeds keeps the invariant, takes one unit off `work`, and
puts into each buffer the next item of that buffer's stream. -/
theorem step_ginv (size slack : ℕ) (hs : 2 ≤ size) (eff : List Int) (J : List Data)
    (s s' : Pipeline) (t : Thread) (qm qc U : List Data)
    (hinv : GInv size slack eff J s qm qc U) (h : step_sized size slack s t = some s') :
    ∃ qm' qc' U', GInv size slack eff J s' qm' qc' U' ∧
      work s' qm' qc' + 1 = work s qm qc ∧
      main_rest s = (step_puts s t).1 ++ main_rest s' ∧
      prod_hold s.prod ++ U.map (produced slack) =
        (step_puts s t).2 ++ (prod_hold s'.prod ++ U'.map (produced slack)) := by
  cases t with
  | main =>
    obtain ⟨qm', h1, h2, h3, h4⟩ := main_step_ginv size slack hs eff J s s' qm qc U hinv h
    exact ⟨qm', qc, U, h1, h2, h3, by rw [h4]; rfl⟩
  | producer =>
    obtain ⟨qm', qc', U', h1, h2, h3, h4⟩ :=
      producer_step_ginv size slack hs eff J s s' qm qc U hinv h
    exact ⟨qm', qc', U', h1, h2, by rw [h3]; rfl, h4⟩
  | consumer =>
    obtain ⟨qc', h1, h2, h3, h4⟩ := consumer_step_ginv size slack hs eff J s s' qm qc U hinv h
    exact ⟨qm, qc', U, h1, h2, by rw [h3]; rfl, by rw [h4]; rfl⟩

theorem run_sized_cons (size slack : Nat) (s : Pipeline) (t : Thread) (ts : List Thread) :
    run_sized size slack s (t :: ts) =
      run_sized size slack ((step_sized size slack s t).getD s) ts := rfl

theorem run_ginv (size slack : ℕ) (hs : 2 ≤ size) (eff : List Int) (J : List Data) :
    ∀ (sched : List Thread) (s : Pipeline) (qm qc U : List Data),
      GInv size slack eff J s qm qc U →
      ∃ qm' qc' U', GInv size slack eff J (run_sized size slack s sched) qm' qc' U' ∧
        main_rest s = (run_puts_sized size slack s sched).1 ++
          main_rest (run_sized size slack s sched) ∧
        prod_hold s.prod ++ U.map (produced slack) =
          (run_puts_sized size slack s sched).2 ++
            (prod_hold (run_sized size slack s sched).prod ++ U'.map (produced slack)) := by
  intro sched
  induction sched with
  | nil => intro s qm qc U h; exact ⟨qm, qc, U, h, rfl, rfl⟩
  | cons t ts ih =>
    intro s qm qc U h
    rw [run_sized_cons]
    cases hstep : step_sized size slack s t with
    | none =>
      obtain ⟨qm', qc', U', h1, h2, h3⟩ := ih s qm qc U h
      refine ⟨qm', qc', U', h1, ?_, ?_⟩
      · simpa [run_puts_sized, hstep] using h2
      · simpa [run_puts_sized, hstep] using h3
    | some s' =>
      obtain ⟨qm1, qc1, U1, hinv1, _, hmp, hcp⟩ :=
        step_ginv size slack hs eff J s s' t qm qc U h hstep
      obtain ⟨qm', qc', U', h1, h2, h3⟩ := ih s' qm1 qc1 U1 hinv1
      refine ⟨qm', qc', U', h1, ?_, ?_⟩
      · simp only [run_puts_sized, hstep, Option.getD_some]
        rw [hmp, h2, List.append_assoc]
      · simp only [run_puts_sized, hstep, Option.getD_some]
        rw [hcp, h3, List.append_assoc]

/-- With the capacity constant 1 the full test holds at once and no thread
ever gets past its first buffer call. -/
theorem capacity_one_never_proceeds (slack : ℕ) (args : List Int) :
    ∀ sched, run_sized 1 slack (pipeline_init_sized 1 args) sched =
      pipeline_init_sized 1 args := by
  have hstep : ∀ t, step_sized 1 slack (pipeline_init_sized 1 args) t = none := by
    intro t
    cases t with
    | main =>
      show main_step 1 (pipeline_init_sized 1 args) = none
      cases args with
      | nil => rfl
      | cons n r => simp [main_step, pipeline_init_sized, buffer_add_sized, buffer_init]
    | producer => rfl
    | consumer => rfl
  intro sched
  induction sched with
  | nil => rfl
  | cons t ts ih => rw [run_sized_cons, hstep t]; exact ih

/-- A prefix of a stream that ends with its only sentinel item holds at most
one sentinel item, and holds it last. -/
theorem sentinel_unique_last (L P : List Data) (hL : ∀ d ∈ L, d.num ≠ SENTINEL)
    (hP : P <+: L ++ [sentinelData]) :
    (P.filter (fun d => decide (d.num = SENTINEL))).length ≤ 1 ∧
      ∀ k d, P[k]? = some d → d.num = SENTINEL → k + 1 = P.length := by
  rcases List.prefix_concat_iff.mp hP with rfl | hpre
  · constructor
    · rw [List.filter_append]
      have : L.filter (fun d => decide (d.num = SENTINEL)) = [] :=
        List.filter_eq_nil_iff.mpr (fun d hd => by simpa using hL d hd)
      rw [this]
      simp [List.filter]
      split <;> simp
    · intro k d hk hd
      by_cases hlt : k < L.length
      · rw [List.getElem?_append_left hlt] at hk
        exact absurd hd (hL d (List.mem_iff_getElem?.mpr ⟨k, hk⟩))
      · have hlen := (List.getElem?_eq_some_iff.mp hk).1
        simp only [List.length_append, List.length_singleton] at hlen ⊢
        omega
  · have hmem : ∀ d ∈ P, d.num ≠ SENTINEL := fun d hd => hL d (hpre.subset hd)
    constructor
    · have : P.filter (fun d => decide (d.num = SENTINEL)) = [] :=
        List.filter_eq_nil_iff.mpr (fun d hd => by simpa using hmem d hd)
      rw [this]
      simp
    · intro k d hk hd
      exact absurd hd (hmem d (List.mem_iff_getElem?.mpr ⟨k, hk⟩))

/-- C11 (counterexample): on the input 5, -1, 7 `main` puts four items into
mp_buffer, two of which have num = SENTINEL, and the first of the two is not
the last item put. -/
theorem two_sentinels_in_mp :
    (run_puts 0 (pipeline_init [5, -1, 7])
        [Thread.main, Thread.main, Thread.main, Thread.main]).1 =
        [mkData 5, mkData (-1), mkData 7, sentinelData] ∧
      ((run_puts 0 (pipeline_init [5, -1, 7])
        [Thread.main, Thread.main, Thread.main, Thread.main]).1.filter
          (fun d => decide (d.num = SENTINEL))).length = 2 ∧
      (mkData (-1)).num = SENTINEL := by
  decide

/-- C11 (amended): sentinel discipline.  For every sequence of input integers
and every schedule, the sequence of items `producer` has put into cp_buffer
contains at most one item whose num equals SENTINEL, and that item is the last
one put; and for every sequence of input integers none of which equals SENTINEL
the same holds of the sequence of items `main` has put into mp_buffer, and once
the consumer has returned the two sequences are the items for the inputs, in
order, followed by the sentinel. -/
theorem sentinel_discipline (slack : ℕ) (args : List Int) (sched : List Thread) :
    ((run_puts slack (pipeline_init args) sched).2 <+:
        (effective args).map (fun n => factor slack (mkData n)) ++ [sentinelData]) ∧
      (((run_puts slack (pipeline_init args) sched).2.filter
        (fun d => decide (d.num = SENTINEL))).length ≤ 1) ∧
      (∀ k d, (run_puts slack (pipeline_init args) sched).2[k]? = some d → d.num = SENTINEL →
        k + 1 = (run_puts slack (pipeline_init args) sched).2.length) ∧
      ((run_puts slack (pipeline_init args) sched).1 <+: args.map mkData ++ [sentinelData]) ∧
      (SENTINEL ∉ args →
        (((run_puts slack (pipeline_init args) sched).1.filter
          (fun d => decide (d.num = SENTINEL))).length ≤ 1) ∧
        (∀ k d, (run_puts slack (pipeline_init args) sched).1[k]? = some d →
          d.num = SENTINEL → k + 1 = (run_puts slack (pipeline_init args) sched).1.length) ∧
        ((run slack (pipeline_init args) sched).cons_done = true →
          (run_puts slack (pipeline_init args) sched).1 = args.map mkData ++ [sentinelData] ∧
          (run_puts slack (pipeline_init args) sched).2 =
            args.map (fun n => factor slack (mkData n)) ++ [sentinelData])) := by
  have h0 := gInv_init BUFFER_SIZE slack (by decide) args
  obtain ⟨qm, qc, U, hinv, hmp, hcp⟩ := run_ginv BUFFER_SIZE slack (by decide) _ _ sched _ _ _ _ h0
  have hmp' : args.map mkData ++ [sentinelData] =
      (run_puts slack (pipeline_init args) sched).1 ++
        main_rest (run slack (pipeline_init args) sched) := by
    show args.map mkData ++ [sentinelData] =
      (run_puts_sized BUFFER_SIZE slack (pipeline_init_sized BUFFER_SIZE args) sched).1 ++
        main_rest (run_sized BUFFER_SIZE slack (pipeline_init_sized BUFFER_SIZE args) sched)
    rw [← hmp]
    simp [main_rest, pipeline_init_sized]
  have hcp' : (effective args).map (fun n => factor slack (mkData n)) ++ [sentinelData] =
      (run_puts slack (pipeline_init args) sched).2 ++
        (prod_hold (run slack (pipeline_init args) sched).prod ++ U.map (produced slack)) := by
    show (effective args).map (fun n => factor slack (mkData n)) ++ [sentinelData] =
      (run_puts_sized BUFFER_SIZE slack (pipeline_init_sized BUFFER_SIZE args) sched).2 ++
        (prod_hold (run_sized BUFFER_SIZE slack (pipeline_init_sized BUFFER_SIZE args) sched).prod
          ++ U.map (produced slack))
    rw [← hcp]
    simp only [prod_hold, pipeline_init_sized, List.nil_append, List.map_append, List.map_cons,
      List.map_nil]
    rw [map_produced slack _ (effective_no_sentinel args),
      produced_sentinel slack sentinelData rfl]
  have hpre2 : (run_puts slack (pipeline_init args) sched).2 <+:
      (effective args).map (fun n => factor slack (mkData n)) ++ [sentinelData] :=
    ⟨_, hcp'.symm⟩
  have hpre1 : (run_puts slack (pipeline_init args) sched).1 <+:
      args.map mkData ++ [sentinelData] := ⟨_, hmp'.symm⟩
  have hL2 : ∀ d ∈ (effective args).map (fun n => factor slack (mkData n)),
      d.num ≠ SENTINEL := by
    intro d hd
    obtain ⟨n, hn, rfl⟩ := List.mem_map.mp hd
    intro e
    exact effective_no_sentinel args (by rw [← e]; exact hn)
  have hd2 := sentinel_unique_last _ _ hL2 hpre2
  refine ⟨hpre2, hd2.1, hd2.2, hpre1, ?_⟩
  intro hs
  have hL1 : ∀ d ∈ args.map mkData, d.num ≠ SENTINEL := by
    intro d hd
    obtain ⟨n, hn, rfl⟩ := List.mem_map.mp hd
    intro e
    exact hs (by rw [← e]; exact hn)
  have hd1 := sentinel_unique_last _ _ hL1 hpre1
  refine ⟨hd1.1, hd1.2, ?_⟩
  intro hcd
  obtain ⟨_, _, hU, _, _, _, h5, _⟩ := hinv
  have hW := (h5 hcd).1
  have hW2 : prod_hold (run slack (pipeline_init args) sched).prod ++ U.map (produced slack) = [] :=
    (List.append_eq_nil.mp (by rw [← List.append_assoc]; exact hW)).2
  have hU0 : U = [] := List.map_eq_nil_iff.mp (List.append_eq_nil.mp hW2).2
  have hJ : junk args = [] := (effective_eq_self args hs).2
  have hrest : main_rest (run slack (pipeline_init args) sched) = [] := by
    rw [hU0, hJ] at hU
    exact (List.append_eq_nil.mp hU).2
  constructor
  · rw [hmp', hrest, List.append_nil]
  · have he := (effective_eq_self args hs).1
    rw [he] at hcp'
    rw [hcp', hW2, List.append_nil]

/-- Witness of `sentinel_discipline` on the input 2, 3, 4, 17, 100 under the
schedule that hands every item through before the next one starts. -/
theorem sentinel_discipline_witness :
    (run_puts 0 (pipeline_init [2, 3, 4, 17, 100])
        (List.replicate 6
          [Thread.main, Thread.producer, Thread.producer, Thread.consumer]).flatten).1 =
        [2, 3, 4, 17, 100].map mkData ++ [sentinelData] ∧
      (run_puts 0 (pipeline_init [2, 3, 4, 17, 100])
        (List.replicate 6
          [Thread.main, Thread.producer, Thread.producer, Thread.consumer]).flatten).2 =
        [2, 3, 4, 17, 100].map (fun n => factor 0 (mkData n)) ++ [sentinelData] :=
  (sentinel_discipline 0 [2, 3, 4, 17, 100] _).2.2.2.2 (by decide) |>.2.2 (by decide)

/-! ## What the sieve does mark -/

theorem getD_set_one (flags : List Nat) (j k : ℕ) (hj : j < flags.length) :
    (flags.set j 1).getD k 0 = if k = j then 1 else flags.getD k 0 := by
  by_cases hk : k = j
  · subst hk
    rw [if_pos rfl, List.getD_eq_getElem?_getD, List.getElem?_set_eq_of_lt _ hj]
    rfl
  · rw [if_neg hk, List.getD_eq_getElem?_getD, List.getD_eq_getElem?_getD,
      List.getElem?_set_ne (fun e => hk e.symm)]

/-- The inner loop of `prime_builder`, started at a multiple j of i, sets the
flags of the multiples of i in [j, primeThreshold) and no other. -/
theorem prime_builder_inner_getD (T i : ℕ) (hi : 0 < i) :
    ∀ fuel j flags, T ≤ j + fuel → i ∣ j → flags.length = T →
      ∀ k, (prime_builder_inner T i fuel j flags).getD k 0 =
        if j ≤ k ∧ k < T ∧ i ∣ k then 1 else flags.getD k 0 := by
  intro fuel
  induction fuel with
  | zero =>
    intro j flags hf _ _ k
    simp only [prime_builder_inner]
    rw [if_neg (by omega)]
  | succ fuel ih =>
    intro j flags hf hdvd hlen k
    simp only [prime_builder_inner]
    by_cases hj : j < T
    · rw [if_pos hj, ih (j + i) _ (by omega) (Dvd.dvd.add hdvd (dvd_refl i))
        (by rw [List.length_set]; exact hlen) k, getD_set_one flags j k (by omega)]
      by_cases hkj : k = j
      · subst hkj
        rw [if_neg (by omega), if_pos rfl, if_pos ⟨le_refl _, hj, hdvd⟩]
      · rw [if_neg hkj]
        by_cases hc : j ≤ k ∧ k < T ∧ i ∣ k
        · rw [if_pos hc]
          have hlt : j < k := by omega
          have hd : i ∣ k - j := (Nat.dvd_sub' hc.2.2 hdvd)
          have hle : i ≤ k - j := Nat.le_of_dvd (by omega) hd
          rw [if_pos ⟨by omega, hc.2.1, hc.2.2⟩]
        · rw [if_neg hc, if_neg (fun h => hc ⟨by omega, h.2.1, h.2.2⟩)]
    · rw [if_neg hj, if_neg (by omega)]

/-- Once the outer loop of `prime_builder` is at index i, every composite
index of the table that is flagged already, or whose smallest prime factor is
still to come, is flagged at the end. -/
theorem prime_builder_outer_complete (slack T : ℕ) :
    ∀ fuel i flags, 2 ≤ i → T + 1 ≤ i + fuel → flags.length = T → FlagsSound flags →
      ∀ k, 2 ≤ k → k < T → ¬ k.Prime → (i ≤ k.minFac ∨ flags.getD k 0 = 1) →
        (prime_builder_outer slack T fuel i flags).getD k 0 = 1 := by
  intro fuel
  induction fuel with
  | zero =>
    intro i flags hi hf hlen hs k hk hkT hkp hor
    simp only [prime_builder_outer]
    rcases hor with h | h
    · have := Nat.minFac_le (show 0 < k by omega)
      omega
    · exact h
  | succ fuel ih =>
    intro i flags hi hf hlen hs k hk hkT hkp hor
    have hmp : k.minFac.Prime := Nat.minFac_prime (by omega)
    have hmsq : k.minFac ^ 2 ≤ k := Nat.minFac_sq_le_self (by omega) hkp
    have hmlt : k.minFac < T := by
      have h2 := hmp.two_le
      nlinarith
    simp only [prime_builder_outer]
    by_cases hle : i ≤ T
    · rw [if_pos hle]
      by_cases hflag : readFlag slack flags i = 0
      · rw [if_pos hflag]
        have hin := prime_builder_inner_getD T i (by omega) T (2 * i) flags (by omega)
          ⟨2, by ring⟩ hlen k
        apply ih (i + 1) _ (by omega) (by omega)
          (by rw [prime_builder_inner_length]; exact hlen)
          (prime_builder_inner_sound T i hi T (2 * i) flags ⟨2, le_refl _, by ring⟩ hs)
          k hk hkT hkp
        rcases hor with h | h
        · rcases Nat.eq_or_lt_of_le h with heq | hlt
          · right
            rw [hin]
            have hdvd : i ∣ k := heq ▸ Nat.minFac_dvd k
            have hne : k ≠ i := by
              intro e
              rw [e] at hkp
              exact hkp (heq ▸ (e ▸ hmp))
            obtain ⟨m, rfl⟩ := hdvd
            have hm2 : 2 ≤ m := by
              rcases m with _ | _ | m
              · omega
              · exact absurd (Nat.mul_one i) hne
              · omega
            rw [if_pos ⟨Nat.mul_le_mul_left i hm2 |>.trans_eq' (by ring), hkT, ⟨m, rfl⟩⟩]
          · left; omega
        · right
          rw [hin]
          split
          · rfl
          · exact h
      · rw [if_neg hflag]
        apply ih (i + 1) _ (by omega) (by omega) hlen hs k hk hkT hkp
        rcases hor with h | h
        · rcases Nat.eq_or_lt_of_le h with heq | hlt
          · exfalso
            have hrd : readFlag slack flags i = flags.getD i 0 := by
              unfold readFlag
              simp [List.getD_eq_getElem?_getD, List.getElem?_eq_getElem, hlen, heq ▸ hmlt]
            rw [hrd] at hflag
            exact hs i hflag (heq ▸ hmp)
          · left; omega
        · right; exact h
    · rw [if_neg hle]
      rcases hor with h | h
      · omega
      · exact h

/-- Below the threshold the sieve is complete: `prime_builder` on the zeroed
table of primeThreshold bytes flags every composite index 2 ≤ k <
primeThreshold, whatever the byte past the table holds. -/
theorem prime_builder_complete_below (slack T k : ℕ) (hk : 2 ≤ k) (hkT : k < T)
    (hkp : ¬ k.Prime) :
    (prime_builder slack (List.replicate T 0) T).getD k 0 = 1 := by
  unfold prime_builder
  exact prime_builder_outer_complete slack T T 2 _ (le_refl _) (by omega)
    (List.length_replicate _ _) (flagsSound_replicate T) k hk hkT hkp
    (Or.inl (Nat.minFac_prime (by omega)).two_le)

/-! ## Termination: every loop leaves through its own exit test -/

/-- With a budget of more steps than indices left, the loop of `prime_tester`
leaves through its own exit or return. -/
theorem prime_tester_loop_within_eq (num : ℤ) (T : ℕ) :
    ∀ budget fuel i, 0 < budget → T + 1 ≤ i + budget → T ≤ i + fuel →
      prime_tester_loop_within num T budget i = some (prime_tester_loop num T fuel i) := by
  intro budget
  induction budget with
  | zero => intro fuel i h; omega
  | succ budget ih =>
    intro fuel i _ hb hf
    rw [prime_tester_loop_within]
    by_cases hi : i < T
    · obtain ⟨f, rfl⟩ : ∃ f, fuel = f + 1 := ⟨fuel - 1, by omega⟩
      rw [prime_tester_loop, if_pos hi, if_pos hi]
      simp only []
      by_cases hd : num.tmod (2 * (i : ℤ) + 1) = 0
      · rw [if_pos hd, if_pos hd]
      · rw [if_neg hd, if_neg hd]
        exact ih f (i + 1) (by omega) (by omega) (by omega)
    · rw [if_neg hi]
      cases fuel with
      | zero => rfl
      | succ f => rw [prime_tester_loop, if_neg hi]

theorem prime_tester_within_eq (budget : ℕ) (num : ℤ) (h : floor_sqrt num < budget) :
    prime_tester_within budget num = some (prime_tester num) := by
  unfold prime_tester_within prime_tester
  by_cases h2 : num.tmod 2 = 0
  · rw [if_pos h2, if_pos h2]
    by_cases he : num = 2
    · rw [if_pos he, if_pos he]
    · rw [if_neg he, if_neg he]
  · rw [if_neg h2, if_neg h2]
    exact prime_tester_loop_within_eq num _ budget _ 1 (by omega) (by omega) (by omega)

theorem prime_builder_inner_within_eq (T i : ℕ) (hi : 0 < i) :
    ∀ budget fuel j flags, 0 < budget → T + 1 ≤ j + budget → T ≤ j + fuel →
      prime_builder_inner_within T i budget j flags =
        some (prime_builder_inner T i fuel j flags) := by
  intro budget
  induction budget with
  | zero => intro fuel j flags h; omega
  | succ budget ih =>
    intro fuel j flags _ hb hf
    rw [prime_builder_inner_within]
    by_cases hj : j < T
    · obtain ⟨f, rfl⟩ : ∃ f, fuel = f + 1 := ⟨fuel - 1, by omega⟩
      rw [prime_builder_inner, if_pos hj, if_pos hj]
      exact ih f (j + i) _ (by omega) (by omega) (by omega)
    · rw [if_neg hj]
      cases fuel with
      | zero => rfl
      | succ f => rw [prime_builder_inner, if_neg hj]

theorem prime_builder_outer_within_eq (slack T inner : ℕ) (hin : T < inner) :
    ∀ budget fuel i flags, 2 ≤ i → 0 < budget → T + 2 ≤ i + budget → T + 1 ≤ i + fuel →
      prime_builder_outer_within slack T inner budget i flags =
        some (prime_builder_outer slack T fuel i flags) := by
  intro budget
  induction budget with
  | zero => intro fuel i flags _ h; omega
  | succ budget ih =>
    intro fuel i flags hi _ hb hf
    rw [prime_builder_outer_within]
    by_cases hle : i ≤ T
    · obtain ⟨f, rfl⟩ : ∃ f, fuel = f + 1 := ⟨fuel - 1, by omega⟩
      rw [prime_builder_outer, if_pos hle, if_pos hle]
      by_cases hflag : readFlag slack flags i = 0
      · rw [if_pos hflag, if_pos hflag,
          prime_builder_inner_within_eq T i (by omega) inner T (2 * i) flags (by omega)
            (by omega) (by omega)]
        exact ih f (i + 1) _ (by omega) (by omega) (by omega) (by omega)
      · rw [if_neg hflag, if_neg hflag]
        exact ih f (i + 1) _ (by omega) (by omega) (by omega) (by omega)
    · rw [if_neg hle]
      cases fuel with
      | zero => rfl
      | succ f => rw [prime_builder_outer, if_neg hle]

theorem floor_sqrt_le_toNat (num : ℤ) : floor_sqrt num ≤ num.toNat := by
  rw [floor_sqrt_eq]
  exact Nat.sqrt_le_self _

theorem trial_divider_from_within_eq (slack : Nat) (flags : List Nat) (inner : ℕ) :
    ∀ budget fuel (num : ℤ) (i : ℕ) (m : FactorMem) (count : ℕ),
      2 ≤ i → num.toNat < inner → num.toNat - i < budget → num.toNat - i ≤ fuel →
      trial_divider_from_within slack flags inner budget num i m count =
        some (trial_divider_from slack flags fuel num i m count) := by
  intro budget
  induction budget with
  | zero => intro fuel num i m count _ _ h; omega
  | succ budget ih =>
    intro fuel num i m count hi hin hb hf
    rw [trial_divider_from_within]
    by_cases hle : i ≤ floor_sqrt num
    · obtain ⟨n, rfl, hsq⟩ := scan_num_natCast num i hi hle
      rw [Int.toNat_natCast] at hb hf hin
      have hbd := component_bounds n i hi hsq
      have hsq' : i * i ≤ n := Nat.le_sqrt.mp hsq
      have hmul : i * (n / i) ≤ n := Nat.mul_div_le n i
      have hsum : i + n / i ≤ n + 1 := by nlinarith
      have hni : i < n := by nlinarith
      obtain ⟨f, rfl⟩ : ∃ f, fuel = f + 1 := ⟨fuel - 1, by omega⟩
      rw [trial_divider_from, if_pos hle, if_pos hle]
      have hcont := ih f (n : ℤ) (i + 1) m count (by omega)
        (by rw [Int.toNat_natCast]; omega) (by rw [Int.toNat_natCast]; omega)
        (by rw [Int.toNat_natCast]; omega)
      by_cases hflag : readFlag slack flags i ≠ 0
      · rw [if_pos hflag, if_pos hflag]
        exact hcont
      · rw [if_neg hflag, if_neg hflag]
        simp only []
        by_cases hsqe : ((i : ℕ) : ℤ) ^ 2 = (n : ℤ)
        · rw [if_pos hsqe, if_pos hsqe]
        · rw [if_neg hsqe, if_neg hsqe]
          by_cases htm : (n : ℤ).tmod ((i : ℕ) : ℤ) = 0
          · rw [if_pos htm, if_pos htm]
            have hdiv : (n : ℤ).tdiv ((i : ℕ) : ℤ) = ((n / i : ℕ) : ℤ) := rfl
            rw [hdiv, prime_tester_within_eq inner _ (by
              have := floor_sqrt_le_toNat ((n / i : ℕ) : ℤ)
              rw [Int.toNat_natCast] at this
              omega)]
            simp only []
            by_cases hpt : prime_tester ((n / i : ℕ) : ℤ) ≠ 0
            · rw [if_pos hpt, if_pos hpt]
            · rw [if_neg hpt, if_neg hpt]
              exact ih f _ 2 _ _ (le_refl _) (by rw [Int.toNat_natCast]; omega)
                (by rw [Int.toNat_natCast]; omega) (by rw [Int.toNat_natCast]; omega)
          · rw [if_neg htm, if_neg htm]
            exact hcont
    · rw [if_neg hle]
      cases fuel with
      | zero => rfl
      | succ f => rw [trial_divider_from, if_neg hle]

/-- With a budget of more than num steps for every loop, `factor` leaves every
loop through the loop's own exit and returns what `factor_mem` gives. -/
theorem factor_mem_within_eq (slack budget : ℕ) (data : Data)
    (h : data.num.toNat < budget) :
    factor_mem_within budget slack data = some (factor_mem slack data) := by
  have hT := floor_sqrt_le_toNat data.num
  unfold factor_mem_within factor_mem
  simp only []
  rw [prime_tester_within_eq budget _ (by omega)]
  simp only []
  by_cases hpt : prime_tester data.num ≠ 0
  · rw [if_pos hpt, if_pos hpt]
  · rw [if_neg hpt, if_neg hpt]
    unfold prime_builder trial_divider
    rw [prime_builder_outer_within_eq slack _ budget (by omega) budget (floor_sqrt data.num) 2 _
      (le_refl _) (by omega) (by omega) (by omega)]
    simp only []
    exact trial_divider_from_within_eq slack _ budget budget data.num.toNat data.num 2 _ _
      (le_refl _) (by omega) (by omega) (by omega)
/-! ## Factoring that does not depend on the byte past the table -/

/-- The table `factor` builds clears every prime index inside its allocation,
whatever the byte past it holds. -/
theorem tableClear_sieve (slack T : ℕ) :
    TableClear slack (prime_builder slack (List.replicate T 0) T) T :=
  fun q hq hlt => readFlag_prime_builder slack T q hq (Or.inl hlt)

/-- When the smallest prime factor of num, and of every later component, is an
index inside the table, `trial_divider` stores the prime factorisation whatever
the byte past the table holds. -/
theorem trial_divider_from_inside (slack : Nat) (flags : List Nat) (size : ℕ)
    (hclear : TableClear slack flags size) :
    ∀ fuel (n i : ℕ) (m : FactorMem) (count : ℕ),
      2 ≤ n → ¬ n.Prime → 2 ≤ i → i ≤ n.minFac → n - i ≤ fuel →
      n.minFac < size → n / n.minFac < size * size →
      trial_divider_from slack flags fuel (n : ℤ) i m count = store_all m count (int_factors n) := by
  intro fuel
  induction fuel with
  | zero =>
    intro n i m count hn hnp hi hip hf _ _
    have := (Nat.not_prime_iff_minFac_lt hn).mp hnp
    omega
  | succ fuel ih =>
    intro n i m count hn hnp hi hip hf hin hcomp
    have hpp : n.minFac.Prime := Nat.minFac_prime (by omega)
    have hpd : n.minFac ∣ n := Nat.minFac_dvd n
    have hplt : n.minFac < n := (Nat.not_prime_iff_minFac_lt hn).mp hnp
    have hsq : n.minFac ^ 2 ≤ n := Nat.minFac_sq_le_self (by omega) hnp
    have hsq' : n.minFac * n.minFac ≤ n := by rw [← sq]; exact hsq
    have hps : n.minFac ≤ Nat.sqrt n := Nat.le_sqrt.mpr hsq'
    have hle : i ≤ floor_sqrt (n : ℤ) := by rw [floor_sqrt_natCast]; omega
    simp only [trial_divider_from]
    rw [if_pos hle]
    rcases Nat.eq_or_lt_of_le hip with heq | hlt
    · subst heq
      have hflag : ¬ readFlag slack flags n.minFac ≠ 0 := by
        rw [hclear n.minFac hpp hin]; simp
      rw [if_neg hflag]
      by_cases hsqe : ((n.minFac : ℕ) : ℤ) ^ 2 = (n : ℤ)
      · rw [if_pos hsqe]
        have hn2 : n = n.minFac ^ 2 := by exact_mod_cast hsqe.symm
        have hl : int_factors n = [(n.minFac : ℤ), (n.minFac : ℤ)] := by
          unfold int_factors
          conv_lhs => rw [hn2]
          rw [hpp.primeFactorsList_pow 2]
          rfl
        rw [hl]
        rfl
      · rw [if_neg hsqe]
        have htm : (n : ℤ).tmod ((n.minFac : ℕ) : ℤ) = 0 := (tmod_natCast_eq_zero _ _).mpr hpd
        rw [if_pos htm]
        have hdiv : (n : ℤ).tdiv ((n.minFac : ℕ) : ℤ) = ((n / n.minFac : ℕ) : ℤ) := rfl
        rw [hdiv]
        have hc2 : 2 ≤ n / n.minFac := by
          have h1 : n.minFac ≤ n / n.minFac := Nat.minFac_le_div (by omega) hnp
          have h2 := hpp.two_le
          omega
        have hmul : n.minFac * (n / n.minFac) = n := Nat.mul_div_cancel' hpd
        rw [show int_factors n = (n.minFac : ℤ) :: int_factors (n / n.minFac) by
          unfold int_factors; rw [primeFactorsList_step n hn]; rfl]
        by_cases hcp : (n / n.minFac).Prime
        · rw [if_pos ((prime_tester_ne_zero_iff_prime _ hc2).mpr hcp)]
          unfold int_factors
          rw [Nat.primeFactorsList_prime hcp]
          rfl
        · rw [if_neg (fun h => hcp ((prime_tester_ne_zero_iff_prime _ hc2).mp h))]
          have h2c : 2 ≤ (n / n.minFac).minFac := (Nat.minFac_prime (by omega)).two_le
          have hfuel : n / n.minFac - 2 ≤ fuel := by
            have h2 := hpp.two_le
            have : n.minFac + n / n.minFac ≤ n + 1 := by nlinarith
            omega
          have hcsq : (n / n.minFac).minFac ^ 2 ≤ n / n.minFac :=
            Nat.minFac_sq_le_self (by omega) hcp
          have hcin : (n / n.minFac).minFac < size := by
            by_contra hge
            have hge' : size ≤ (n / n.minFac).minFac := by omega
            have : size * size ≤ (n / n.minFac).minFac ^ 2 := by
              rw [sq]; exact Nat.mul_le_mul hge' hge'
            omega
          have hccomp : n / n.minFac / (n / n.minFac).minFac < size * size :=
            lt_of_le_of_lt (Nat.div_le_self _ _) hcomp
          rw [ih (n / n.minFac) 2 _ (count + 1) hc2 hcp (le_refl _) h2c hfuel hcin hccomp]
          rfl
    · have hnd : ¬ i ∣ n := fun hd => by
        have := Nat.minFac_le_of_dvd hi hd
        omega
      have hsqe : ¬ ((i : ℕ) : ℤ) ^ 2 = (n : ℤ) := by
        intro h
        have h2 : i ^ 2 = n := by exact_mod_cast h
        exact hnd ⟨i, by rw [← h2, sq]⟩
      have htm : ¬ (n : ℤ).tmod ((i : ℕ) : ℤ) = 0 := fun h => hnd ((tmod_natCast_eq_zero _ _).mp h)
      have hrec := ih n (i + 1) m count hn hnp (by omega) (by omega) (by omega) hin hcomp
      by_cases hflag : readFlag slack flags i ≠ 0
      · rw [if_pos hflag]
        exact_mod_cast hrec
      · rw [if_neg hflag, if_neg hsqe, if_neg htm]
        exact_mod_cast hrec

/-- For n ≥ 2 that is prime or has its smallest prime factor below
floor(sqrt n), `factor` stores the prime factors of n in ascending order at
`primes[0]`, `primes[1]`, ..., whatever the byte past the flag table holds. -/
theorem factor_mem_inside (slack : Nat) (n : ℕ) (hn : 2 ≤ n) (primes : List Int)
    (hin : n.Prime ∨ n.minFac < Nat.sqrt n) :
    factor_mem slack { num := (n : ℤ), primes := primes } =
      store_all { slots := primes, spill := [] } 0 (int_factors n) := by
  unfold factor_mem
  simp only []
  by_cases hp : n.Prime
  · rw [if_pos ((prime_tester_ne_zero_iff_prime n hn).mpr hp)]
    unfold int_factors
    rw [Nat.primeFactorsList_prime hp]
    rfl
  · rw [if_neg (fun h => hp ((prime_tester_ne_zero_iff_prime n hn).mp h))]
    have hlt : n.minFac < Nat.sqrt n := hin.resolve_left hp
    have h2 : 2 ≤ n.minFac := (Nat.minFac_prime (by omega)).two_le
    have hup : n < (Nat.sqrt n + 1) * (Nat.sqrt n + 1) := Nat.lt_succ_sqrt n
    have hdiv : n / n.minFac ≤ n / 2 := Nat.div_le_div_left h2 (by norm_num)
    have hhalf : n / 2 < Nat.sqrt n * Nat.sqrt n := by
      rw [Nat.div_lt_iff_lt_mul (by norm_num)]
      nlinarith
    unfold trial_divider
    rw [Int.toNat_natCast, floor_sqrt_natCast]
    exact trial_divider_from_inside slack _ (Nat.sqrt n) (tableClear_sieve slack _) n n 2 _ 0 hn hp
      (le_refl _) h2 (by omega) hlt (by omega)

/-- The factor list read from an item whose stores were the prime factors of
n, when they fit in the slots. -/
theorem factor_list_of_stores (slack : Nat) (n : ℕ)
    (hcap : (Nat.primeFactorsList n).length ≤ MAX_FACTORS)
    (hst : factor_mem slack (mkData n) =
      store_all { slots := zeroPrimes, spill := [] } 0 (int_factors n)) :
    factor_list slack (n : ℤ) = int_factors n ∧ (factor_mem slack (mkData n)).spill = [] := by
  have hlen : (int_factors n).length ≤ MAX_FACTORS := by
    unfold int_factors; rw [List.length_map]; exact hcap
  have hm : factor_mem slack (mkData n) =
      { slots := int_factors n ++ List.replicate (MAX_FACTORS - (int_factors n).length) 0,
        spill := [] } := by
    rw [hst]
    have h := store_all_front (int_factors n) [] zeroPrimes []
    simp only [List.nil_append, List.length_nil, Nat.zero_add] at h
    rw [h]
    have hz : zeroPrimes.length = MAX_FACTORS := by simp [zeroPrimes]
    rw [hz, List.take_of_length_le hlen, List.drop_eq_nil_of_le hlen]
    simp [spill_of, zeroPrimes]
  refine ⟨?_, by rw [hm]⟩
  unfold factor_list printed_factors factor
  rw [hm]
  simp only []
  rw [List.take_of_length_le (by simp; omega), List.filter_append]
  have h1 : (int_factors n).filter (fun v => decide (0 < v)) = int_factors n :=
    List.filter_eq_self.mpr (fun x hx => by simpa using int_factors_pos n x hx)
  have h2 : (List.replicate (MAX_FACTORS - (int_factors n).length) (0 : ℤ)).filter
      (fun v => decide (0 < v)) = [] :=
    List.filter_eq_nil_iff.mpr (fun x hx => by
      rw [List.eq_of_mem_replicate hx]; simp)
  rw [h1, h2, List.append_nil]

/-- Within the capacity of the slots, and for n that is prime or has its
smallest prime factor below floor(sqrt n), the factors the consumer prints are
the prime factors of n in ascending order, whatever the byte past the flag
table holds. -/
theorem factor_list_inside (slack : Nat) (n : ℕ) (hn : 2 ≤ n)
    (hcap : (Nat.primeFactorsList n).length ≤ MAX_FACTORS)
    (hin : n.Prime ∨ n.minFac < Nat.sqrt n) :
    factor_list slack (n : ℤ) = int_factors n ∧ (factor_mem slack (mkData n)).spill = [] :=
  factor_list_of_stores slack n hcap (factor_mem_inside slack n hn zeroPrimes hin)

/-- The byte past the table of `T` bytes is what the read at index `T` gives. -/
theorem readFlag_past_table (slack T : ℕ) :
    readFlag slack (prime_builder slack (List.replicate T 0) T) T = slack := by
  unfold readFlag
  rw [List.getD_eq_getElem?_getD, List.getElem?_eq_none (by rw [prime_builder_length])]
  rfl

/-- When the index floor(sqrt n) is read as flagged and no smaller index
divides n, the scan of n stores nothing. -/
theorem scan_stores_nothing (slack : Nat) (flags : List Nat) (n : ℕ)
    (hflag : readFlag slack flags (Nat.sqrt n) ≠ 0) (heq : n.minFac = Nat.sqrt n) :
    ∀ fuel (i : ℕ) (m : FactorMem) (count : ℕ), 2 ≤ i →
      trial_divider_from slack flags fuel (n : ℤ) i m count = m := by
  intro fuel
  induction fuel with
  | zero => intro i m count _; rfl
  | succ fuel ih =>
    intro i m count hi
    rw [trial_divider_from]
    by_cases hle : i ≤ floor_sqrt (n : ℤ)
    · rw [if_pos hle]
      rw [floor_sqrt_natCast] at hle
      rcases Nat.eq_or_lt_of_le hle with he | hlt
      · rw [he, if_pos hflag]
        exact ih _ m count (by omega)
      · have hnd : ¬ i ∣ n := fun hd => by
          have := Nat.minFac_le_of_dvd hi hd
          omega
        have hsqe : ¬ ((i : ℕ) : ℤ) ^ 2 = (n : ℤ) := by
          intro h
          have h2 : i ^ 2 = n := by exact_mod_cast h
          exact hnd ⟨i, by rw [← h2, sq]⟩
        have htm : ¬ (n : ℤ).tmod ((i : ℕ) : ℤ) = 0 :=
          fun h => hnd ((tmod_natCast_eq_zero _ _).mp h)
        by_cases hf : readFlag slack flags i ≠ 0
        · rw [if_pos hf]
          exact ih _ m count (by omega)
        · rw [if_neg hf]
          simp only []
          rw [if_neg hsqe, if_neg htm]
          exact ih _ m count (by omega)
    · rw [if_neg hle]

/-- A composite n whose smallest prime factor is floor(sqrt n) gets no factor
at all when the byte past the flag table is not 0: the scan skips that index
and ends. -/
theorem factor_mem_at_threshold (slack : Nat) (n : ℕ) (hn : 2 ≤ n) (hnp : ¬ n.Prime)
    (hs : slack ≠ 0) (heq : n.minFac = Nat.sqrt n) (primes : List Int) :
    factor_mem slack { num := (n : ℤ), primes := primes } = { slots := primes, spill := [] } := by
  unfold factor_mem
  simp only []
  rw [if_neg (fun h => hnp ((prime_tester_ne_zero_iff_prime n hn).mp h))]
  unfold trial_divider
  rw [floor_sqrt_natCast]
  exact scan_stores_nothing slack _ n (by rw [readFlag_past_table]; exact hs) heq _ 2 _ 0
    (le_refl _)
/-! ## The sieved table against the all-zero table, for any byte past them -/

/-- Inside the table, a flag the sieve has set marks a composite index. -/
theorem sieve_flag_composite (slack T i : ℕ) (hi : i < T)
    (h : readFlag slack (prime_builder slack (List.replicate T 0) T) i ≠ 0) : ¬ i.Prime := by
  apply prime_builder_sound slack T i
  unfold readFlag at h
  rw [List.getD_eq_getElem?_getD] at h ⊢
  rw [List.getElem?_eq_getElem (by rw [prime_builder_length]; exact hi)] at h ⊢
  exact h

theorem readFlag_zero_table (slack T i : ℕ) (hi : i < T) :
    readFlag slack (List.replicate T 0) i = 0 := by
  unfold readFlag
  rw [List.getD_eq_getElem?_getD, List.getElem?_replicate, if_pos hi]
  rfl

theorem readFlag_past (slack : ℕ) (flags : List Nat) (i : ℕ) (hi : flags.length ≤ i) :
    readFlag slack flags i = slack := by
  unfold readFlag
  rw [List.getD_eq_getElem?_getD, List.getElem?_eq_none hi]
  rfl

/-- The scan of `trial_divider` takes the same course on the table the sieve
built and on an all-zero table of the same size, whatever the byte past them
holds: an index the sieve has flagged is composite and some smaller prime
divides it, so it cannot divide a num that the scan has brought this far. -/
theorem trial_divider_from_sieve_eq (slack T : ℕ) :
    ∀ fuel (num : ℤ) (i : ℕ) (m : FactorMem) (count : ℕ), 2 ≤ i →
      (i ≤ T → ∀ q : ℕ, q.Prime → q < i → ¬ (q : ℤ) ∣ num) →
      trial_divider_from slack (prime_builder slack (List.replicate T 0) T) fuel num i m count =
        trial_divider_from slack (List.replicate T 0) fuel num i m count := by
  intro fuel
  induction fuel with
  | zero => intro num i m count _ _; rfl
  | succ fuel ih =>
    intro num i m count hi hinv
    conv_lhs => rw [trial_divider_from]
    conv_rhs => rw [trial_divider_from]
    by_cases hle : i ≤ floor_sqrt num
    · rw [if_pos hle, if_pos hle]
      have hnext : ¬ (i : ℤ) ∣ num → (i + 1 ≤ T → ∀ q : ℕ, q.Prime → q < i + 1 → ¬ (q : ℤ) ∣ num) := by
        intro hnd hT q hq hlt
        rcases Nat.eq_or_lt_of_le (Nat.lt_succ_iff.mp hlt) with he | hl
        · rw [he]; exact hnd
        · exact hinv (by omega) q hq hl
      have htwo : ∀ c : ℤ, (2 ≤ T → ∀ q : ℕ, q.Prime → q < 2 → ¬ (q : ℤ) ∣ c) :=
        fun c _ q hq hlt => absurd hq.two_le (by omega)
      have h00 : ¬ ((0 : ℕ) ≠ 0) := by simp
      by_cases hiT : i < T
      · rw [readFlag_zero_table slack T i hiT]
        by_cases hF : readFlag slack (prime_builder slack (List.replicate T 0) T) i ≠ 0
        · rw [if_pos hF, if_neg h00]
          have hcomp : ¬ i.Prime := sieve_flag_composite slack T i hiT hF
          have hnd : ¬ (i : ℤ) ∣ num := by
            intro hd
            have hq : (i.minFac).Prime := Nat.minFac_prime (by omega)
            have hlt : i.minFac < i := (Nat.not_prime_iff_minFac_lt hi).mp hcomp
            have hqd : ((i.minFac : ℕ) : ℤ) ∣ (i : ℤ) := by exact_mod_cast Nat.minFac_dvd i
            exact hinv (by omega) _ hq hlt (dvd_trans hqd hd)
          have hsqe : ¬ ((i : ℕ) : ℤ) ^ 2 = num := by
            intro h
            exact hnd ⟨(i : ℤ), by rw [← h, sq]⟩
          have htm : ¬ num.tmod ((i : ℕ) : ℤ) = 0 := fun h => hnd (Int.dvd_of_tmod_eq_zero h)
          simp only []
          rw [if_neg hsqe, if_neg htm]
          exact ih num (i + 1) m count (by omega) (hnext hnd)
        · have hF0 : readFlag slack (prime_builder slack (List.replicate T 0) T) i = 0 := by
            by_contra h; exact hF h
          rw [hF0, if_neg h00, if_neg h00]
          simp only []
          by_cases hsqe : ((i : ℕ) : ℤ) ^ 2 = num
          · rw [if_pos hsqe, if_pos hsqe]
          · rw [if_neg hsqe, if_neg hsqe]
            by_cases htm : num.tmod ((i : ℕ) : ℤ) = 0
            · rw [if_pos htm, if_pos htm]
              by_cases hpt : prime_tester (num.tdiv ((i : ℕ) : ℤ)) ≠ 0
              · rw [if_pos hpt, if_pos hpt]
              · rw [if_neg hpt, if_neg hpt]
                exact ih _ 2 _ _ (le_refl _) (htwo _)
            · rw [if_neg htm, if_neg htm]
              exact ih num (i + 1) m count (by omega)
                (hnext (fun hd => htm (Int.tmod_eq_zero_of_dvd hd)))
      · have hvac : i + 1 ≤ T → ∀ q : ℕ, q.Prime → q < i + 1 → ¬ (q : ℤ) ∣ num :=
          fun h => absurd h (by omega)
        rw [readFlag_past slack _ i (by rw [prime_builder_length]; omega),
          readFlag_past slack (List.replicate T 0) i (by rw [List.length_replicate]; omega)]
        by_cases hs : slack ≠ 0
        · rw [if_pos hs, if_pos hs]
          exact ih num (i + 1) m count (by omega) hvac
        · rw [if_neg hs, if_neg hs]
          simp only []
          by_cases hsqe : ((i : ℕ) : ℤ) ^ 2 = num
          · rw [if_pos hsqe, if_pos hsqe]
          · rw [if_neg hsqe, if_neg hsqe]
            by_cases htm : num.tmod ((i : ℕ) : ℤ) = 0
            · rw [if_pos htm, if_pos htm]
              by_cases hpt : prime_tester (num.tdiv ((i : ℕ) : ℤ)) ≠ 0
              · rw [if_pos hpt, if_pos hpt]
              · rw [if_neg hpt, if_neg hpt]
                exact ih _ 2 _ _ (le_refl _) (htwo _)
            · rw [if_neg htm, if_neg htm]
              exact ih num (i + 1) m count (by omega) hvac
    · rw [if_neg hle, if_neg hle]

/-- What `trial_divider` stores with the table the sieve built is what it
stores with an all-zero table of the same size, for every num, every fuel and
every content of the byte past the table. -/
theorem sieve_equals_zero_table (slack T fuel : ℕ) (num : ℤ) (m : FactorMem) (count : ℕ) :
    trial_divider slack fuel num (prime_builder slack (List.replicate T 0) T) m count =
      trial_divider slack fuel num (List.replicate T 0) m count := by
  unfold trial_divider
  exact trial_divider_from_sieve_eq slack T fuel num 2 m count (le_refl _)
    (fun _ q hq hlt => absurd hq.two_le (by omega))
/-! ## Factoring: the factor list and the byte past the table -/

theorem store_all_fits (vs : List Int) (hlen : vs.length ≤ MAX_FACTORS) :
    store_all { slots := zeroPrimes, spill := [] } 0 vs =
      { slots := vs ++ List.replicate (MAX_FACTORS - vs.length) 0, spill := [] } := by
  have h := store_all_front vs [] zeroPrimes []
  simp only [List.nil_append, List.length_nil, Nat.zero_add] at h
  rw [h]
  have hz : zeroPrimes.length = MAX_FACTORS := by simp [zeroPrimes]
  rw [hz, List.take_of_length_le hlen, List.drop_eq_nil_of_le hlen]
  simp [spill_of, zeroPrimes]

theorem minFac_prime_sq (p : ℕ) (hp : p.Prime) : (p * p).minFac = p := by
  have hp2 := hp.two_le
  have hq : (p * p).minFac.Prime := Nat.minFac_prime (by nlinarith)
  have hd : (p * p).minFac ∣ p * p := Nat.minFac_dvd _
  rcases (Nat.Prime.dvd_mul hq).mp hd with h | h <;>
    exact (Nat.prime_dvd_prime_iff_eq hq hp).mp h

/-- The square of a prime gets no factor at all when the byte past the flag
table is not 0: the read of `flags[p]` makes the scan skip p. -/
theorem factor_prime_sq_skipped (slack p : ℕ) (hp : p.Prime) (hs : slack ≠ 0) :
    factor_mem slack (mkData ((p * p : ℕ) : ℤ)) = { slots := zeroPrimes, spill := [] } ∧
      factor_list slack ((p * p : ℕ) : ℤ) = [] := by
  have hp2 := hp.two_le
  have hm : factor_mem slack (mkData ((p * p : ℕ) : ℤ)) = { slots := zeroPrimes, spill := [] } :=
    factor_mem_at_threshold slack (p * p) (by nlinarith) (Nat.not_prime_mul (by omega) (by omega))
      hs (by rw [minFac_prime_sq p hp, Nat.sqrt_eq]) zeroPrimes
  refine ⟨hm, ?_⟩
  unfold factor_list printed_factors factor
  rw [hm]
  rfl

/-- For 2 ≤ n ≤ 2047 no store of `factor` falls outside the ten slots,
whatever the byte past the flag table holds. -/
theorem factor_stores_in_bounds (slack n : ℕ) (h2 : 2 ≤ n) (h : n ≤ 2047) :
    (factor_mem slack (mkData n)).spill = [] ∧
      (factor_mem slack (mkData n)).slots.length = MAX_FACTORS := by
  have hcap : (Nat.primeFactorsList n).length ≤ MAX_FACTORS :=
    primeFactorsList_length_le n (by omega) (by simp only [MAX_FACTORS]; omega)
  have hlen : (int_factors n).length ≤ MAX_FACTORS := by
    unfold int_factors; rw [List.length_map]; exact hcap
  have hfit : factor_mem slack (mkData n) =
      store_all { slots := zeroPrimes, spill := [] } 0 (int_factors n) →
      (factor_mem slack (mkData n)).spill = [] ∧
        (factor_mem slack (mkData n)).slots.length = MAX_FACTORS := by
    intro hm
    rw [hm, store_all_fits _ hlen]
    refine ⟨rfl, ?_⟩
    simp
    omega
  by_cases hin : n.Prime ∨ n.minFac < Nat.sqrt n
  · exact hfit (factor_mem_inside slack n h2 zeroPrimes hin)
  · push_neg at hin
    by_cases hs : slack = 0
    · exact hfit (factor_mem_eq slack n h2 zeroPrimes (fun _ _ _ => hs))
    · have hsq : n.minFac ^ 2 ≤ n := Nat.minFac_sq_le_self (by omega) hin.1
      have hps : n.minFac ≤ Nat.sqrt n := Nat.le_sqrt.mpr (by rw [← sq]; exact hsq)
      have hm := factor_mem_at_threshold slack n h2 hin.1 hs (by omega) zeroPrimes
      unfold mkData
      rw [hm]
      exact ⟨rfl, by simp [zeroPrimes, MAX_FACTORS]⟩

theorem threshold_100 : Nat.minFac 100 < Nat.sqrt 100 := by
  have h1 : Nat.minFac 100 = 2 := by norm_num
  have h2 : 3 ≤ Nat.sqrt 100 := Nat.le_sqrt.mpr (by norm_num)
  omega

theorem int_factors_100 : int_factors 100 = [2, 2, 5, 5] := by
  unfold int_factors
  norm_num [Nat.primeFactorsList]

theorem primeFactorsList_100_fits : (Nat.primeFactorsList 100).length ≤ MAX_FACTORS := by
  norm_num [Nat.primeFactorsList, MAX_FACTORS]

/-- The factor list of a prime is the prime alone, whatever the byte past the
flag table holds. -/
theorem factor_list_of_prime (slack p : ℕ) (hp : p.Prime) :
    factor_list slack (p : ℤ) = [(p : ℤ)] := by
  have h := (factor_list_inside slack p hp.two_le
    (by rw [Nat.primeFactorsList_prime hp]; simp [MAX_FACTORS]) (Or.inl hp)).1
  rw [h]
  unfold int_factors
  rw [Nat.primeFactorsList_prime hp]
  rfl

/-- The factor lists of the scenario inputs 2, 3, 17 and 100, whatever the byte
past the flag table holds. -/
theorem factor_list_scenario (slack : ℕ) :
    factor_list slack 2 = [2] ∧ factor_list slack 3 = [3] ∧ factor_list slack 17 = [17] ∧
      factor_list slack 100 = [2, 2, 5, 5] := by
  refine ⟨?_, ?_, ?_, ?_⟩
  · exact factor_list_of_prime slack 2 (by decide)
  · exact factor_list_of_prime slack 3 (by decide)
  · exact factor_list_of_prime slack 17 (by decide)
  · have h := (factor_list_inside slack 100 (by decide) primeFactorsList_100_fits
      (Or.inr threshold_100)).1
    rw [int_factors_100] at h
    exact h

/-- C1 (counterexample): 2048 = 2^11 is greater than 1, yet the factors read
from the ten slots of its item are ten 2s, whose product is 1024; and 4 is
greater than 1, yet when the byte past its 2-byte flag table is not 0 the scan
skips index 2 and the factor list is empty, not [2, 2]. -/
theorem factor_list_2048_prod :
    ((1 : ℤ) < 2048 ∧ factor_list 0 2048 = [2, 2, 2, 2, 2, 2, 2, 2, 2, 2] ∧
      (factor_list 0 2048).prod ≠ 2048) ∧
    ((1 : ℤ) < 4 ∧ factor_list 1 4 = [] ∧ (factor_list 1 4).prod ≠ 4 ∧
      factor_list 1 4 ≠ [2, 2]) := by
  decide

/-- C1 (amended): for every integer n > 1 with at most MAX_FACTORS = 10 prime
factors counted with multiplicity that is prime or has its smallest prime
factor below floor(sqrt(n)), and whatever the byte one past the flag table
holds, the factor list produced by `factor` for n (read from the slots as the
consumer reads them) has product n and every entry of it is a prime number;
2 gives [2], 3 gives [3], 17 gives [17] and 100 gives [2,2,5,5]. -/
theorem factor_list_prod_prime (slack n : ℕ) (hn : 1 < n)
    (hcap : (Nat.primeFactorsList n).length ≤ MAX_FACTORS)
    (hin : n.Prime ∨ n.minFac < Nat.sqrt n) :
    (factor_list slack (n : ℤ)).prod = (n : ℤ) ∧
      (∀ x ∈ factor_list slack (n : ℤ), ∃ p : ℕ, p.Prime ∧ x = (p : ℤ)) ∧
      factor_list slack 2 = [2] ∧ factor_list slack 3 = [3] ∧
      factor_list slack 17 = [17] ∧ factor_list slack 100 = [2, 2, 5, 5] := by
  have h := (factor_list_inside slack n hn hcap hin).1
  refine ⟨?_, ?_, factor_list_scenario slack⟩
  · rw [h]; exact int_factors_prod n (by omega)
  · intro x hx
    rw [h] at hx
    unfold int_factors at hx
    obtain ⟨p, hp, rfl⟩ := List.mem_map.mp hx
    exact ⟨p, Nat.prime_of_mem_primeFactorsList hp, rfl⟩

/-- Witness of `factor_list_prod_prime` at n = 100 with the byte past the
table holding 1. -/
theorem factor_list_prod_prime_witness :
    (factor_list 1 ((100 : ℕ) : ℤ)).prod = ((100 : ℕ) : ℤ) ∧
      (∀ x ∈ factor_list 1 ((100 : ℕ) : ℤ), ∃ p : ℕ, p.Prime ∧ x = (p : ℤ)) ∧
      factor_list 1 2 = [2] ∧ factor_list 1 3 = [3] ∧
      factor_list 1 17 = [17] ∧ factor_list 1 100 = [2, 2, 5, 5] :=
  factor_list_prod_prime 1 100 (by decide) primeFactorsList_100_fits (Or.inr threshold_100)

/-- C2 (counterexample): 2 divides 2048 = 2^11 eleven times, but the factor
list read from the ten slots lists it ten times; and 2 divides 4 twice, but
when the byte past the 2-byte flag table is not 0 the factor list of 4 is empty
and lists it no time. -/
theorem factor_list_2048_count :
    ((1 : ℤ) < 2048 ∧ (factor_list 0 2048).count 2 = 10 ∧ Nat.factorization 2048 2 = 11) ∧
    ((1 : ℤ) < 4 ∧ (factor_list 1 4).count 2 = 0 ∧ Nat.factorization 4 2 = 2) := by
  refine ⟨⟨by decide, by decide, ?_⟩, by decide, by decide, ?_⟩
  · have h : (2048 : ℕ) = 2 ^ 11 := by norm_num
    rw [h, Nat.Prime.factorization_pow Nat.prime_two]
    simp
  · have h : (4 : ℕ) = 2 ^ 2 := by norm_num
    rw [h, Nat.Prime.factorization_pow Nat.prime_two]
    simp

/-- C2 (amended): for every integer n > 1 with at most MAX_FACTORS = 10 prime
factors counted with multiplicity that is prime or has its smallest prime
factor below floor(sqrt(n)), and whatever the byte one past the flag table
holds, the factor list produced by `factor` for n is in non-decreasing order
and lists every prime once per multiplicity. -/
theorem factor_list_sorted (slack n : ℕ) (hn : 1 < n)
    (hcap : (Nat.primeFactorsList n).length ≤ MAX_FACTORS)
    (hin : n.Prime ∨ n.minFac < Nat.sqrt n) :
    List.Sorted (fun a b : ℤ => a ≤ b) (factor_list slack (n : ℤ)) ∧
      ∀ p : ℕ, (factor_list slack (n : ℤ)).count (p : ℤ) = Nat.factorization n p := by
  have h := (factor_list_inside slack n hn hcap hin).1
  rw [h]
  unfold int_factors
  constructor
  · unfold List.Sorted
    rw [List.pairwise_map]
    exact (Nat.primeFactorsList_sorted n).imp (fun hab => Int.ofNat_le.mpr hab)
  · intro p
    rw [List.count_map_of_injective _ _ Nat.cast_injective, Nat.primeFactorsList_count_eq]

/-- Witness of `factor_list_sorted` at n = 100 with the byte past the table
holding 1. -/
theorem factor_list_sorted_witness :
    List.Sorted (fun a b : ℤ => a ≤ b) (factor_list 1 ((100 : ℕ) : ℤ)) ∧
      ∀ p : ℕ, (factor_list 1 ((100 : ℕ) : ℤ)).count (p : ℤ) = Nat.factorization 100 p :=
  factor_list_sorted 1 100 (by decide) primeFactorsList_100_fits (Or.inr threshold_100)

/-- C4 (evaluation at the failing input): 7 is prime and 49 fits in a C int;
`factor` allocates a flag table of 7 bytes for 49 and the scan of
`trial_divider` reads index 7, the byte past it.  When that byte holds 1 the
scan skips 7: nothing is stored and the factor list of 49 is empty, not [7, 7];
only when it holds 0 is the list [7, 7]. -/
theorem factor_49_byte_past_table :
    Nat.Prime 7 ∧ factor_flag_size (mkData 49) = 7 ∧
      7 ∈ factor_divider_reads 1 (mkData 49) ∧
      factor_mem 1 (mkData 49) = { slots := zeroPrimes, spill := [] } ∧
      factor_list 1 49 = [] ∧ factor_list 1 49 ≠ [7, 7] ∧ factor_list 0 49 = [7, 7] := by
  refine ⟨by norm_num, by decide, by decide, by decide, by decide, by decide, by decide⟩

/-- C19 (evaluation at the failing input): 4 lies in [2, 2047] and has two
prime factors counted with multiplicity, but when the byte past its 2-byte flag
table holds 1, `factor` performs no store at all: the ten slots stay zero, so
the number of factors written is 0, not 2. -/
theorem factor_4_no_store :
    (2 : ℤ) ≤ 4 ∧ (4 : ℤ) ≤ 2047 ∧ (Nat.primeFactorsList 4).length = 2 ∧
      factor_flag_size (mkData 4) = 2 ∧ 2 ∈ factor_divider_reads 1 (mkData 4) ∧
      factor_mem 1 (mkData 4) = { slots := zeroPrimes, spill := [] } ∧
      ((factor 1 (mkData 4)).primes.filter (fun v => decide (v ≠ 0))).length = 0 := by
  refine ⟨by decide, by decide, by norm_num [Nat.primeFactorsList], by decide, by decide,
    by decide, by decide⟩

/-- C20 (evaluation at the failing input): 9 is composite with smallest prime
factor 3 = floor(sqrt 9); the sieve leaves its 3-byte table all zero, but the
scan of `trial_divider(9, flags, ...)` reads `flags[3]`, the byte past the
table, and when that byte holds 1 the scan passes index 3 and stops at no index
at all: no store is made, with the sieved table as with the all-zero table. -/
theorem scan_9_passes_factor :
    ¬ Nat.Prime 9 ∧ Nat.minFac 9 = 3 ∧ floor_sqrt 9 = 3 ∧
      prime_builder 1 (List.replicate 3 0) 3 = [0, 0, 0] ∧
      readFlag 1 (prime_builder 1 (List.replicate 3 0) 3) 3 = 1 ∧
      trial_divider_reads 1 (prime_builder 1 (List.replicate 3 0) 3) 9 9 2 = [2, 3] ∧
      trial_divider 1 9 9 (prime_builder 1 (List.replicate 3 0) 3)
          { slots := zeroPrimes, spill := [] } 0 = { slots := zeroPrimes, spill := [] } ∧
      trial_divider 1 9 9 (List.replicate 3 0)
          { slots := zeroPrimes, spill := [] } 0 = { slots := zeroPrimes, spill := [] } := by
  refine ⟨by norm_num, by norm_num, by decide, by decide, by decide, by decide, by decide,
    by decide⟩

/-! ## Termination of factoring -/

/-- A budget that is too small does run out: with 3 steps per loop the sieve for
100 is cut short. -/
theorem factor_mem_within_short : factor_mem_within 3 0 (mkData 100) = none := by
  decide

/-- C18: termination of factoring.  For every num (so for every n > 1), and
whatever the flag memory holds: run with any budget of more than num steps per
loop, `factor` never runs out of budget, every loop leaves through its own exit
test or return, and the result is that of `factor_mem`; every recursive
invocation `trial_divider(component, ...)` is made with 2 ≤ component < num of
its caller, so the recursion is well-founded on num; and each loop runs a
bounded number of iterations: the loop of `prime_tester` ends within
floor(sqrt(num)) + 1 steps, the outer and the inner loop of `prime_builder`
within primeThreshold + 1 steps, and the scan of `trial_divider` with all its
recursive invocations within num + 1 steps. -/
theorem factor_terminates (slack : Nat) (num : ℤ) :
    (∀ budget primes, num.toNat < budget →
        factor_mem_within budget slack { num := num, primes := primes } =
          some (factor_mem slack { num := num, primes := primes })) ∧
      List.Chain (fun a b : ℤ => 2 ≤ b ∧ b < a) num (factor_calls slack (mkData num)) ∧
      (∀ budget, floor_sqrt num < budget →
        prime_tester_within budget num = some (prime_tester num)) ∧
      (∀ budget T flags, T < budget →
        prime_builder_outer_within slack T budget budget 2 flags =
          some (prime_builder slack flags T)) ∧
      (∀ budget T i flags, 2 ≤ i → T < budget →
        prime_builder_inner_within T i budget (2 * i) flags =
          some (prime_builder_inner T i T (2 * i) flags)) ∧
      (∀ budget flags m count, num.toNat < budget →
        trial_divider_from_within slack flags budget budget num 2 m count =
          some (trial_divider slack num.toNat num flags m count)) := by
  refine ⟨?_, ?_, ?_, ?_, ?_, ?_⟩
  · intro budget primes h
    exact factor_mem_within_eq slack budget _ h
  · unfold factor_calls mkData
    simp only []
    split
    · exact List.Chain.nil
    · exact trial_divider_calls_chain slack _ _ num 2 (le_refl _)
  · intro budget h
    exact prime_tester_within_eq budget num h
  · intro budget T flags h
    unfold prime_builder
    exact prime_builder_outer_within_eq slack T budget h budget T 2 flags (le_refl _) (by omega)
      (by omega) (by omega)
  · intro budget T i flags hi h
    exact prime_builder_inner_within_eq T i (by omega) budget T (2 * i) flags (by omega)
      (by omega) (by omega)
  · intro budget flags m count h
    unfold trial_divider
    exact trial_divider_from_within_eq slack flags budget budget num.toNat num 2 m count
      (le_refl _) h (by omega) (by omega)

/-- Witness of `factor_terminates`: `factor` on 100 with a budget of 101 steps
per loop. -/
theorem factor_terminates_witness :
    factor_mem_within 101 0 { num := 100, primes := zeroPrimes } =
      some (factor_mem 0 { num := 100, primes := zeroPrimes }) :=
  (factor_terminates 0 100).1 101 zeroPrimes (by decide)

end P4
